import Mathlib

/-!
# Glob matching: a shallow embedding of the `glob` package

The Go functions `classIsValid`, `matchClass`, `getClass`, `nextPattern`,
`nextValidPattern`, `Validate`, `matchSimple`, `matchDirectory`,
`matchRecursivePattern`, `matchRecursively` and `Match` are rendered as Lean
functions over lists of runes.

* A rune is a natural number (its code point), a rune slice a `List Nat`.
* Every index expression `p[i]` and slice expression `p[a:b]` is checked; a
  bound that is out of range yields `Run.panic`, the Go run-time panic.
* Every Go loop is a function that recurses on an iteration budget; a budget
  that runs out yields `Run.fuel`, which is a verdict about the model and not
  a behaviour of the program.  The budgets handed out by the entry points
  are bounds on the number of iterations the Go loop can perform.
* Counts that the Go code computes with subtraction are integers.
-/

namespace Glob

/-- Outcome of running a piece of the program. -/
inductive Run (α : Type) where
  /-- normal completion with a value -/
  | ok (a : α)
  /-- run-time panic: an index or a slice bound is out of range -/
  | panic
  /-- the iteration budget of the model is used up -/
  | fuel
  deriving DecidableEq, Repr

/-- Sequencing of program fragments: the first failure is the result. -/
def Run.bind {α β : Type} (x : Run α) (f : α → Run β) : Run β :=
  match x with
  | .ok a => f a
  | .panic => .panic
  | .fuel => .fuel

instance : Monad Run where
  pure := Run.ok
  bind := Run.bind

/-- The error values of `errors.go`. -/
inductive globError where
  | ErrGlobZeroLength
  | ErrGlobNoLeftBracket
  | ErrGlobTruncated
  | ErrGlobInvalidEscape
  | ErrGlobInvalidRange
  | ErrGlobReservedSymbol
  deriving DecidableEq, Repr

/-- The chunk kinds of `pattern_type.go`. -/
inductive patternType where
  | patternSimple
  | patternDirectory
  | patternRecursive
  | patternUnknown
  deriving DecidableEq, Repr

open globError patternType

/-- The conversion `[]rune(s)` of a well-formed string. -/
def runes (s : String) : List Nat := s.toList.map Char.toNat

/-- The constant `escapeCharacter`, a backslash. -/
def escapeCharacter : Nat := 92

/-- The constant `GlobSeparator`, a forward slash. -/
def GlobSeparator : Nat := 47

/-- Modelled from the spec: the constant `Separator` is declared in a platform
file that is not among the sources; on the POSIX profile the path separator
is the forward slash. -/
def Separator : Nat := 47

/-- Modelled from the spec: the constant `SeparatorString` is declared in a
platform file that is not among the sources; on the POSIX profile it is the
one-byte string holding a forward slash. -/
def SeparatorString : List Nat := [47]

/-- Membership in `reservedSymbols` as filled by `reserved_symbols_linux.go`:
NUL is the only reserved symbol. -/
def isReservedSymbol (symbol : Nat) : Bool := symbol == 0

/-- The index expression `xs[i]`. -/
def idx (xs : List Nat) (i : Nat) : Run Nat :=
  match xs[i]? with
  | some r => .ok r
  | none => .panic

/-- The slice expression `xs[lo:]`.  -/
def sliceFrom (xs : List Nat) (lo : Int) : Run (List Nat) :=
  if 0 ≤ lo ∧ lo ≤ (xs.length : Int) then .ok (xs.drop lo.toNat) else .panic

/-- The slice expression `xs[:hi]`, with the bound checked against the
length. -/
def sliceTo (xs : List Nat) (hi : Nat) : Run (List Nat) :=
  if hi ≤ xs.length then .ok (xs.take hi) else .panic

/-- The slice expression `xs[lo:hi]`, with the bounds checked against the
length.  Its one use is `pattern[start:end]` in `nextPattern`, which is
followed by `pattern[end:]`: an `end` above the length panics there at the
latest. -/
def slice (xs : List Nat) (lo hi : Nat) : Run (List Nat) :=
  if lo ≤ hi ∧ hi ≤ xs.length then .ok ((xs.take hi).drop lo) else .panic

/-! ## Strings of bytes (`string(path)`, `strings.Contains`, `strings.Index`) -/

/-- UTF-8 encoding of one rune as done by the conversion `string([]rune)`:
surrogates and values above U+10FFFF are encoded as U+FFFD. -/
def encodeRune (r : Nat) : List Nat :=
  if r < 0x80 then [r]
  else if r < 0x800 then [0xC0 + r / 64, 0x80 + r % 64]
  else if (0xD800 ≤ r ∧ r ≤ 0xDFFF) ∨ 0x10FFFF < r then [0xEF, 0xBF, 0xBD]
  else if r < 0x10000 then [0xE0 + r / 4096, 0x80 + r / 64 % 64, 0x80 + r % 64]
  else [0xF0 + r / 262144, 0x80 + r / 4096 % 64, 0x80 + r / 64 % 64, 0x80 + r % 64]

/-- The conversion `string(path)` of a rune slice to a string of bytes. -/
def runesToString : List Nat → List Nat
  | [] => []
  | r :: rest => encodeRune r ++ runesToString rest

/-- Go's `strings.HasPrefix` on strings of bytes. -/
def startsWith : List Nat → List Nat → Bool
  | _, [] => true
  | [], _ :: _ => false
  | b :: s, c :: sub => b == c && startsWith s sub

/-- Go's `strings.Index`: the byte offset of the first occurrence of `sub` in
`s`, or `-1` when there is none. -/
def stringsIndex : List Nat → List Nat → Int
  | [], sub => if sub.isEmpty then 0 else -1
  | b :: s, sub =>
    if startsWith (b :: s) sub then 0
    else
      let r := stringsIndex s sub
      if r < 0 then -1 else r + 1

/-- Go's `strings.Contains`, which is `strings.Index(s, sub) >= 0`. -/
def stringsContains (s sub : List Nat) : Bool := decide (0 ≤ stringsIndex s sub)

/-! ## Character classes (`match_class.go`) -/

/-- The `for` loop of `classIsValid`.  The state is the index `i`, the rune
`lo`, the flag `done` and the pending error; the result is the final `i`
and error.  Each call tests the loop condition and, when it holds, runs the
body and the post statement `i++`. -/
def classIsValidLoop (pattern : List Nat) :
    Nat → Nat → Nat → Bool → Option globError → Run (Nat × Option globError)
  | 0, _, _, _, _ => .fuel
  | fuel + 1, i, lo, done, err =>
    if done = false ∧ err = none ∧ i < pattern.length then do
      let token ← idx pattern i
      if token = escapeCharacter then
        if i < pattern.length - 1 then do
          -- skip the escape character
          let i := i + 1
          let lo ← idx pattern i
          if lo = 33 ∨ lo = 45 ∨ lo = 93 ∨ lo = escapeCharacter then
            if lo = 93 ∧ i = pattern.length - 1 then
              classIsValidLoop pattern fuel (i + 1) lo done (some ErrGlobTruncated)
            else
              classIsValidLoop pattern fuel (i + 1) lo done err
          else
            classIsValidLoop pattern fuel (i + 1) lo done (some ErrGlobInvalidEscape)
        else
          classIsValidLoop pattern fuel (i + 1) lo done (some ErrGlobTruncated)
      else if token = 93 then
        -- `i != 1 || i != 2 && pattern[1] == '!'`
        if i ≠ 1 then
          classIsValidLoop pattern fuel (i + 1) lo true err
        else do
          let p1 ← idx pattern 1
          if i ≠ 2 ∧ p1 = 33 then
            classIsValidLoop pattern fuel (i + 1) lo true err
          else
            classIsValidLoop pattern fuel (i + 1) lo done err
      else if token = 45 then do
        -- `i == 1 || i == 2 && pattern[1] == '!' || i == len(pattern)-2`
        let literal ←
          (if i = 1 then (.ok true : Run Bool)
           else if i = 2 then do
             let p1 ← idx pattern 1
             if p1 = 33 then .ok true else .ok (decide (i = pattern.length - 2))
           else .ok (decide (i = pattern.length - 2)))
        if literal then
          classIsValidLoop pattern fuel (i + 1) lo done err
        else do
          -- a range: its high bound is the next rune
          let i := i + 1
          let hi ← idx pattern i
          if (GlobSeparator > lo ∧ GlobSeparator < hi) ∨ hi = escapeCharacter then
            classIsValidLoop pattern fuel (i + 1) lo done (some ErrGlobInvalidRange)
          else
            classIsValidLoop pattern fuel (i + 1) lo done err
      else
        classIsValidLoop pattern fuel (i + 1) token done err
    else .ok (i, err)

/-- The function `classIsValid`: the length read and the error found, if
any. -/
def classIsValid (pattern : List Nat) : Run (Nat × Option globError) :=
  if pattern.length = 0 then .ok (0, some ErrGlobZeroLength)
  else do
    let p0 ← idx pattern 0
    if p0 ≠ 91 then .ok (1, some ErrGlobNoLeftBracket)
    else do
      -- `len(pattern) < 3 || pattern[1] == '!' && len(pattern) < 4`
      let short ←
        (if pattern.length < 3 then (.ok true : Run Bool)
         else do
           let p1 ← idx pattern 1
           .ok (decide (p1 = 33 ∧ pattern.length < 4)))
      if short then .ok (pattern.length - 1, some ErrGlobTruncated)
      else do
        let (i, err) ← classIsValidLoop pattern (pattern.length + 1) 1 0 false none
        match err with
        | some e => .ok (i, some e)
        | none => do
          let last ← idx pattern (i - 1)
          if last ≠ 93 then .ok (i, some ErrGlobTruncated) else .ok (i, none)

/-- The `for` loop of `classIsValid` with the flag `done` kept in the result:
the final `i`, `done` and error.  The flag is set in one place, the case of
a right bracket that ends the class. -/
def classIsValidScan (pattern : List Nat) :
    Nat → Nat → Nat → Bool → Option globError → Run (Nat × Bool × Option globError)
  | 0, _, _, _, _ => .fuel
  | fuel + 1, i, lo, done, err =>
    if done = false ∧ err = none ∧ i < pattern.length then do
      let token ← idx pattern i
      if token = escapeCharacter then
        if i < pattern.length - 1 then do
          -- skip the escape character
          let i := i + 1
          let lo ← idx pattern i
          if lo = 33 ∨ lo = 45 ∨ lo = 93 ∨ lo = escapeCharacter then
            if lo = 93 ∧ i = pattern.length - 1 then
              classIsValidScan pattern fuel (i + 1) lo done (some ErrGlobTruncated)
            else
              classIsValidScan pattern fuel (i + 1) lo done err
          else
            classIsValidScan pattern fuel (i + 1) lo done (some ErrGlobInvalidEscape)
        else
          classIsValidScan pattern fuel (i + 1) lo done (some ErrGlobTruncated)
      else if token = 93 then
        -- `i != 1 || i != 2 && pattern[1] == '!'`
        if i ≠ 1 then
          classIsValidScan pattern fuel (i + 1) lo true err
        else do
          let p1 ← idx pattern 1
          if i ≠ 2 ∧ p1 = 33 then
            classIsValidScan pattern fuel (i + 1) lo true err
          else
            classIsValidScan pattern fuel (i + 1) lo done err
      else if token = 45 then do
        -- `i == 1 || i == 2 && pattern[1] == '!' || i == len(pattern)-2`
        let literal ←
          (if i = 1 then (.ok true : Run Bool)
           else if i = 2 then do
             let p1 ← idx pattern 1
             if p1 = 33 then .ok true else .ok (decide (i = pattern.length - 2))
           else .ok (decide (i = pattern.length - 2)))
        if literal then
          classIsValidScan pattern fuel (i + 1) lo done err
        else do
          -- a range: its high bound is the next rune
          let i := i + 1
          let hi ← idx pattern i
          if (GlobSeparator > lo ∧ GlobSeparator < hi) ∨ hi = escapeCharacter then
            classIsValidScan pattern fuel (i + 1) lo done (some ErrGlobInvalidRange)
          else
            classIsValidScan pattern fuel (i + 1) lo done err
      else
        classIsValidScan pattern fuel (i + 1) token done err
    else .ok (i, done, err)

/-- The scan `for _, token := range pattern` at the head of `matchClass`. -/
def listsSeparator (pattern : List Nat) : Bool :=
  pattern.any (fun token => token == GlobSeparator)

/-- The principal loop of `matchClass`.  The state is `i`, `escaped` and
`matched`; the result is the final `matched`. -/
def matchClassLoop (pattern : List Nat) (value : Nat) :
    Nat → Nat → Bool → Bool → Run Bool
  | 0, _, _, _ => .fuel
  | fuel + 1, i, escaped, matched =>
    if matched then .ok matched
    else do
      -- `(pattern[i] != ']' || i == 1) || escaped`
      let pi ← idx pattern i
      if (pi ≠ 93 ∨ i = 1) ∨ escaped = true then do
        let token := pi
        let escaped := !escaped && decide (token = escapeCharacter)
        let (i, token) ←
          (if escaped then do
             let t ← idx pattern (i + 1)
             (.ok (i + 1, t) : Run (Nat × Nat))
           else .ok (i, token))
        let lo := token
        let i := i + 1
        let token ← idx pattern i
        -- `token == '-' && pattern[i+1] != ']'`
        let range ←
          (if token = 45 then do
             let nxt ← idx pattern (i + 1)
             (.ok (decide (nxt ≠ 93)) : Run Bool)
           else .ok false)
        if range then do
          let i := i + 1
          let token ← idx pattern i
          let escaped := decide (token = escapeCharacter)
          let (i, token) ←
            (if escaped then do
               let t ← idx pattern (i + 1)
               (.ok (i + 1, t) : Run (Nat × Nat))
             else .ok (i, token))
          let hi := token
          matchClassLoop pattern value fuel i false (decide (value ≥ lo ∧ value ≤ hi))
        else
          matchClassLoop pattern value fuel i false (decide (value ≥ lo ∧ value ≤ lo))
      else .ok matched

/-- The function `matchClass`. -/
def matchClass (pattern : List Nat) (value : Nat) (negated : Bool) : Run Bool :=
  if value = Separator ∧ negated = false ∧ listsSeparator pattern = true then .ok true
  else if value = Separator ∧ negated = true then .ok false
  else do
    let matched ← matchClassLoop pattern value (pattern.length + 1) (if negated then 2 else 1) false false
    .ok (matched != negated)

/-- The `for` loop of `getClass`: the value of `i` when the loop is left. -/
def getClassLoop (pattern : List Nat) (negated : Bool) : Nat → Nat → Run Nat
  | 0, _ => .fuel
  | fuel + 1, i => do
    let token ← idx pattern i
    if token = 93 then
      -- `i != 1 || i != 2 && negated`
      if i ≠ 1 ∨ (i ≠ 2 ∧ negated = true) then .ok (i + 1)
      else getClassLoop pattern negated fuel (i + 1)
    else if token = escapeCharacter then getClassLoop pattern negated fuel (i + 2)
    else getClassLoop pattern negated fuel (i + 1)

/-- The function `getClass`: the negation flag and the class subpattern. -/
def getClass (pattern : List Nat) : Run (Bool × List Nat) := do
  let p1 ← idx pattern 1
  let negated := decide (p1 = 33)
  let i ← getClassLoop pattern negated (pattern.length + 1) 1
  let subpattern ← sliceTo pattern i
  .ok (negated, subpattern)

/-! ## Segmentation (`next.go`) -/

/-- The loop `for ; start < len(pattern) && pattern[start] == '*'; start++`
that skips a run of asterisks: the final value of `start`. -/
def skipAsterisks (pattern : List Nat) : Nat → Nat → Run Nat
  | 0, _ => .fuel
  | fuel + 1, start =>
    if start < pattern.length then do
      let token ← idx pattern start
      if token = 42 then skipAsterisks pattern fuel (start + 1) else .ok start
    else .ok start

/-- The loop labelled `endPattern` of `nextPattern`: the final value of
`end`.  The state is `end` and `inClass`. -/
def nextPatternLoop (pattern : List Nat) : Nat → Nat → Bool → Run Nat
  | 0, _, _ => .fuel
  | fuel + 1, stop, inClass =>
    if stop < pattern.length then do
      let token ← idx pattern stop
      if token = escapeCharacter then
        -- inside a class the escaped rune is skipped as well
        if inClass then nextPatternLoop pattern fuel (stop + 1 + 1) inClass
        else nextPatternLoop pattern fuel (stop + 1) inClass
      else if token = 91 then nextPatternLoop pattern fuel (stop + 1) true
      else if token = 93 then nextPatternLoop pattern fuel (stop + 1) false
      else if token = 42 then
        if inClass = false then .ok stop
        else nextPatternLoop pattern fuel (stop + 1) inClass
      else nextPatternLoop pattern fuel (stop + 1) inClass
    else .ok stop

/-- The first part of `nextPattern`: the value of `start` and the kind. -/
def nextPatternStart (pattern : List Nat) : Run (Nat × patternType) :=
  if pattern.length > 0 then do
    let p0 ← idx pattern 0
    if p0 = 42 then
      if 1 < pattern.length then do
        let p1 ← idx pattern 1
        if p1 = 42 then do
          let start ← skipAsterisks pattern (pattern.length + 1) 2
          .ok (start, patternRecursive)
        else .ok (1, patternDirectory)
      else .ok (1, patternDirectory)
    else .ok (0, patternSimple)
  else .ok (0, patternSimple)

/-- The function `nextPattern`: head, tail and kind of the next chunk. -/
def nextPattern (pattern : List Nat) : Run (List Nat × List Nat × patternType) := do
  let (start, kind) ← nextPatternStart pattern
  let stop ← nextPatternLoop pattern (pattern.length + 1) start false
  let head ← slice pattern start stop
  let tail ← sliceFrom pattern stop
  .ok (head, tail, kind)

/-! ## Validation (`validate.go`) -/

/-- The loop labelled `endPattern` of `nextValidPattern`: the final value of
`end` and the error.  The state is `end` and `isEscaped`; the loop is left as
soon as an error is set. -/
def nextValidPatternLoop (pattern : List Nat) :
    Nat → Nat → Bool → Run (Nat × Option globError)
  | 0, _, _ => .fuel
  | fuel + 1, stop, isEscaped =>
    if stop < pattern.length then do
      let token ← idx pattern stop
      if isReservedSymbol token then .ok (stop, some ErrGlobReservedSymbol)
      else if isEscaped then
        if token ≠ 63 ∧ token ≠ 91 ∧ token ≠ 42 ∧ token ≠ escapeCharacter then
          .ok (stop, some ErrGlobInvalidEscape)
        else nextValidPatternLoop pattern fuel (stop + 1) false
      else if token = escapeCharacter then nextValidPatternLoop pattern fuel (stop + 1) true
      else if token = 63 then nextValidPatternLoop pattern fuel (stop + 1) false
      else if token = 91 then do
        let sub ← sliceFrom pattern stop
        let (count, err) ← classIsValid sub
        -- `end += count - 1`, then the post statement `end++`
        match err with
        | some e => .ok (stop + count, some e)
        | none => nextValidPatternLoop pattern fuel (stop + count) false
      else if token = 42 then .ok (stop, none)
      else nextValidPatternLoop pattern fuel (stop + 1) false
    else .ok (stop, none)

/-- The function `nextValidPattern`: head, tail and error. -/
def nextValidPattern (pattern : List Nat) :
    Run (List Nat × List Nat × Option globError) := do
  let start ←
    (if pattern.length > 0 then do
       let p0 ← idx pattern 0
       if p0 = 42 then skipAsterisks pattern (pattern.length + 1) 0 else .ok 0
     else (.ok 0 : Run Nat))
  let (stop, err) ← nextValidPatternLoop pattern (pattern.length + 1) start false
  let head ← sliceTo pattern stop
  let tail ← sliceFrom pattern stop
  .ok (head, tail, err)

/-- The `for` loop of `Validate`.  The state is `head`, `tail`, `err` and
`index`. -/
def ValidateLoop :
    Nat → List Nat → List Nat → Option globError → Nat → Run (Nat × Option globError)
  | 0, _, _, _, _ => .fuel
  | fuel + 1, head, tail, err, index =>
    if err = none ∧ head.length > 0 then do
      let (head, tail, err) ← nextValidPattern tail
      ValidateLoop fuel head tail err (index + head.length)
    else .ok (index, err)

/-- The function `Validate`, applied to the runes of the pattern string: the
length and the error (`none` is Go's `nil`). -/
def Validate (pattern : List Nat) : Run (Nat × Option globError) := do
  let (head, tail, err) ← nextValidPattern pattern
  ValidateLoop (pattern.length + 1) head tail err head.length

/-! ## Simple chunks (`match_simple_linux.go`) -/

/-- The loop labelled `mismatch` of `matchSimple`.  The state is `index`,
`matchedCount`, `isEscaped` and `matched`; the result is the final `matched`,
`index` and `matchedCount`. -/
def matchSimpleLoop (pattern path : List Nat) :
    Nat → Nat → Nat → Bool → Bool → Run (Bool × Nat × Nat)
  | 0, _, _, _, _ => .fuel
  | fuel + 1, index, matchedCount, isEscaped, matched =>
    if index < pattern.length ∧ matchedCount < path.length ∧ matched = true then do
      let token ← idx pattern index
      let value ← idx path matchedCount
      if isEscaped then
        if token = value then
          matchSimpleLoop pattern path fuel (index + 1) (matchedCount + 1) false matched
        else .ok (false, index + 1, matchedCount)
      else if token = escapeCharacter then
        matchSimpleLoop pattern path fuel (index + 1) matchedCount true matched
      else if token = 91 then do
        let sub ← sliceFrom pattern index
        let (negated, classPattern) ← getClass sub
        let m ← matchClass classPattern value negated
        if m then
          -- `index += len(classPattern) - 1`, then the post statement
          matchSimpleLoop pattern path fuel (index + (classPattern.length - 1) + 1)
            (matchedCount + 1) false m
        else .ok (m, index + 1, matchedCount)
      else if token = 63 then
        if value ≠ Separator then
          matchSimpleLoop pattern path fuel (index + 1) (matchedCount + 1) false matched
        else .ok (false, index + 1, matchedCount)
      else
        if token = value then
          matchSimpleLoop pattern path fuel (index + 1) (matchedCount + 1) false matched
        else .ok (false, index + 1, matchedCount)
    else .ok (matched, index, matchedCount)

/-- The function `matchSimple`. -/
def matchSimple (pattern path : List Nat) : Run (Bool × Int) :=
  if pattern.length = 0 ∧ path.length > 0 then .ok (false, 0)
  else do
    let (matched, index, matchedCount) ←
      matchSimpleLoop pattern path (pattern.length + 1) 0 0 false true
    .ok (matched && decide (index = pattern.length), (matchedCount : Int))

/-! ## Single-level wildcard (`match_directory.go`) -/

/-- The loop `for i = 0; i < len(path) && path[i] != Separator; i++` of
`matchDirectory`: the final value of `i`. -/
def separatorScan : List Nat → Nat
  | [] => 0
  | r :: rest => if r ≠ Separator then separatorScan rest + 1 else 0

/-- The loop `for retry` of `matchDirectory`.  The state is `path` and
`subtotal`; the result is the final `simpleMatch`, `simpleCount`, `path` and
`subtotal`. -/
def matchDirectoryRetry (head : List Nat) :
    Nat → List Nat → Int → Run (Bool × Int × List Nat × Int)
  | 0, _, _ => .fuel
  | fuel + 1, path, subtotal => do
    let (simpleMatch, simpleCount) ← matchSimple head path
    if simpleMatch = false then
      if path.length > 1 then do
        let p0 ← idx path 0
        if p0 ≠ Separator then do
          -- `simpleCount = 1`, `path = path[1:]`, `subtotal++`
          let path ← sliceFrom path 1
          if path.length > 0 then matchDirectoryRetry head fuel path (subtotal + 1)
          else .ok (simpleMatch, 1, path, subtotal + 1)
        else .ok (simpleMatch, 0, path, subtotal)
      else .ok (simpleMatch, 0, path, subtotal)
    else .ok (simpleMatch, simpleCount, path, subtotal + simpleCount)

/-- The loop `for more` of `matchDirectory`.  The state is `path` and
`total`. -/
def matchDirectoryLoop (head tail : List Nat) :
    Nat → List Nat → Int → Run (Bool × Int)
  | 0, _, _ => .fuel
  | fuel + 1, path, total =>
    if head.length = 0 then
      let i := separatorScan path
      if i = path.length then .ok (true, (i : Int)) else .ok (false, total)
    else do
      let (simpleMatch, simpleCount, path, subtotal) ←
        matchDirectoryRetry head (path.length + 1) path 0
      if simpleMatch then
        if tail.length = 0 ∧ (path.length : Int) > simpleCount then
          if path.length > 1 then do
            let p0 ← idx path 0
            if p0 ≠ Separator then do
              let path ← sliceFrom path 1
              matchDirectoryLoop head tail fuel path (total + (1 + subtotal - simpleCount))
            else .ok (false, total + subtotal)
          else .ok (false, total + subtotal)
        else .ok (simpleMatch, total + subtotal)
      else .ok (simpleMatch, total)

/-- The function `matchDirectory`. -/
def matchDirectory (head tail path : List Nat) : Run (Bool × Int) :=
  matchDirectoryLoop head tail (path.length + 1) path 0

/-! ## Multi-level wildcard (`match_recursively.go`) -/

/-- The loop `for !match && len(current) > 0 && subtotal > 0` of
`matchRecursivePattern`.  The state is `match`, `subtotal`, `total` and
`current`. -/
def matchRecursiveHead (head : List Nat) :
    Nat → Bool → Int → Int → List Nat → Run (Bool × Int × Int × List Nat)
  | 0, _, _, _, _ => .fuel
  | fuel + 1, mtch, subtotal, total, current =>
    if mtch = false ∧ current.length > 0 ∧ subtotal > 0 then do
      let (m, s) ← matchSimple head current
      if m = false then
        if current.length > 1 then do
          let current ← sliceFrom current 1
          matchRecursiveHead head fuel m 1 (total + 1) current
        else matchRecursiveHead head fuel m 0 (total + 0) current
      else matchRecursiveHead head fuel m s (total + s) current
    else .ok (mtch, subtotal, total, current)

/-- The variables of `matchRecursivePattern` that its loops update. -/
structure RecursiveState where
  /-- the chunk being matched -/
  head : List Nat
  /-- the pattern after that chunk -/
  tail : List Nat
  /-- the kind of that chunk -/
  kind : patternType
  /-- the variable `match` -/
  mtch : Bool
  /-- the count of the last matcher call -/
  subtotal : Int
  /-- the running count -/
  total : Int
  /-- the path still to be matched -/
  current : List Nat
  /-- the path at the present anchor -/
  shifted : List Nat
  /-- whether the outer loop goes round again -/
  more : Bool
  deriving DecidableEq, Repr

/-- The loop `for kind == patternDirectory && match && ...` of
`matchRecursivePattern`. -/
def matchRecursiveTail (pattern path : List Nat) :
    Nat → RecursiveState → Run RecursiveState
  | 0, _ => .fuel
  | fuel + 1, s =>
    if s.kind = patternDirectory ∧ s.mtch = true ∧
        (s.head.length > 0 ∨ s.tail.length > 0 ∨ s.current.length > 0) then do
      let current ← sliceFrom s.current s.subtotal
      let (m, subtotal) ← matchDirectory s.head s.tail current
      if m = false then do
        -- start over one rune further in the path
        let (head, tail, kind) ← nextPattern pattern
        let shifted ← sliceFrom s.shifted 1
        matchRecursiveTail pattern path fuel
          { head := head, tail := tail, kind := kind, mtch := m, subtotal := subtotal,
            total := (path.length : Int) - (shifted.length : Int),
            current := shifted, shifted := shifted, more := true }
      else do
        let current ← sliceFrom current subtotal
        let (head, tail, kind) ← nextPattern s.tail
        matchRecursiveTail pattern path fuel
          { head := head, tail := tail, kind := kind, mtch := m, subtotal := 0,
            total := s.total + subtotal,
            current := current, shifted := s.shifted, more := s.more }
    else .ok s

/-- The loop `for more` of `matchRecursivePattern`.  The state is `head`,
`tail`, `match`, `total`, `current` and `shifted`. -/
def matchRecursiveLoop (pattern path : List Nat) :
    Nat → List Nat → List Nat → Bool → Int → List Nat → List Nat → Run (Bool × Int)
  | 0, _, _, _, _, _, _ => .fuel
  | fuel + 1, head, tail, mtch, total, current, shifted => do
    let (mtch, subtotal, total, current) ←
      matchRecursiveHead head (current.length + 2) mtch 1 total current
    let (head, tail, kind) ← nextPattern tail
    let s ← matchRecursiveTail pattern path (pattern.length + tail.length + 2)
      { head := head, tail := tail, kind := kind, mtch := mtch, subtotal := subtotal,
        total := total, current := current, shifted := shifted, more := false }
    if s.more then
      matchRecursiveLoop pattern path fuel s.head s.tail s.mtch s.total s.current s.shifted
    else .ok (s.mtch, s.total)

/-- The function `matchRecursivePattern`. -/
def matchRecursivePattern (pattern head tail path : List Nat) : Run (Bool × Int) :=
  if head.length = 0 then .ok (true, (path.length : Int))
  else matchRecursiveLoop pattern path (path.length + 2) head tail false 0 path path

/-- The function `matchRecursively`.  Its loop `for more` sets `more` to
false and never back to true, so the body runs once. -/
def matchRecursively (pattern head tail path : List Nat) : Run (Bool × Int) := do
  let (mtch, subtotal) ← matchRecursivePattern pattern head tail path
  if mtch then .ok (mtch, 0 + subtotal) else .ok (mtch, 0)

/-! ## The orchestrator (`match.go`) -/

/-- The variables of `Match` that its loops update. -/
structure MatchState where
  /-- the pattern still to be matched -/
  pattern : List Nat
  /-- the chunk being matched -/
  head : List Nat
  /-- the pattern after that chunk -/
  tail : List Nat
  /-- the kind of that chunk -/
  kind : patternType
  /-- the path still to be matched -/
  path : List Nat
  /-- the runes matched so far -/
  matchCount : Int
  /-- the variable `patternMatched` -/
  patternMatched : Bool
  deriving DecidableEq, Repr

/-- How a part of `Match` is left: by a `return`, or by falling through to
the next statement. -/
inductive Flow where
  /-- a `return` statement with its values -/
  | ret (r : Bool × Int)
  /-- control reaches the next statement in this state -/
  | next (s : MatchState)
  deriving DecidableEq, Repr

/-- The leading `if kind == patternSimple` of `Match`. -/
def matchFirst (pattern path : List Nat) : Run Flow := do
  let (head, tail, kind) ← nextPattern pattern
  if kind = patternSimple then do
    let (patternMatched, matchCount) ← matchSimple head path
    if patternMatched then do
      let path ← sliceFrom path matchCount
      if tail.length = 0 then .ok (.ret (decide (path.length = 0), matchCount))
      else do
        let (head, tail1, kind) ← nextPattern tail
        .ok (.next { pattern := tail, head := head, tail := tail1, kind := kind, path := path,
                     matchCount := matchCount, patternMatched := patternMatched })
    else do
      let (head, tail1, kind) ← nextPattern tail
      .ok (.next { pattern := tail, head := head, tail := tail1, kind := kind, path := path,
                   matchCount := matchCount, patternMatched := patternMatched })
  else
    .ok (.next { pattern := pattern, head := head, tail := tail, kind := kind, path := path,
                 matchCount := 0, patternMatched := true })

/-- The loop `for kind == patternDirectory && patternMatched && ...` of
`Match`. -/
def matchDirectoryChunks : Nat → MatchState → Run Flow
  | 0, _ => .fuel
  | fuel + 1, s =>
    if s.kind = patternDirectory ∧ s.patternMatched = true ∧
        (s.head.length > 0 ∨ s.tail.length > 0 ∨ s.path.length > 0) then
      if s.head.length = 0 then
        -- the pattern is a lone asterisk
        let matched := !stringsContains (runesToString s.path) SeparatorString
        if matched then .ok (.ret (matched, s.matchCount + (s.path.length : Int)))
        else .ok (.ret (matched,
          s.matchCount + stringsIndex (runesToString s.path) SeparatorString))
      else do
        let (patternMatched, count) ← matchDirectory s.head s.tail s.path
        if patternMatched then do
          let path ← sliceFrom s.path count
          let (head, tail, kind) ← nextPattern s.tail
          matchDirectoryChunks fuel
            { pattern := s.tail, head := head, tail := tail, kind := kind, path := path,
              matchCount := s.matchCount + count, patternMatched := patternMatched }
        else matchDirectoryChunks fuel { s with patternMatched := patternMatched }
    else .ok (.next s)

/-- The loop `for kind == patternRecursive && patternMatched && ...` of
`Match`. -/
def matchRecursiveChunks : Nat → MatchState → Run Flow
  | 0, _ => .fuel
  | fuel + 1, s =>
    if s.kind = patternRecursive ∧ s.patternMatched = true ∧
        (s.head.length > 0 ∨ s.tail.length > 0 ∨ s.path.length > 0) then do
      let r ←
        (if s.head.length = 0 then do
           let (head, tail, kind) ← nextPattern s.tail
           if head.length = 0 then
             -- the pattern is a lone double asterisk
             (.ok (.ret (true, s.matchCount + (s.path.length : Int))) : Run Flow)
           else .ok (.next { s with pattern := s.tail, head := head, tail := tail, kind := kind })
         else .ok (.next s))
      match r with
      | .ret res => .ok (.ret res)
      | .next s => do
        let (patternMatched, count) ← matchRecursively s.pattern s.head s.tail s.path
        if patternMatched then do
          let path ← sliceFrom s.path count
          let (head, tail, kind) ← nextPattern s.tail
          matchRecursiveChunks fuel
            { pattern := s.tail, head := head, tail := tail, kind := kind, path := path,
              matchCount := s.matchCount + count, patternMatched := patternMatched }
        else matchRecursiveChunks fuel { s with patternMatched := patternMatched }
    else .ok (.next s)

/-- The function `Match`, applied to the runes of the pattern string and of
the path string. -/
def Match (pattern path : List Nat) : Run (Bool × Int) := do
  let r ← matchFirst pattern path
  match r with
  | .ret res => .ok res
  | .next s => do
    let r ← matchDirectoryChunks (pattern.length + 2) s
    match r with
    | .ret res => .ok res
    | .next s => do
      let r ← matchRecursiveChunks (pattern.length + 2) s
      match r with
      | .ret res => .ok res
      | .next s => .ok (s.patternMatched && decide (s.path.length = 0), s.matchCount)


/-! ## Specification-level definitions used by the theorems -/

/-- The runes counted by `matchCount` and the runes left in `path` make up a
path of `N` runes, as long as the pattern has matched. -/
def MatchState.accounts (s : MatchState) (N : Nat) : Prop :=
  s.patternMatched = true → s.matchCount + (s.path.length : Int) = (N : Int)

/-- What a single-level wildcard followed by the literal chunk `h` accepts,
by recursion on the path: the path is `h` itself, or it starts with a rune
other than the separator and the rest of it is accepted. -/
def starSpec (h : List Nat) : List Nat → Bool
  | [] => false
  | x :: rest => decide (x :: rest = h) || (decide (x ≠ Separator) && starSpec h rest)

/-- The length of the longest common prefix of two rune slices. -/
def commonPrefixLength : List Nat → List Nat → Nat
  | x :: xs, y :: ys => if x = y then commonPrefixLength xs ys + 1 else 0
  | [], _ => 0
  | _ :: _, [] => 0

/-- The invariant of the loops of `matchRecursivePattern` for a path of `N`
runes: while the pattern matches no re-anchoring is pending and `total`
counts the runes before the unread part of `current`; after a re-anchoring
`total` counts the runes before `current`. -/
def RecursiveState.within (s : RecursiveState) (N : Nat) : Prop :=
  s.shifted.length ≤ N ∧ s.current.length ≤ N ∧
    (s.mtch = true → s.more = false ∧ 0 ≤ s.subtotal ∧ s.subtotal ≤ (s.current.length : Int) ∧
      s.total + ((s.current.length : Int) - s.subtotal) = (N : Int)) ∧
    (s.more = true → s.mtch = false ∧ s.total + (s.current.length : Int) = (N : Int))

/-! ## Auxiliary lemmas -/

@[simp] theorem Run.ok_bind {α β : Type} (a : α) (f : α → Run β) : (Run.ok a >>= f) = f a := rfl
@[simp] theorem Run.panic_bind {α β : Type} (f : α → Run β) : (Run.panic >>= f) = Run.panic := rfl
@[simp] theorem Run.fuel_bind {α β : Type} (f : α → Run β) : (Run.fuel >>= f) = Run.fuel := rfl
@[simp] theorem Run.pure_eq {α : Type} (a : α) : (pure a : Run α) = Run.ok a := rfl

theorem Run.bind_eq_ok {α β : Type} {x : Run α} {f : α → Run β} {b : β} :
    (x >>= f) = Run.ok b ↔ ∃ a, x = Run.ok a ∧ f a = Run.ok b := by
  cases x <;> simp

theorem sliceFrom_ok {xs ys : List Nat} {lo : Int} (h : sliceFrom xs lo = .ok ys) :
    0 ≤ lo ∧ lo ≤ (xs.length : Int) ∧ ys = xs.drop lo.toNat := by
  unfold sliceFrom at h
  split at h
  · rename_i hb
    simp only [Run.ok.injEq] at h
    exact ⟨hb.1, hb.2, h.symm⟩
  · simp at h

theorem sliceTo_ok {xs ys : List Nat} {hi : Nat} (h : sliceTo xs hi = .ok ys) :
    hi ≤ xs.length ∧ ys = xs.take hi := by
  unfold sliceTo at h
  split at h
  · rename_i hb
    simp only [Run.ok.injEq] at h
    exact ⟨hb, h.symm⟩
  · simp at h

theorem idx_ok {xs : List Nat} {i : Nat} {r : Nat} (h : idx xs i = .ok r) :
    i < xs.length ∧ xs[i]? = some r := by
  unfold idx at h
  split at h
  · rename_i r1 hr
    simp only [Run.ok.injEq] at h
    subst h
    exact ⟨(List.getElem?_eq_some_iff.mp hr).1, hr⟩
  · simp at h

theorem nextValidPatternLoop_le (pattern : List Nat) :
    ∀ (fuel stop : Nat) (isEscaped : Bool) (r : Nat × Option globError),
      nextValidPatternLoop pattern fuel stop isEscaped = .ok r → stop ≤ r.1 := by
  intro fuel
  induction fuel with
  | zero => intro stop e r h; simp [nextValidPatternLoop] at h
  | succ n ih =>
    intro stop e r h
    rw [nextValidPatternLoop] at h
    split at h
    · rw [Run.bind_eq_ok] at h
      obtain ⟨token, -, h⟩ := h
      split at h
      · simp only [Run.ok.injEq] at h; subst h; simp
      · split at h
        · split at h
          · simp only [Run.ok.injEq] at h; subst h; simp
          · have := ih _ _ _ h; omega
        · split at h
          · have := ih _ _ _ h; omega
          · split at h
            · have := ih _ _ _ h; omega
            · split at h
              · rw [Run.bind_eq_ok] at h
                obtain ⟨sub, -, h⟩ := h
                rw [Run.bind_eq_ok] at h
                obtain ⟨⟨count, err⟩, -, h⟩ := h
                cases err with
                | some e1 => simp only [Run.ok.injEq] at h; subst h; simp
                | none => have := ih _ _ _ h; simp only at this; omega
              · split at h
                · simp only [Run.ok.injEq] at h; subst h; simp
                · have := ih _ _ _ h; omega
    · simp only [Run.ok.injEq] at h; subst h; simp
theorem classIsValid_ok_none {pattern : List Nat} {n : Nat}
    (h : classIsValid pattern = .ok (n, none)) : 2 ≤ n := by
  unfold classIsValid at h
  split at h
  · simp at h
  · rw [Run.bind_eq_ok] at h
    obtain ⟨p0, hp0, h⟩ := h
    split at h
    · simp at h
    · rename_i hp
      simp only [ne_eq, Decidable.not_not] at hp
      rw [Run.bind_eq_ok] at h
      obtain ⟨short, -, h⟩ := h
      split at h
      · simp at h
      · rw [Run.bind_eq_ok] at h
        obtain ⟨⟨i, err⟩, -, h⟩ := h
        cases err with
        | some e => simp at h
        | none =>
          simp only at h
          rw [Run.bind_eq_ok] at h
          obtain ⟨last, hlast, h⟩ := h
          split at h
          · simp at h
          · rename_i hl
            simp only [ne_eq, Decidable.not_not] at hl
            simp only [Run.ok.injEq, Prod.mk.injEq, and_true] at h
            subst h
            by_contra hlt
            have hi : i - 1 = 0 := by omega
            rw [hi, hp0] at hlast
            simp only [Run.ok.injEq] at hlast
            omega

theorem skipAsterisks_le (pattern : List Nat) :
    ∀ (fuel start r : Nat), skipAsterisks pattern fuel start = .ok r → start ≤ r := by
  intro fuel
  induction fuel with
  | zero => intro s r h; simp [skipAsterisks] at h
  | succ n ih =>
    intro s r h
    rw [skipAsterisks] at h
    split at h
    · rw [Run.bind_eq_ok] at h
      obtain ⟨token, -, h⟩ := h
      split at h
      · have := ih _ _ h; omega
      · simp only [Run.ok.injEq] at h; omega
    · simp only [Run.ok.injEq] at h; omega

theorem nextValidPattern_append {pattern head tail : List Nat} {err : Option globError}
    (h : nextValidPattern pattern = .ok (head, tail, err)) : head ++ tail = pattern := by
  unfold nextValidPattern at h
  rw [Run.bind_eq_ok] at h
  obtain ⟨start, -, h⟩ := h
  rw [Run.bind_eq_ok] at h
  obtain ⟨⟨stop, e⟩, -, h⟩ := h
  simp only at h
  rw [Run.bind_eq_ok] at h
  obtain ⟨hd, hhd, h⟩ := h
  rw [Run.bind_eq_ok] at h
  obtain ⟨tl, htl, h⟩ := h
  simp only [Run.ok.injEq, Prod.mk.injEq] at h
  obtain ⟨rfl, rfl, rfl⟩ := h
  obtain ⟨-, rfl⟩ := sliceTo_ok hhd
  obtain ⟨-, -, rfl⟩ := sliceFrom_ok htl
  simp

theorem nextValidPattern_head_nil {pattern tail : List Nat}
    (h : nextValidPattern pattern = .ok ([], tail, none)) : pattern = [] := by
  by_contra hne
  have hlen : 0 < pattern.length := List.length_pos.mpr hne
  unfold nextValidPattern at h
  rw [Run.bind_eq_ok] at h
  obtain ⟨start, hstart, h⟩ := h
  rw [Run.bind_eq_ok] at h
  obtain ⟨⟨stop, e⟩, hloop, h⟩ := h
  simp only at h
  rw [Run.bind_eq_ok] at h
  obtain ⟨hd, hhd, h⟩ := h
  rw [Run.bind_eq_ok] at h
  obtain ⟨tl, htl, h⟩ := h
  simp only [Run.ok.injEq, Prod.mk.injEq] at h
  obtain ⟨rfl, rfl, rfl⟩ := h
  obtain ⟨hle, hnil⟩ := sliceTo_ok hhd
  have hstop : stop = 0 := by
    rcases Nat.eq_zero_or_pos stop with h0 | h0
    · exact h0
    · exfalso
      have : (List.take stop pattern).length = 0 := by rw [← hnil]; rfl
      rw [List.length_take] at this
      omega
  subst hstop
  have hs0 : start = 0 := by
    have := nextValidPatternLoop_le pattern _ _ _ _ hloop
    simpa using this
  subst hs0
  -- the first rune is not an asterisk
  rw [if_pos hlen, Run.bind_eq_ok] at hstart
  obtain ⟨p0, hp0, hstart⟩ := hstart
  have hp0ne : p0 ≠ 42 := by
    intro h42
    rw [if_pos h42, skipAsterisks] at hstart
    rw [if_pos hlen, hp0] at hstart
    simp only [Run.ok_bind, h42, if_true] at hstart
    have := skipAsterisks_le pattern _ _ _ hstart
    omega
  rw [nextValidPatternLoop, if_pos hlen, hp0] at hloop
  simp only [Run.ok_bind] at hloop
  split at hloop
  · simp at hloop
  · simp only [Bool.false_eq_true, if_false] at hloop
    split at hloop
    · have := nextValidPatternLoop_le pattern _ _ _ _ hloop
      simp at this
    · split at hloop
      · have := nextValidPatternLoop_le pattern _ _ _ _ hloop
        simp at this
      · split at hloop
        · rw [Run.bind_eq_ok] at hloop
          obtain ⟨sub, -, hloop⟩ := hloop
          rw [Run.bind_eq_ok] at hloop
          obtain ⟨⟨count, err⟩, hcls, hloop⟩ := hloop
          cases err with
          | some e1 => simp at hloop
          | none =>
            have h2 := classIsValid_ok_none hcls
            have := nextValidPatternLoop_le pattern _ _ _ _ hloop
            simp only at this
            omega
        · have := nextValidPatternLoop_le pattern _ _ _ _ hloop
          simp at this

theorem ValidateLoop_length :
    ∀ (fuel : Nat) (head tail : List Nat) (err : Option globError) (index n : Nat),
      (err = none → head = [] → tail = []) →
      ValidateLoop fuel head tail err index = .ok (n, none) → n = index + tail.length := by
  intro fuel
  induction fuel with
  | zero => intro head tail err index n _ h; simp [ValidateLoop] at h
  | succ k ih =>
    intro head tail err index n hinv h
    rw [ValidateLoop] at h
    split at h
    · rw [Run.bind_eq_ok] at h
      obtain ⟨⟨h1, t1, e1⟩, hnv, h⟩ := h
      simp only at h
      have happ := nextValidPattern_append hnv
      have := ih h1 t1 e1 _ n (by
        intro he hh
        subst he hh
        have := nextValidPattern_head_nil hnv
        subst this
        simpa using happ) h
      rw [this, ← happ, List.length_append]
      omega
    · rename_i hc
      simp only [Run.ok.injEq, Prod.mk.injEq] at h
      obtain ⟨rfl, rfl⟩ := h
      have : head = [] := by
        by_contra hne
        exact hc ⟨rfl, List.length_pos.mpr hne⟩
      simp [hinv rfl this]

theorem Validate_length {pattern : List Nat} {n : Nat}
    (h : Validate pattern = .ok (n, none)) : n = pattern.length := by
  unfold Validate at h
  rw [Run.bind_eq_ok] at h
  obtain ⟨⟨head, tail, err⟩, hnv, h⟩ := h
  simp only at h
  have happ := nextValidPattern_append hnv
  have := ValidateLoop_length _ head tail err _ n (by
    intro he hh
    subst he hh
    have := nextValidPattern_head_nil hnv
    subst this
    simpa using happ) h
  rw [this, ← happ, List.length_append]

theorem sliceFrom_length {xs ys : List Nat} {lo : Int} (h : sliceFrom xs lo = .ok ys) :
    lo + (ys.length : Int) = (xs.length : Int) := by
  obtain ⟨h0, h1, rfl⟩ := sliceFrom_ok h
  rw [List.length_drop]
  omega

theorem matchFirst_accounts {pattern path : List Nat} {r : Flow}
    (h : matchFirst pattern path = .ok r) :
    (∀ n, r = .ret (true, n) → n = (path.length : Int)) ∧
    (∀ s, r = .next s → s.accounts path.length) := by
  unfold matchFirst at h
  rw [Run.bind_eq_ok] at h
  obtain ⟨⟨head, tail, kind⟩, -, h⟩ := h
  simp only at h
  split at h
  · rw [Run.bind_eq_ok] at h
    obtain ⟨⟨pm, mc⟩, -, h⟩ := h
    simp only at h
    split at h
    · rw [Run.bind_eq_ok] at h
      obtain ⟨path1, hp1, h⟩ := h
      have hlen := sliceFrom_length hp1
      split at h
      · simp only [Run.ok.injEq] at h
        subst h
        refine ⟨?_, by intro s hs; simp at hs⟩
        intro n hn
        simp only [Flow.ret.injEq, Prod.mk.injEq, decide_eq_true_eq] at hn
        omega
      · rw [Run.bind_eq_ok] at h
        obtain ⟨⟨h1, t1, k1⟩, -, h⟩ := h
        simp only [Run.ok.injEq] at h
        subst h
        refine ⟨by intro n hn; simp at hn, ?_⟩
        intro s hs
        simp only [Flow.next.injEq] at hs
        subst hs
        intro _
        simpa using hlen
    · rename_i hpm
      rw [Run.bind_eq_ok] at h
      obtain ⟨⟨h1, t1, k1⟩, -, h⟩ := h
      simp only [Run.ok.injEq] at h
      subst h
      refine ⟨by intro n hn; simp at hn, ?_⟩
      intro s hs
      simp only [Flow.next.injEq] at hs
      subst hs
      intro hx
      exact absurd hx hpm
  · simp only [Run.ok.injEq] at h
    subst h
    refine ⟨by intro n hn; simp at hn, ?_⟩
    intro s hs
    simp only [Flow.next.injEq] at hs
    subst hs
    intro _
    simp

theorem matchDirectoryChunks_accounts (N : Nat) :
    ∀ (fuel : Nat) (s : MatchState) (r : Flow), s.accounts N →
      matchDirectoryChunks fuel s = .ok r →
      (∀ n, r = .ret (true, n) → n = (N : Int)) ∧ (∀ s1, r = .next s1 → s1.accounts N) := by
  intro fuel
  induction fuel with
  | zero => intro s r _ h; simp [matchDirectoryChunks] at h
  | succ k ih =>
    intro s r hs h
    rw [matchDirectoryChunks] at h
    split at h
    · rename_i hc
      have hacc := hs hc.2.1
      split at h
      · simp only at h
        split at h
        · simp only [Run.ok.injEq] at h
          subst h
          refine ⟨?_, by intro s1 h1; simp at h1⟩
          intro n hn
          simp only [Flow.ret.injEq, Prod.mk.injEq] at hn
          omega
        · rename_i hm
          simp only [Run.ok.injEq] at h
          subst h
          refine ⟨?_, by intro s1 h1; simp at h1⟩
          intro n hn
          simp only [Flow.ret.injEq, Prod.mk.injEq] at hn
          exact absurd hn.1 hm
      · rw [Run.bind_eq_ok] at h
        obtain ⟨⟨pm, count⟩, -, h⟩ := h
        simp only at h
        split at h
        · rw [Run.bind_eq_ok] at h
          obtain ⟨path1, hp1, h⟩ := h
          rw [Run.bind_eq_ok] at h
          obtain ⟨⟨h1, t1, k1⟩, -, h⟩ := h
          simp only at h
          have hlen := sliceFrom_length hp1
          refine ih _ r ?_ h
          intro _
          simp only
          omega
        · rename_i hpm
          refine ih _ r ?_ h
          intro hx
          exact absurd hx hpm
    · simp only [Run.ok.injEq] at h
      subst h
      refine ⟨by intro n hn; simp at hn, ?_⟩
      intro s1 h1
      simp only [Flow.next.injEq] at h1
      subst h1
      exact hs

theorem matchRecursiveChunks_accounts (N : Nat) :
    ∀ (fuel : Nat) (s : MatchState) (r : Flow), s.accounts N →
      matchRecursiveChunks fuel s = .ok r →
      (∀ n, r = .ret (true, n) → n = (N : Int)) ∧ (∀ s1, r = .next s1 → s1.accounts N) := by
  intro fuel
  induction fuel with
  | zero => intro s r _ h; simp [matchRecursiveChunks] at h
  | succ k ih =>
    intro s r hs h
    rw [matchRecursiveChunks] at h
    split at h
    · rename_i hc
      have hacc := hs hc.2.1
      rw [Run.bind_eq_ok] at h
      obtain ⟨r1, hr1, h⟩ := h
      have hr1' : (∀ n, r1 = .ret (true, n) → n = (N : Int)) ∧
          (∀ s1, r1 = .next s1 → s1.accounts N ∧ s1.path = s.path ∧
            s1.matchCount = s.matchCount) := by
        split at hr1
        · rw [Run.bind_eq_ok] at hr1
          obtain ⟨⟨h1, t1, k1⟩, -, hr1⟩ := hr1
          simp only at hr1
          split at hr1
          · simp only [Run.ok.injEq] at hr1
            subst hr1
            refine ⟨?_, by intro s1 h1; simp at h1⟩
            intro n hn
            simp only [Flow.ret.injEq, Prod.mk.injEq, true_and] at hn
            omega
          · simp only [Run.ok.injEq] at hr1
            subst hr1
            refine ⟨by intro n hn; simp at hn, ?_⟩
            intro s1 h1
            simp only [Flow.next.injEq] at h1
            subst h1
            exact ⟨fun _ => hacc, rfl, rfl⟩
        · simp only [Run.ok.injEq] at hr1
          subst hr1
          refine ⟨by intro n hn; simp at hn, ?_⟩
          intro s1 h1
          simp only [Flow.next.injEq] at h1
          subst h1
          exact ⟨hs, rfl, rfl⟩
      cases r1 with
      | ret res =>
        simp only [Run.ok.injEq] at h
        subst h
        exact ⟨hr1'.1, by intro s1 h1; simp at h1⟩
      | next s2 =>
        obtain ⟨-, hp2, hm2⟩ := hr1'.2 s2 rfl
        simp only at h
        rw [Run.bind_eq_ok] at h
        obtain ⟨⟨pm, count⟩, -, h⟩ := h
        simp only at h
        split at h
        · rw [Run.bind_eq_ok] at h
          obtain ⟨path1, hp1, h⟩ := h
          rw [Run.bind_eq_ok] at h
          obtain ⟨⟨h1, t1, k1⟩, -, h⟩ := h
          simp only at h
          have hlen := sliceFrom_length hp1
          refine ih _ r ?_ h
          intro _
          simp only
          rw [hp2] at hlen
          omega
        · rename_i hpm
          refine ih _ r ?_ h
          intro hx
          exact absurd hx hpm
    · simp only [Run.ok.injEq] at h
      subst h
      refine ⟨by intro n hn; simp at hn, ?_⟩
      intro s1 h1
      simp only [Flow.next.injEq] at h1
      subst h1
      exact hs

theorem Match_true_count {pattern path : List Nat} {n : Int}
    (h : Match pattern path = .ok (true, n)) : n = (path.length : Int) := by
  unfold Match at h
  rw [Run.bind_eq_ok] at h
  obtain ⟨r0, hr0, h⟩ := h
  obtain ⟨h0a, h0b⟩ := matchFirst_accounts hr0
  cases r0 with
  | ret res =>
    simp only [Run.ok.injEq] at h
    exact h0a n (by rw [h])
  | next s0 =>
    simp only at h
    rw [Run.bind_eq_ok] at h
    obtain ⟨r1, hr1, h⟩ := h
    obtain ⟨h1a, h1b⟩ := matchDirectoryChunks_accounts path.length _ s0 r1 (h0b s0 rfl) hr1
    cases r1 with
    | ret res =>
      simp only [Run.ok.injEq] at h
      exact h1a n (by rw [h])
    | next s1 =>
      simp only at h
      rw [Run.bind_eq_ok] at h
      obtain ⟨r2, hr2, h⟩ := h
      obtain ⟨h2a, h2b⟩ := matchRecursiveChunks_accounts path.length _ s1 r2 (h1b s1 rfl) hr2
      cases r2 with
      | ret res =>
        simp only [Run.ok.injEq] at h
        exact h2a n (by rw [h])
      | next s2 =>
        simp only [Run.ok.injEq, Prod.mk.injEq, Bool.and_eq_true, decide_eq_true_eq] at h
        have := h2b s2 rfl h.1.1
        omega

theorem not_mem_encodeRune (r : Nat) (hr : r ≠ 47) : (47 : Nat) ∉ encodeRune r := by
  unfold encodeRune
  split
  · simp; omega
  · split
    · simp; omega
    · split
      · simp
      · split
        · simp; omega
        · simp; omega

theorem mem_runesToString (path : List Nat) : (47 : Nat) ∈ runesToString path ↔ (47 : Nat) ∈ path := by
  induction path with
  | nil => simp [runesToString]
  | cons r rest ih =>
    rw [runesToString, List.mem_append, ih, List.mem_cons]
    by_cases hr : r = 47
    · subst hr
      simp [encodeRune]
    · have := not_mem_encodeRune r hr
      constructor
      · rintro (h | h)
        · exact absurd h this
        · exact Or.inr h
      · rintro (h | h)
        · exact absurd h.symm hr
        · exact Or.inr h

theorem stringsIndex_nonneg_iff (s : List Nat) : 0 ≤ stringsIndex s [47] ↔ (47 : Nat) ∈ s := by
  induction s with
  | nil => simp [stringsIndex]
  | cons b s ih =>
    rw [stringsIndex]
    by_cases hb : b = 47
    · subst hb
      simp [startsWith]
    · have hp : startsWith (b :: s) [47] = false := by simp [startsWith, hb]
      rw [hp]
      simp only [Bool.false_eq_true, if_false, List.mem_cons]
      split
      · rename_i hneg
        constructor
        · intro h; omega
        · rintro (h | h)
          · exact absurd h.symm hb
          · have := ih.mpr h; omega
      · rename_i hneg
        constructor
        · intro _; exact Or.inr (ih.mp (by omega))
        · intro _; omega

theorem stringsContains_separator (path : List Nat) :
    stringsContains (runesToString path) SeparatorString = true ↔ Separator ∈ path := by
  unfold stringsContains SeparatorString Separator
  rw [decide_eq_true_eq, stringsIndex_nonneg_iff, mem_runesToString]

theorem matchDirectoryChunks_skip (fuel : Nat) (s : MatchState)
    (h : s.kind ≠ patternDirectory ∨ s.patternMatched = false ∨
      (s.head = [] ∧ s.tail = [] ∧ s.path = [])) :
    matchDirectoryChunks (fuel + 1) s = .ok (.next s) := by
  rw [matchDirectoryChunks, if_neg]
  rintro ⟨h1, h2, h3⟩
  rcases h with h | h | ⟨ha, hb, hc⟩
  · exact h h1
  · rw [h] at h2; exact absurd h2 (by decide)
  · rw [ha, hb, hc] at h3
    simp at h3

theorem matchRecursiveChunks_skip (fuel : Nat) (s : MatchState)
    (h : s.kind ≠ patternRecursive ∨ s.patternMatched = false ∨
      (s.head = [] ∧ s.tail = [] ∧ s.path = [])) :
    matchRecursiveChunks (fuel + 1) s = .ok (.next s) := by
  rw [matchRecursiveChunks, if_neg]
  rintro ⟨h1, h2, h3⟩
  rcases h with h | h | ⟨ha, hb, hc⟩
  · exact h h1
  · rw [h] at h2; exact absurd h2 (by decide)
  · rw [ha, hb, hc] at h3
    simp at h3

theorem Match_star_eq (path : List Nat) :
    Match (runes "*") path =
      if path = [] then .ok (true, 0)
      else if stringsContains (runesToString path) SeparatorString = true then
        .ok (false, stringsIndex (runesToString path) SeparatorString)
      else .ok (true, (path.length : Int)) := by
  have hr : runes "*" = [42] := by decide
  have hnp : nextPattern [42] = .ok ([], [], patternDirectory) := by decide
  rw [hr]
  simp only [Match, matchFirst, hnp, Run.ok_bind]
  rw [if_neg (by decide)]
  simp only [Run.ok_bind]
  rw [show [42].length + 2 = 2 + 1 from rfl]
  by_cases hp : path = []
  · subst hp
    rw [if_pos rfl, matchDirectoryChunks_skip _ _ (Or.inr (Or.inr ⟨rfl, rfl, rfl⟩))]
    simp only [Run.ok_bind]
    rw [matchRecursiveChunks_skip _ _ (Or.inl (by decide))]
    rfl
  · rw [if_neg hp, matchDirectoryChunks]
    have hlen : 0 < path.length := List.length_pos.mpr hp
    simp only [List.length_nil, gt_iff_lt, Nat.lt_irrefl, false_or, hlen, and_self, if_true,
      Run.ok_bind, zero_add]
    by_cases hc : stringsContains (runesToString path) SeparatorString = true
    · simp [hc]
    · simp [hc]

theorem Match_star (path : List Nat) :
    (Separator ∉ path → Match (runes "*") path = .ok (true, (path.length : Int))) ∧
    (Separator ∈ path → ∃ n, Match (runes "*") path = .ok (false, n)) := by
  rw [Match_star_eq]
  constructor
  · intro hs
    have hc : ¬ stringsContains (runesToString path) SeparatorString = true :=
      fun hc => hs ((stringsContains_separator path).mp hc)
    by_cases hp : path = []
    · subst hp; rfl
    · rw [if_neg hp, if_neg hc]
  · intro hs
    have hc := (stringsContains_separator path).mpr hs
    have hp : path ≠ [] := by rintro rfl; simp at hs
    rw [if_neg hp, if_pos hc]
    exact ⟨_, rfl⟩

theorem Match_doublestar (path : List Nat) :
    Match (runes "**") path = .ok (true, (path.length : Int)) := by
  have hr : runes "**" = [42, 42] := by decide
  have hnp : nextPattern [42, 42] = .ok ([], [], patternRecursive) := by decide
  have hnil : nextPattern [] = .ok ([], [], patternSimple) := by decide
  rw [hr]
  simp only [Match, matchFirst, hnp, Run.ok_bind]
  rw [if_neg (by decide)]
  simp only [Run.ok_bind]
  rw [show [42, 42].length + 2 = 3 + 1 from rfl,
    matchDirectoryChunks_skip _ _ (Or.inl (by simp))]
  simp only [Run.ok_bind]
  by_cases hp : path = []
  · subst hp
    rw [matchRecursiveChunks_skip _ _ (Or.inr (Or.inr ⟨rfl, rfl, rfl⟩))]
    rfl
  · rw [matchRecursiveChunks]
    have hlen : 0 < path.length := List.length_pos.mpr hp
    simp only [List.length_nil, gt_iff_lt, Nat.lt_irrefl, false_or, hlen, and_self, if_true,
      Run.ok_bind, zero_add, hnil]

theorem idx_eq {xs : List Nat} {i : Nat} (h : i < xs.length) : idx xs i = .ok xs[i] := by
  unfold idx
  rw [List.getElem?_eq_getElem h]

theorem nextPatternLoop_literal (pattern : List Nat) :
    ∀ (fuel stop : Nat), pattern.length - stop < fuel → stop ≤ pattern.length →
      (∀ j (hj : j < pattern.length), stop ≤ j →
        pattern[j] ≠ 42 ∧ pattern[j] ≠ 91 ∧ pattern[j] ≠ 92) →
      nextPatternLoop pattern fuel stop false = .ok pattern.length := by
  intro fuel
  induction fuel with
  | zero => intro stop h; omega
  | succ n ih =>
    intro stop hf hle hlit
    rw [nextPatternLoop]
    by_cases hs : stop < pattern.length
    · obtain ⟨h42, h91, h92⟩ := hlit stop hs (Nat.le_refl _)
      have hrec := ih (stop + 1) (by omega) (by omega)
        (fun j hj hsj => hlit j hj (by omega))
      rw [if_pos hs, idx_eq hs]
      simp only [Run.ok_bind]
      rw [if_neg (by unfold escapeCharacter; exact h92), if_neg h91]
      by_cases h93 : pattern[stop] = 93
      · rw [if_pos h93]; exact hrec
      · rw [if_neg h93, if_neg h42]; exact hrec
    · rw [if_neg hs]
      have : stop = pattern.length := by omega
      rw [this]

theorem nextPattern_star_literal (x : Nat) (hs : List Nat)
    (hlit : ∀ c ∈ x :: hs, c ≠ 42 ∧ c ≠ 63 ∧ c ≠ 91 ∧ c ≠ 92) :
    nextPattern (42 :: x :: hs) = .ok (x :: hs, [], patternDirectory) := by
  have hx := hlit x (List.mem_cons_self _ _)
  have hstart : nextPatternStart (42 :: x :: hs) = .ok (1, patternDirectory) := by
    unfold nextPatternStart
    rw [if_pos (by simp), idx_eq (by simp)]
    simp only [Run.ok_bind, List.getElem_cons_zero, if_true]
    rw [if_pos (by simp), idx_eq (by simp)]
    simp only [Run.ok_bind, List.getElem_cons_succ, List.getElem_cons_zero]
    rw [if_neg hx.1]
  have hloop := nextPatternLoop_literal (42 :: x :: hs) ((42 :: x :: hs).length + 1) 1
    (by omega) (by simp) (by
      intro j hj h1
      obtain ⟨k, rfl⟩ : ∃ k, j = k + 1 := ⟨j - 1, by omega⟩
      have hk : k < (x :: hs).length := by simpa using hj
      rw [List.getElem_cons_succ]
      have hm : (x :: hs)[k] ∈ x :: hs := List.getElem_mem hk
      have := hlit _ hm
      exact ⟨this.1, this.2.2.1, this.2.2.2⟩)
  unfold nextPattern
  rw [hstart]
  simp only [Run.ok_bind]
  rw [hloop]
  simp only [Run.ok_bind]
  have hsl : slice (42 :: x :: hs) 1 (42 :: x :: hs).length = .ok (x :: hs) := by
    unfold slice
    rw [if_pos (by simp)]
    simp
  have hsf : sliceFrom (42 :: x :: hs) ((42 :: x :: hs).length : Nat) = .ok [] := by
    unfold sliceFrom
    rw [if_pos ⟨Int.natCast_nonneg _, le_refl _⟩, Int.toNat_ofNat, List.drop_length]
  rw [hsl]
  simp only [Run.ok_bind]
  rw [hsf]
  rfl

theorem matchSimpleLoop_literal (h path : List Nat)
    (hlit : ∀ c ∈ h, c ≠ 63 ∧ c ≠ 91 ∧ c ≠ 92) :
    ∀ (fuel k : Nat), h.length - k < fuel → k ≤ h.length → k ≤ path.length →
      ∃ m i c, matchSimpleLoop h path fuel k k false true = .ok (m, i, c) ∧
        ((m = true ∧ i = h.length) ↔ h.drop k <+: path.drop k) ∧
        (m = true ∧ i = h.length → c = h.length) := by
  intro fuel
  induction fuel with
  | zero => intro k hf; omega
  | succ n ih =>
    intro k hf hk hkp
    rw [matchSimpleLoop]
    by_cases hc : k < h.length ∧ k < path.length
    · obtain ⟨hk1, hk2⟩ := hc
      have hm : h[k] ∈ h := List.getElem_mem _
      obtain ⟨h63, h91, h92⟩ := hlit _ hm
      rw [if_pos ⟨hk1, hk2, rfl⟩, idx_eq hk1, idx_eq hk2]
      simp only [Run.ok_bind, Bool.false_eq_true, if_false]
      rw [if_neg (by unfold escapeCharacter; exact h92), if_neg h91, if_neg h63]
      rw [List.drop_eq_getElem_cons hk1, List.drop_eq_getElem_cons hk2, List.cons_prefix_cons]
      by_cases heq : h[k] = path[k]
      · rw [if_pos heq]
        obtain ⟨m, i, c, hres, hiff, hcnt⟩ := ih (k + 1) (by omega) (by omega) (by omega)
        exact ⟨m, i, c, hres, by rw [hiff]; simp [heq], hcnt⟩
      · rw [if_neg heq]
        refine ⟨false, k + 1, k, rfl, ?_, ?_⟩
        · simp [heq]
        · simp
    · rw [if_neg (by intro hx; exact hc ⟨hx.1, hx.2.1⟩)]
      refine ⟨true, k, k, rfl, ?_, ?_⟩
      · by_cases hkl : k = h.length
        · subst hkl
          simp
        · have hk1 : k < h.length := by omega
          have hk2 : k = path.length := by
            by_contra hne
            exact hc ⟨hk1, by omega⟩
          constructor
          · intro hx; exact absurd hx.2 hkl
          · intro hx
            rw [hk2, List.drop_length, List.prefix_nil] at hx
            have := congrArg List.length hx
            rw [List.length_drop] at this
            simp at this
            omega
      · intro hx; exact hx.2

theorem matchSimple_literal (h path : List Nat) (hne : h ≠ [])
    (hlit : ∀ c ∈ h, c ≠ 63 ∧ c ≠ 91 ∧ c ≠ 92) :
    ∃ b c, matchSimple h path = .ok (b, c) ∧ (b = true ↔ h <+: path) ∧
      (b = true → c = (h.length : Int)) := by
  have hlen : 0 < h.length := List.length_pos.mpr hne
  obtain ⟨m, i, c, hres, hiff, hcnt⟩ :=
    matchSimpleLoop_literal h path hlit (h.length + 1) 0 (by omega) (by omega) (by omega)
  unfold matchSimple
  rw [if_neg (by omega), hres]
  simp only [Run.ok_bind]
  refine ⟨_, _, rfl, ?_, ?_⟩
  · rw [Bool.and_eq_true, decide_eq_true_eq, hiff]
    simp
  · intro hb
    rw [Bool.and_eq_true, decide_eq_true_eq] at hb
    rw [hcnt hb]

theorem starSpec_iff (h : List Nat) (hne : h ≠ []) (path : List Nat) :
    starSpec h path = true ↔ ∃ w, path = w ++ h ∧ Separator ∉ w := by
  induction path with
  | nil =>
    simp only [starSpec, Bool.false_eq_true, false_iff]
    rintro ⟨w, hw, -⟩
    have := congrArg List.length hw
    rw [List.length_append, List.length_nil] at this
    have := List.length_pos.mpr hne
    omega
  | cons x rest ih =>
    rw [starSpec, Bool.or_eq_true, Bool.and_eq_true, decide_eq_true_eq, decide_eq_true_eq, ih]
    constructor
    · rintro (heq | ⟨hx, w, hw, hsep⟩)
      · exact ⟨[], by simpa using heq, by simp⟩
      · refine ⟨x :: w, by rw [hw]; rfl, ?_⟩
        intro hmem
        rcases List.mem_cons.mp hmem with h1 | h1
        · exact hx h1.symm
        · exact hsep h1
    · rintro ⟨w, hw, hsep⟩
      cases w with
      | nil => exact Or.inl (by simpa using hw)
      | cons y w1 =>
        rw [List.cons_append, List.cons.injEq] at hw
        obtain ⟨rfl, hrest⟩ := hw
        refine Or.inr ⟨?_, w1, hrest, ?_⟩
        · intro hx
          exact hsep (by rw [hx]; exact List.mem_cons_self _ _)
        · intro hmem
          exact hsep (List.mem_cons_of_mem _ hmem)

theorem starSpec_self (h : List Nat) (hne : h ≠ []) : starSpec h h = true :=
  (starSpec_iff h hne h).mpr ⟨[], rfl, by simp⟩

theorem matchDirectoryRetry_literal (h : List Nat) (hne : h ≠ [])
    (hlit : ∀ c ∈ h, c ≠ 63 ∧ c ≠ 91 ∧ c ≠ 92) :
    ∀ (path : List Nat) (subtotal : Int) (fuel : Nat), path.length < fuel →
      ∃ sm sc p1 st, matchDirectoryRetry h fuel path subtotal = .ok (sm, sc, p1, st) ∧
        ((sm = true ∧ h <+: p1 ∧ sc = (h.length : Int) ∧
            st = subtotal + ((path.length : Int) - (p1.length : Int)) + (h.length : Int) ∧
            p1.length ≤ path.length ∧ starSpec h path = starSpec h p1) ∨
          (sm = false ∧ starSpec h path = false)) := by
  intro path
  induction path with
  | nil =>
    intro subtotal fuel hf
    obtain ⟨n, rfl⟩ : ∃ n, fuel = n + 1 := ⟨fuel - 1, by omega⟩
    obtain ⟨b, c, hms, hiff, hcnt⟩ := matchSimple_literal h [] hne hlit
    have hb : b = false := by
      cases b with
      | false => rfl
      | true =>
        have := hiff.mp rfl
        rw [List.prefix_nil] at this
        exact absurd this hne
    subst hb
    rw [matchDirectoryRetry, hms]
    simp only [Run.ok_bind, if_true, List.length_nil]
    rw [if_neg (by omega)]
    exact ⟨_, _, _, _, rfl, Or.inr ⟨rfl, rfl⟩⟩
  | cons x rest ih =>
    intro subtotal fuel hf
    obtain ⟨n, rfl⟩ : ∃ n, fuel = n + 1 := ⟨fuel - 1, by omega⟩
    obtain ⟨b, c, hms, hiff, hcnt⟩ := matchSimple_literal h (x :: rest) hne hlit
    rw [matchDirectoryRetry, hms]
    simp only [Run.ok_bind]
    cases b with
    | true =>
      simp only [Bool.true_eq_false, if_false]
      refine ⟨_, _, _, _, rfl, Or.inl ⟨rfl, hiff.mp rfl, hcnt rfl, ?_, Nat.le_refl _, rfl⟩⟩
      rw [hcnt rfl]
      omega
    | false =>
      have hnp : ¬ h <+: x :: rest := fun hp => by
        have := hiff.mpr hp
        exact absurd this (by decide)
      have hneq : ¬ (x :: rest = h) := fun he => hnp (by rw [he])
      simp only [if_true]
      by_cases hl : (x :: rest).length > 1
      · rw [if_pos hl, idx_eq (by simp)]
        simp only [Run.ok_bind, List.getElem_cons_zero]
        by_cases hx : x ≠ Separator
        · rw [if_pos hx]
          have hsl : sliceFrom (x :: rest) 1 = .ok rest := by
            unfold sliceFrom
            rw [if_pos ⟨by omega, by simp⟩]
            rfl
          rw [hsl]
          simp only [Run.ok_bind]
          rw [if_pos (by simpa using hl)]
          obtain ⟨sm, sc, p1, st, hres, hcase⟩ := ih (subtotal + 1) n (by simpa using hf)
          refine ⟨sm, sc, p1, st, hres, ?_⟩
          have hstar : starSpec h (x :: rest) = starSpec h rest := by
            rw [starSpec]
            simp [hneq, hx]
          rcases hcase with ⟨h1, h2, h3, h4, h5, h6⟩ | ⟨h1, h2⟩
          · refine Or.inl ⟨h1, h2, h3, ?_, ?_, ?_⟩
            · rw [h4, List.length_cons]; push_cast; omega
            · rw [List.length_cons]; omega
            · rw [hstar, h6]
          · exact Or.inr ⟨h1, by rw [hstar, h2]⟩
        · rw [if_neg hx]
          refine ⟨_, _, _, _, rfl, Or.inr ⟨rfl, ?_⟩⟩
          rw [starSpec]
          simp only [ne_eq, Decidable.not_not] at hx
          subst hx
          simp [hneq]
      · rw [if_neg hl]
        refine ⟨_, _, _, _, rfl, Or.inr ⟨rfl, ?_⟩⟩
        have hr : rest = [] := by
          cases rest with
          | nil => rfl
          | cons y r => simp at hl
        subst hr
        rw [starSpec]
        simp [hneq, starSpec]

theorem matchDirectoryLoop_literal (h : List Nat) (hne : h ≠ [])
    (hlit : ∀ c ∈ h, c ≠ 63 ∧ c ≠ 91 ∧ c ≠ 92) :
    ∀ (fuel : Nat) (path : List Nat) (total : Int), path.length < fuel →
      ∃ n, matchDirectoryLoop h [] fuel path total = .ok (starSpec h path, n) ∧
        (starSpec h path = true → n = total + (path.length : Int)) := by
  have hlen : 0 < h.length := List.length_pos.mpr hne
  intro fuel
  induction fuel with
  | zero => intro path total hf; omega
  | succ k ih =>
    intro path total hf
    obtain ⟨sm, sc, p1, st, hres, hcase⟩ :=
      matchDirectoryRetry_literal h hne hlit path 0 (path.length + 1) (by omega)
    rw [matchDirectoryLoop, if_neg (by omega), hres]
    simp only [Run.ok_bind]
    rcases hcase with ⟨rfl, hpre, rfl, rfl, hle, hstar⟩ | ⟨rfl, hstar⟩
    · simp only [if_true, List.length_nil, true_and]
      by_cases hgt : (p1.length : Int) > (h.length : Int)
      · rw [if_pos hgt]
        have hgt1 : p1.length > 1 := by omega
        cases p1 with
        | nil => simp at hgt1
        | cons y rest =>
          have hneq : ¬ (y :: rest = h) := fun he => by rw [he] at hgt; omega
          rw [if_pos hgt1, idx_eq (by simp)]
          simp only [Run.ok_bind, List.getElem_cons_zero]
          by_cases hy : y ≠ Separator
          · rw [if_pos hy]
            have hsl : sliceFrom (y :: rest) 1 = .ok rest := by
              unfold sliceFrom
              rw [if_pos ⟨by omega, by simp⟩]
              rfl
            rw [hsl]
            simp only [Run.ok_bind]
            have hs2 : starSpec h (y :: rest) = starSpec h rest := by
              rw [starSpec]
              simp [hneq, hy]
            rw [List.length_cons] at hle
            obtain ⟨n, hn, hcount⟩ := ih rest
              (total + (1 + (0 + ((path.length : Int) - ((y :: rest).length : Int)) +
                (h.length : Int)) - (h.length : Int))) (by omega)
            rw [hstar, hs2]
            refine ⟨n, hn, ?_⟩
            intro ht
            rw [hcount ht, List.length_cons]
            push_cast
            omega
          · rw [if_neg hy]
            simp only [ne_eq, Decidable.not_not] at hy
            subst hy
            have hs2 : starSpec h (Separator :: rest) = false := by
              rw [starSpec]
              simp [hneq]
            rw [hstar, hs2]
            exact ⟨_, rfl, by intro hx; exact absurd hx (by decide)⟩
      · rw [if_neg hgt]
        have heq : h = p1 := List.IsPrefix.eq_of_length_le hpre (by omega)
        subst heq
        rw [hstar, starSpec_self h hne]
        exact ⟨_, rfl, by intro _; omega⟩
    · simp only [Bool.false_eq_true, if_false]
      rw [hstar]
      exact ⟨_, rfl, by intro hx; exact absurd hx (by decide)⟩

theorem Match_star_literal (h path : List Nat) (hne : h ≠ [])
    (hlit : ∀ c ∈ h, c ≠ 42 ∧ c ≠ 63 ∧ c ≠ 91 ∧ c ≠ 92) :
    ∃ n, Match (42 :: h) path = .ok (starSpec h path, n) ∧
      (starSpec h path = true → n = (path.length : Int)) := by
  have hnil : nextPattern [] = .ok ([], [], patternSimple) := by decide
  cases h with
  | nil => exact absurd rfl hne
  | cons x hs =>
    have hnp := nextPattern_star_literal x hs hlit
    obtain ⟨n, hmd, hcount⟩ := matchDirectoryLoop_literal (x :: hs) hne
      (fun c hc => (hlit c hc).2) (path.length + 1) path 0 (by omega)
    simp only [Match, matchFirst, hnp, Run.ok_bind]
    rw [if_neg (by decide)]
    simp only [Run.ok_bind]
    rw [show (42 :: x :: hs).length + 2 = (hs.length + 2 + 1) + 1 from rfl, matchDirectoryChunks]
    simp only [List.length_cons, List.length_nil]
    rw [if_pos ⟨trivial, trivial, Or.inl (by omega)⟩, if_neg (by omega)]
    unfold matchDirectory
    rw [hmd]
    simp only [Run.ok_bind]
    cases hb : starSpec (x :: hs) path with
    | true =>
      have hn := hcount hb
      rw [zero_add] at hn
      subst hn
      have hsl : sliceFrom path (path.length : Int) = .ok [] := by
        unfold sliceFrom
        rw [if_pos ⟨Int.natCast_nonneg _, le_refl _⟩, Int.toNat_ofNat, List.drop_length]
      simp only [if_true, hsl, hnil, Run.ok_bind]
      rw [matchDirectoryChunks_skip _ _ (Or.inl (by simp))]
      simp only [Run.ok_bind]
      rw [matchRecursiveChunks_skip _ _ (Or.inl (by simp))]
      simp only [Run.ok_bind]
      refine ⟨_, rfl, ?_⟩
      intro _
      simp
    | false =>
      simp only [Bool.false_eq_true, if_false]
      rw [matchDirectoryChunks_skip _ _ (Or.inr (Or.inl rfl))]
      simp only [Run.ok_bind]
      rw [matchRecursiveChunks_skip _ _ (Or.inr (Or.inl rfl))]
      simp only [Run.ok_bind, Bool.false_and]
      exact ⟨_, rfl, by intro hx; exact absurd hx (by decide)⟩

theorem Run.bind_ne_fuel {α β : Type} {x : Run α} {f : α → Run β} (hx : x ≠ Run.fuel)
    (hf : ∀ a, x = Run.ok a → f a ≠ Run.fuel) : (x >>= f) ≠ Run.fuel := by
  cases x with
  | ok a => exact hf a rfl
  | panic => simp
  | fuel => exact absurd rfl hx

theorem idx_ne_fuel (xs : List Nat) (i : Nat) : idx xs i ≠ Run.fuel := by
  unfold idx
  split <;> simp

theorem sliceFrom_ne_fuel (xs : List Nat) (lo : Int) : sliceFrom xs lo ≠ Run.fuel := by
  unfold sliceFrom
  split <;> simp

theorem sliceTo_ne_fuel (xs : List Nat) (hi : Nat) : sliceTo xs hi ≠ Run.fuel := by
  unfold sliceTo
  split <;> simp

theorem classIsValidLoop_ne_fuel (pattern : List Nat) :
    ∀ (fuel i lo : Nat) (done : Bool) (err : Option globError), pattern.length - i < fuel →
      classIsValidLoop pattern fuel i lo done err ≠ Run.fuel := by
  intro fuel
  induction fuel with
  | zero => intro i lo done err h; omega
  | succ n ih =>
    intro i lo done err hf
    rw [classIsValidLoop]
    split
    · rename_i hc
      have hi := hc.2.2
      refine Run.bind_ne_fuel (idx_ne_fuel _ _) ?_
      intro token _
      split
      · split
        · refine Run.bind_ne_fuel (idx_ne_fuel _ _) ?_
          intro lo1 _
          split
          · split
            · exact ih _ _ _ _ (by omega)
            · exact ih _ _ _ _ (by omega)
          · exact ih _ _ _ _ (by omega)
        · exact ih _ _ _ _ (by omega)
      · split
        · split
          · exact ih _ _ _ _ (by omega)
          · refine Run.bind_ne_fuel (idx_ne_fuel _ _) ?_
            intro p1 _
            split
            · exact ih _ _ _ _ (by omega)
            · exact ih _ _ _ _ (by omega)
        · split
          · refine Run.bind_ne_fuel ?_ ?_
            · split
              · simp
              · split
                · refine Run.bind_ne_fuel (idx_ne_fuel _ _) ?_
                  intro p1 _
                  split <;> simp
                · simp
            · intro literal _
              split
              · exact ih _ _ _ _ (by omega)
              · refine Run.bind_ne_fuel (idx_ne_fuel _ _) ?_
                intro hi1 _
                split
                · exact ih _ _ _ _ (by omega)
                · exact ih _ _ _ _ (by omega)
          · exact ih _ _ _ _ (by omega)
    · simp

theorem classIsValid_ne_fuel (pattern : List Nat) : classIsValid pattern ≠ Run.fuel := by
  unfold classIsValid
  split
  · simp
  · refine Run.bind_ne_fuel (idx_ne_fuel _ _) ?_
    intro p0 _
    split
    · simp
    · refine Run.bind_ne_fuel ?_ ?_
      · split
        · simp
        · refine Run.bind_ne_fuel (idx_ne_fuel _ _) ?_
          intro p1 _
          simp
      · intro short _
        split
        · simp
        · refine Run.bind_ne_fuel (classIsValidLoop_ne_fuel pattern _ _ _ _ _ (by omega)) ?_
          rintro ⟨i, err⟩ _
          cases err with
          | some e => simp
          | none =>
            refine Run.bind_ne_fuel (idx_ne_fuel _ _) ?_
            intro last _
            split <;> simp

theorem skipAsterisks_ne_fuel (pattern : List Nat) :
    ∀ (fuel start : Nat), pattern.length - start < fuel →
      skipAsterisks pattern fuel start ≠ Run.fuel := by
  intro fuel
  induction fuel with
  | zero => intro s h; omega
  | succ n ih =>
    intro s hf
    rw [skipAsterisks]
    split
    · refine Run.bind_ne_fuel (idx_ne_fuel _ _) ?_
      intro token _
      split
      · exact ih _ (by omega)
      · simp
    · simp

theorem nextValidPatternLoop_ne_fuel (pattern : List Nat) :
    ∀ (fuel stop : Nat) (isEscaped : Bool), pattern.length - stop < fuel →
      nextValidPatternLoop pattern fuel stop isEscaped ≠ Run.fuel := by
  intro fuel
  induction fuel with
  | zero => intro s e h; omega
  | succ n ih =>
    intro s e hf
    rw [nextValidPatternLoop]
    split
    · refine Run.bind_ne_fuel (idx_ne_fuel _ _) ?_
      intro token _
      split
      · simp
      · split
        · split
          · simp
          · exact ih _ _ (by omega)
        · split
          · exact ih _ _ (by omega)
          · split
            · exact ih _ _ (by omega)
            · split
              · refine Run.bind_ne_fuel (sliceFrom_ne_fuel _ _) ?_
                intro sub _
                refine Run.bind_ne_fuel (classIsValid_ne_fuel _) ?_
                rintro ⟨count, err⟩ hcls
                cases err with
                | some e1 => simp
                | none =>
                  have := classIsValid_ok_none hcls
                  exact ih _ _ (by omega)
              · split
                · simp
                · exact ih _ _ (by omega)
    · simp

theorem nextValidPattern_ne_fuel (pattern : List Nat) :
    nextValidPattern pattern ≠ Run.fuel := by
  unfold nextValidPattern
  refine Run.bind_ne_fuel ?_ ?_
  · split
    · refine Run.bind_ne_fuel (idx_ne_fuel _ _) ?_
      intro p0 _
      split
      · exact skipAsterisks_ne_fuel pattern _ _ (by omega)
      · simp
    · simp
  · intro start _
    refine Run.bind_ne_fuel (nextValidPatternLoop_ne_fuel pattern _ _ _ (by omega)) ?_
    rintro ⟨stop, err⟩ _
    refine Run.bind_ne_fuel (sliceTo_ne_fuel _ _) ?_
    intro head _
    refine Run.bind_ne_fuel (sliceFrom_ne_fuel _ _) ?_
    intro tail _
    simp

theorem ValidateLoop_ne_fuel :
    ∀ (fuel : Nat) (head tail : List Nat) (err : Option globError) (index : Nat),
      1 ≤ fuel → (err = none → head ≠ [] → tail.length + 2 ≤ fuel) →
      ValidateLoop fuel head tail err index ≠ Run.fuel := by
  intro fuel
  induction fuel with
  | zero => intro head tail err index h; omega
  | succ k ih =>
    intro head tail err index _ hb
    rw [ValidateLoop]
    split
    · rename_i hc
      have hk := hb hc.1 (List.length_pos.mp hc.2)
      refine Run.bind_ne_fuel (nextValidPattern_ne_fuel _) ?_
      rintro ⟨h1, t1, e1⟩ hnv
      have happ := nextValidPattern_append hnv
      refine ih h1 t1 e1 _ (by omega) ?_
      intro _ hne
      have h1pos : 0 < h1.length := List.length_pos.mpr hne
      have := congrArg List.length happ
      rw [List.length_append] at this
      omega
    · simp

/-- The iteration budget of `Validate` is never used up: `Validate` returns
a length and an error, or panics. -/
theorem Validate_ne_fuel (pattern : List Nat) : Validate pattern ≠ Run.fuel := by
  unfold Validate
  refine Run.bind_ne_fuel (nextValidPattern_ne_fuel _) ?_
  rintro ⟨head, tail, err⟩ hnv
  have happ := nextValidPattern_append hnv
  refine ValidateLoop_ne_fuel _ head tail err _ (by omega) ?_
  intro _ hne
  have h1pos : 0 < head.length := List.length_pos.mpr hne
  have := congrArg List.length happ
  rw [List.length_append] at this
  omega

theorem getClassLoop_ne_fuel (pattern : List Nat) (negated : Bool) :
    ∀ (fuel i : Nat), pattern.length - i < fuel →
      getClassLoop pattern negated fuel i ≠ Run.fuel := by
  intro fuel
  induction fuel with
  | zero => intro i h; omega
  | succ n ih =>
    intro i hf
    rw [getClassLoop]
    refine Run.bind_ne_fuel (idx_ne_fuel _ _) ?_
    intro token htok
    have hi := (idx_ok htok).1
    split
    · split
      · simp
      · exact ih _ (by omega)
    · split
      · exact ih _ (by omega)
      · exact ih _ (by omega)

theorem getClass_ne_fuel (pattern : List Nat) : getClass pattern ≠ Run.fuel := by
  unfold getClass
  refine Run.bind_ne_fuel (idx_ne_fuel _ _) ?_
  intro p1 _
  refine Run.bind_ne_fuel (getClassLoop_ne_fuel pattern _ _ _ (by omega)) ?_
  intro i _
  refine Run.bind_ne_fuel (sliceTo_ne_fuel _ _) ?_
  intro sub _
  simp

theorem matchClassLoop_ne_fuel (pattern : List Nat) (value : Nat) :
    ∀ (fuel i : Nat) (escaped matched : Bool), pattern.length - i < fuel →
      matchClassLoop pattern value fuel i escaped matched ≠ Run.fuel := by
  intro fuel
  induction fuel with
  | zero => intro i e m h; omega
  | succ n ih =>
    intro i e m hf
    rw [matchClassLoop]
    split
    · simp
    · refine Run.bind_ne_fuel (idx_ne_fuel _ _) ?_
      intro pi hpi
      have hi := (idx_ok hpi).1
      split
      · refine Run.bind_ne_fuel ?_ ?_
        · split
          · refine Run.bind_ne_fuel (idx_ne_fuel _ _) ?_
            intro t _
            simp
          · simp
        · rintro ⟨i1, token1⟩ h1
          have hi1 : i ≤ i1 := by
            split at h1
            · rw [Run.bind_eq_ok] at h1
              obtain ⟨t, -, h1⟩ := h1
              simp only [Run.ok.injEq, Prod.mk.injEq] at h1
              omega
            · simp only [Run.ok.injEq, Prod.mk.injEq] at h1
              omega
          refine Run.bind_ne_fuel (idx_ne_fuel _ _) ?_
          intro token2 _
          refine Run.bind_ne_fuel ?_ ?_
          · split
            · refine Run.bind_ne_fuel (idx_ne_fuel _ _) ?_
              intro nxt _
              simp
            · simp
          · intro range _
            split
            · refine Run.bind_ne_fuel (idx_ne_fuel _ _) ?_
              intro token3 _
              refine Run.bind_ne_fuel ?_ ?_
              · split
                · refine Run.bind_ne_fuel (idx_ne_fuel _ _) ?_
                  intro t _
                  simp
                · simp
              · rintro ⟨i2, token4⟩ h2
                have hi2 : i1 + 1 + 1 ≤ i2 := by
                  split at h2
                  · rw [Run.bind_eq_ok] at h2
                    obtain ⟨t, -, h2⟩ := h2
                    simp only [Run.ok.injEq, Prod.mk.injEq] at h2
                    omega
                  · simp only [Run.ok.injEq, Prod.mk.injEq] at h2
                    omega
                exact ih _ _ _ (by omega)
            · exact ih _ _ _ (by omega)
      · simp

theorem matchClass_ne_fuel (pattern : List Nat) (value : Nat) (negated : Bool) :
    matchClass pattern value negated ≠ Run.fuel := by
  unfold matchClass
  split
  · simp
  · split
    · simp
    · refine Run.bind_ne_fuel (matchClassLoop_ne_fuel pattern value _ _ _ _ ?_) ?_
      · split <;> omega
      · intro m _
        simp

theorem matchSimpleLoop_ne_fuel (pattern path : List Nat) :
    ∀ (fuel index matchedCount : Nat) (isEscaped matched : Bool),
      pattern.length - index < fuel →
      matchSimpleLoop pattern path fuel index matchedCount isEscaped matched ≠ Run.fuel := by
  intro fuel
  induction fuel with
  | zero => intro i c e m h; omega
  | succ n ih =>
    intro i c e m hf
    rw [matchSimpleLoop]
    split
    · rename_i hc
      refine Run.bind_ne_fuel (idx_ne_fuel _ _) ?_
      intro token _
      refine Run.bind_ne_fuel (idx_ne_fuel _ _) ?_
      intro value _
      split
      · split
        · exact ih _ _ _ _ (by omega)
        · simp
      · split
        · exact ih _ _ _ _ (by omega)
        · split
          · refine Run.bind_ne_fuel (sliceFrom_ne_fuel _ _) ?_
            intro sub _
            refine Run.bind_ne_fuel (getClass_ne_fuel _) ?_
            rintro ⟨negated, classPattern⟩ _
            refine Run.bind_ne_fuel (matchClass_ne_fuel _ _ _) ?_
            intro m1 _
            split
            · exact ih _ _ _ _ (by omega)
            · simp
          · split
            · split
              · exact ih _ _ _ _ (by omega)
              · simp
            · split
              · exact ih _ _ _ _ (by omega)
              · simp
    · simp

theorem matchSimple_ne_fuel (pattern path : List Nat) : matchSimple pattern path ≠ Run.fuel := by
  unfold matchSimple
  split
  · simp
  · refine Run.bind_ne_fuel (matchSimpleLoop_ne_fuel pattern path _ _ _ _ _ (by omega)) ?_
    rintro ⟨m, i, c⟩ _
    simp

theorem nextPatternLoop_ne_fuel (pattern : List Nat) :
    ∀ (fuel stop : Nat) (inClass : Bool), pattern.length - stop < fuel →
      nextPatternLoop pattern fuel stop inClass ≠ Run.fuel := by
  intro fuel
  induction fuel with
  | zero => intro s c h; omega
  | succ n ih =>
    intro s c hf
    rw [nextPatternLoop]
    split
    · refine Run.bind_ne_fuel (idx_ne_fuel _ _) ?_
      intro token _
      split
      · split
        · exact ih _ _ (by omega)
        · exact ih _ _ (by omega)
      · split
        · exact ih _ _ (by omega)
        · split
          · exact ih _ _ (by omega)
          · split
            · split
              · simp
              · exact ih _ _ (by omega)
            · exact ih _ _ (by omega)
    · simp

theorem nextPatternLoop_le (pattern : List Nat) :
    ∀ (fuel stop : Nat) (inClass : Bool) (r : Nat),
      nextPatternLoop pattern fuel stop inClass = .ok r → stop ≤ r := by
  intro fuel
  induction fuel with
  | zero => intro s c r h; simp [nextPatternLoop] at h
  | succ n ih =>
    intro s c r h
    rw [nextPatternLoop] at h
    split at h
    · rw [Run.bind_eq_ok] at h
      obtain ⟨token, -, h⟩ := h
      split at h
      · split at h
        · have := ih _ _ _ h; omega
        · have := ih _ _ _ h; omega
      · split at h
        · have := ih _ _ _ h; omega
        · split at h
          · have := ih _ _ _ h; omega
          · split at h
            · split at h
              · simp only [Run.ok.injEq] at h; omega
              · have := ih _ _ _ h; omega
            · have := ih _ _ _ h; omega
    · simp only [Run.ok.injEq] at h; omega

theorem nextPatternStart_ne_fuel (pattern : List Nat) :
    nextPatternStart pattern ≠ Run.fuel := by
  unfold nextPatternStart
  split
  · refine Run.bind_ne_fuel (idx_ne_fuel _ _) ?_
    intro p0 _
    split
    · split
      · refine Run.bind_ne_fuel (idx_ne_fuel _ _) ?_
        intro p1 _
        split
        · refine Run.bind_ne_fuel (skipAsterisks_ne_fuel pattern _ _ (by omega)) ?_
          intro s _
          simp
        · simp
      · simp
    · simp
  · simp

theorem nextPatternStart_kind {pattern : List Nat} {start : Nat} {kind : patternType}
    (h : nextPatternStart pattern = .ok (start, kind)) :
    kind ≠ patternSimple → 1 ≤ start := by
  unfold nextPatternStart at h
  split at h
  · rw [Run.bind_eq_ok] at h
    obtain ⟨p0, -, h⟩ := h
    split at h
    · split at h
      · rw [Run.bind_eq_ok] at h
        obtain ⟨p1, -, h⟩ := h
        split at h
        · rw [Run.bind_eq_ok] at h
          obtain ⟨s, hs, h⟩ := h
          simp only [Run.ok.injEq, Prod.mk.injEq] at h
          have := skipAsterisks_le pattern _ _ _ hs
          intro _; omega
        · simp only [Run.ok.injEq, Prod.mk.injEq] at h
          intro _; omega
      · simp only [Run.ok.injEq, Prod.mk.injEq] at h
        intro _; omega
    · simp only [Run.ok.injEq, Prod.mk.injEq] at h
      intro hk; exact absurd h.2.symm hk
  · simp only [Run.ok.injEq, Prod.mk.injEq] at h
    intro hk; exact absurd h.2.symm hk

theorem nextPattern_ne_fuel (pattern : List Nat) : nextPattern pattern ≠ Run.fuel := by
  unfold nextPattern
  refine Run.bind_ne_fuel (nextPatternStart_ne_fuel _) ?_
  rintro ⟨start, kind⟩ _
  refine Run.bind_ne_fuel (nextPatternLoop_ne_fuel pattern _ _ _ (by omega)) ?_
  intro stop _
  refine Run.bind_ne_fuel ?_ ?_
  · unfold slice
    split <;> simp
  · intro head _
    refine Run.bind_ne_fuel (sliceFrom_ne_fuel _ _) ?_
    intro tail _
    simp

/-- The tail returned by `nextPattern` is no longer than the pattern, and it
is shorter when the chunk is not a simple one. -/
theorem nextPattern_tail_length {pattern head tail : List Nat} {kind : patternType}
    (h : nextPattern pattern = .ok (head, tail, kind)) :
    tail.length ≤ pattern.length ∧ (kind ≠ patternSimple → tail.length < pattern.length) := by
  unfold nextPattern at h
  rw [Run.bind_eq_ok] at h
  obtain ⟨⟨start, k⟩, hstart, h⟩ := h
  simp only at h
  rw [Run.bind_eq_ok] at h
  obtain ⟨stop, hstop, h⟩ := h
  rw [Run.bind_eq_ok] at h
  obtain ⟨hd, -, h⟩ := h
  rw [Run.bind_eq_ok] at h
  obtain ⟨tl, htl, h⟩ := h
  simp only [Run.ok.injEq, Prod.mk.injEq] at h
  obtain ⟨rfl, rfl, rfl⟩ := h
  have hle := nextPatternLoop_le pattern _ _ _ _ hstop
  have hlen := sliceFrom_length htl
  obtain ⟨h0, h1, -⟩ := sliceFrom_ok htl
  refine ⟨by omega, ?_⟩
  intro hk
  have := nextPatternStart_kind hstart hk
  omega

theorem matchDirectoryRetry_ne_fuel (head : List Nat) :
    ∀ (fuel : Nat) (path : List Nat) (subtotal : Int), path.length < fuel →
      matchDirectoryRetry head fuel path subtotal ≠ Run.fuel := by
  intro fuel
  induction fuel with
  | zero => intro p s h; omega
  | succ n ih =>
    intro p s hf
    rw [matchDirectoryRetry]
    refine Run.bind_ne_fuel (matchSimple_ne_fuel _ _) ?_
    rintro ⟨sm, sc⟩ _
    simp only
    split
    · split
      · refine Run.bind_ne_fuel (idx_ne_fuel _ _) ?_
        intro p0 _
        split
        · refine Run.bind_ne_fuel (sliceFrom_ne_fuel _ _) ?_
          intro p1 hp1
          have := sliceFrom_length hp1
          split
          · exact ih _ _ (by omega)
          · simp
        · simp
      · simp
    · simp

theorem matchDirectoryRetry_length (head : List Nat) :
    ∀ (fuel : Nat) (path : List Nat) (subtotal : Int) (r : Bool × Int × List Nat × Int),
      matchDirectoryRetry head fuel path subtotal = .ok r → r.2.2.1.length ≤ path.length := by
  intro fuel
  induction fuel with
  | zero => intro p s r h; simp [matchDirectoryRetry] at h
  | succ n ih =>
    intro p s r h
    rw [matchDirectoryRetry] at h
    rw [Run.bind_eq_ok] at h
    obtain ⟨⟨sm, sc⟩, -, h⟩ := h
    simp only at h
    split at h
    · split at h
      · rw [Run.bind_eq_ok] at h
        obtain ⟨p0, -, h⟩ := h
        split at h
        · rw [Run.bind_eq_ok] at h
          obtain ⟨p1, hp1, h⟩ := h
          have := sliceFrom_length hp1
          split at h
          · have := ih _ _ _ h; omega
          · simp only [Run.ok.injEq] at h; subst h; simp only; omega
        · simp only [Run.ok.injEq] at h; subst h; simp
      · simp only [Run.ok.injEq] at h; subst h; simp
    · simp only [Run.ok.injEq] at h; subst h; simp

theorem matchDirectoryLoop_ne_fuel (head tail : List Nat) :
    ∀ (fuel : Nat) (path : List Nat) (total : Int), path.length < fuel →
      matchDirectoryLoop head tail fuel path total ≠ Run.fuel := by
  intro fuel
  induction fuel with
  | zero => intro p t h; omega
  | succ n ih =>
    intro p t hf
    rw [matchDirectoryLoop]
    split
    · simp only
      split <;> simp
    · refine Run.bind_ne_fuel (matchDirectoryRetry_ne_fuel head _ _ _ (by omega)) ?_
      rintro ⟨sm, sc, p1, st⟩ hr
      have hlen := matchDirectoryRetry_length head _ _ _ _ hr
      simp only at hlen ⊢
      split
      · split
        · split
          · refine Run.bind_ne_fuel (idx_ne_fuel _ _) ?_
            intro p0 _
            split
            · refine Run.bind_ne_fuel (sliceFrom_ne_fuel _ _) ?_
              intro p2 hp2
              have := sliceFrom_length hp2
              exact ih _ _ (by omega)
            · simp
          · simp
        · simp
      · simp

theorem matchDirectory_ne_fuel (head tail path : List Nat) :
    matchDirectory head tail path ≠ Run.fuel :=
  matchDirectoryLoop_ne_fuel head tail _ _ _ (by omega)

theorem matchRecursiveHead_ne_fuel (head : List Nat) :
    ∀ (fuel : Nat) (mtch : Bool) (subtotal total : Int) (current : List Nat),
      1 ≤ fuel → (mtch = false → subtotal > 0 → current.length + 2 ≤ fuel) →
      matchRecursiveHead head fuel mtch subtotal total current ≠ Run.fuel := by
  intro fuel
  induction fuel with
  | zero => intro m s t c h; omega
  | succ n ih =>
    intro m s t c _ hb
    rw [matchRecursiveHead]
    split
    · rename_i hc
      have hn := hb hc.1 hc.2.2
      refine Run.bind_ne_fuel (matchSimple_ne_fuel _ _) ?_
      rintro ⟨m1, s1⟩ _
      simp only
      split
      · split
        · refine Run.bind_ne_fuel (sliceFrom_ne_fuel _ _) ?_
          intro c1 hc1
          have := sliceFrom_length hc1
          exact ih _ _ _ _ (by omega) (by intro _ _; omega)
        · exact ih _ _ _ _ (by omega) (by intro _ h0; omega)
      · rename_i hm
        refine ih _ _ _ _ (by omega) ?_
        intro hm1 _
        exact absurd hm1 hm
    · simp

theorem matchRecursiveTail_ne_fuel (pattern path : List Nat) :
    ∀ (fuel : Nat) (s : RecursiveState), 1 ≤ fuel →
      (s.kind = patternDirectory → s.mtch = true → s.tail.length + 2 ≤ fuel) →
      matchRecursiveTail pattern path fuel s ≠ Run.fuel := by
  intro fuel
  induction fuel with
  | zero => intro s h; omega
  | succ n ih =>
    intro s _ hb
    rw [matchRecursiveTail]
    split
    · rename_i hc
      have hn := hb hc.1 hc.2.1
      refine Run.bind_ne_fuel (sliceFrom_ne_fuel _ _) ?_
      intro c1 _
      refine Run.bind_ne_fuel (matchDirectory_ne_fuel _ _ _) ?_
      rintro ⟨m, st⟩ _
      simp only
      split
      · rename_i hm
        refine Run.bind_ne_fuel (nextPattern_ne_fuel _) ?_
        rintro ⟨h1, t1, k1⟩ _
        refine Run.bind_ne_fuel (sliceFrom_ne_fuel _ _) ?_
        intro sh _
        refine ih _ (by omega) ?_
        intro _ hx
        simp only at hx
        rw [hm] at hx
        exact absurd hx (by decide)
      · refine Run.bind_ne_fuel (sliceFrom_ne_fuel _ _) ?_
        intro c2 _
        refine Run.bind_ne_fuel (nextPattern_ne_fuel _) ?_
        rintro ⟨h1, t1, k1⟩ hnp
        have hlt := (nextPattern_tail_length hnp).2
        refine ih _ (by omega) ?_
        intro hk _
        simp only at hk ⊢
        have := hlt (by rw [hk]; decide)
        omega
    · simp

theorem matchRecursiveTail_shifted (pattern path : List Nat) :
    ∀ (fuel : Nat) (s r : RecursiveState), matchRecursiveTail pattern path fuel s = .ok r →
      r.shifted.length ≤ s.shifted.length ∧
      (r.more = true → s.more = true ∨ r.shifted.length < s.shifted.length) := by
  intro fuel
  induction fuel with
  | zero => intro s r h; simp [matchRecursiveTail] at h
  | succ n ih =>
    intro s r h
    rw [matchRecursiveTail] at h
    split at h
    · rw [Run.bind_eq_ok] at h
      obtain ⟨c1, -, h⟩ := h
      rw [Run.bind_eq_ok] at h
      obtain ⟨⟨m, st⟩, -, h⟩ := h
      simp only at h
      split at h
      · rw [Run.bind_eq_ok] at h
        obtain ⟨⟨h1, t1, k1⟩, -, h⟩ := h
        simp only at h
        rw [Run.bind_eq_ok] at h
        obtain ⟨sh, hsh, h⟩ := h
        have hlen := sliceFrom_length hsh
        obtain ⟨ha, hb⟩ := ih _ _ h
        simp only at ha hb
        exact ⟨by omega, fun _ => Or.inr (by omega)⟩
      · rw [Run.bind_eq_ok] at h
        obtain ⟨c2, -, h⟩ := h
        rw [Run.bind_eq_ok] at h
        obtain ⟨⟨h1, t1, k1⟩, -, h⟩ := h
        simp only at h
        obtain ⟨ha, hb⟩ := ih _ _ h
        simp only at ha hb
        exact ⟨ha, hb⟩
    · simp only [Run.ok.injEq] at h
      subst h
      exact ⟨Nat.le_refl _, fun hm => Or.inl hm⟩

theorem matchRecursiveLoop_ne_fuel (pattern path : List Nat) :
    ∀ (fuel : Nat) (head tail : List Nat) (mtch : Bool) (total : Int)
      (current shifted : List Nat), shifted.length < fuel →
      matchRecursiveLoop pattern path fuel head tail mtch total current shifted ≠ Run.fuel := by
  intro fuel
  induction fuel with
  | zero => intro h t m tt c s hf; omega
  | succ n ih =>
    intro h t m tt c s hf
    rw [matchRecursiveLoop]
    refine Run.bind_ne_fuel
      (matchRecursiveHead_ne_fuel h _ _ _ _ _ (by omega) (by intro _ _; omega)) ?_
    rintro ⟨m1, st1, tt1, c1⟩ _
    refine Run.bind_ne_fuel (nextPattern_ne_fuel _) ?_
    rintro ⟨h1, t1, k1⟩ _
    refine Run.bind_ne_fuel
      (matchRecursiveTail_ne_fuel pattern path _ _ (by omega) (by intro _ _; simp only; omega)) ?_
    intro s1 hs1
    obtain ⟨ha, hb⟩ := matchRecursiveTail_shifted pattern path _ _ _ hs1
    simp only at ha hb
    split
    · rename_i hmore
      rcases hb hmore with hx | hx
      · exact absurd hx (by decide)
      · exact ih _ _ _ _ _ _ (by omega)
    · simp

theorem matchRecursivePattern_ne_fuel (pattern head tail path : List Nat) :
    matchRecursivePattern pattern head tail path ≠ Run.fuel := by
  unfold matchRecursivePattern
  split
  · simp
  · exact matchRecursiveLoop_ne_fuel pattern path _ _ _ _ _ _ _ (by omega)

theorem matchRecursively_ne_fuel (pattern head tail path : List Nat) :
    matchRecursively pattern head tail path ≠ Run.fuel := by
  unfold matchRecursively
  refine Run.bind_ne_fuel (matchRecursivePattern_ne_fuel _ _ _ _) ?_
  rintro ⟨m, st⟩ _
  simp only
  split <;> simp

theorem matchFirst_ne_fuel (pattern path : List Nat) : matchFirst pattern path ≠ Run.fuel := by
  unfold matchFirst
  refine Run.bind_ne_fuel (nextPattern_ne_fuel _) ?_
  rintro ⟨h, t, k⟩ _
  simp only
  split
  · refine Run.bind_ne_fuel (matchSimple_ne_fuel _ _) ?_
    rintro ⟨pm, mc⟩ _
    simp only
    split
    · refine Run.bind_ne_fuel (sliceFrom_ne_fuel _ _) ?_
      intro p1 _
      split
      · simp
      · refine Run.bind_ne_fuel (nextPattern_ne_fuel _) ?_
        rintro ⟨h1, t1, k1⟩ _
        simp
    · refine Run.bind_ne_fuel (nextPattern_ne_fuel _) ?_
      rintro ⟨h1, t1, k1⟩ _
      simp
  · simp

theorem matchFirst_tail_length {pattern path : List Nat} {s : MatchState}
    (h : matchFirst pattern path = .ok (.next s)) : s.tail.length ≤ pattern.length := by
  unfold matchFirst at h
  rw [Run.bind_eq_ok] at h
  obtain ⟨⟨hd, tl, k⟩, hnp, h⟩ := h
  have h0 := (nextPattern_tail_length hnp).1
  simp only at h
  split at h
  · rw [Run.bind_eq_ok] at h
    obtain ⟨⟨pm, mc⟩, -, h⟩ := h
    simp only at h
    split at h
    · rw [Run.bind_eq_ok] at h
      obtain ⟨p1, -, h⟩ := h
      split at h
      · simp at h
      · rw [Run.bind_eq_ok] at h
        obtain ⟨⟨h1, t1, k1⟩, hnp1, h⟩ := h
        have h1 := (nextPattern_tail_length hnp1).1
        simp only [Run.ok.injEq, Flow.next.injEq] at h
        subst h
        simp only
        omega
    · rw [Run.bind_eq_ok] at h
      obtain ⟨⟨h1, t1, k1⟩, hnp1, h⟩ := h
      have h1 := (nextPattern_tail_length hnp1).1
      simp only [Run.ok.injEq, Flow.next.injEq] at h
      subst h
      simp only
      omega
  · simp only [Run.ok.injEq, Flow.next.injEq] at h
    subst h
    exact h0

theorem matchDirectoryChunks_ne_fuel :
    ∀ (fuel : Nat) (s : MatchState), 1 ≤ fuel →
      (s.kind = patternDirectory → s.patternMatched = true → s.tail.length + 2 ≤ fuel) →
      matchDirectoryChunks fuel s ≠ Run.fuel := by
  intro fuel
  induction fuel with
  | zero => intro s h; omega
  | succ n ih =>
    intro s _ hb
    rw [matchDirectoryChunks]
    split
    · rename_i hc
      have hn := hb hc.1 hc.2.1
      split
      · simp only
        split <;> simp
      · refine Run.bind_ne_fuel (matchDirectory_ne_fuel _ _ _) ?_
        rintro ⟨pm, count⟩ _
        simp only
        split
        · refine Run.bind_ne_fuel (sliceFrom_ne_fuel _ _) ?_
          intro p1 _
          refine Run.bind_ne_fuel (nextPattern_ne_fuel _) ?_
          rintro ⟨h1, t1, k1⟩ hnp
          have hlt := (nextPattern_tail_length hnp).2
          refine ih _ (by omega) ?_
          intro hk _
          simp only at hk ⊢
          have := hlt (by rw [hk]; decide)
          omega
        · rename_i hpm
          refine ih _ (by omega) ?_
          intro _ hx
          exact absurd hx hpm
    · simp

theorem matchDirectoryChunks_tail_length :
    ∀ (fuel : Nat) (s r : MatchState), matchDirectoryChunks fuel s = .ok (.next r) →
      r.tail.length ≤ s.tail.length := by
  intro fuel
  induction fuel with
  | zero => intro s r h; simp [matchDirectoryChunks] at h
  | succ n ih =>
    intro s r h
    rw [matchDirectoryChunks] at h
    split at h
    · split at h
      · simp only at h
        split at h <;> simp at h
      · rw [Run.bind_eq_ok] at h
        obtain ⟨⟨pm, count⟩, -, h⟩ := h
        simp only at h
        split at h
        · rw [Run.bind_eq_ok] at h
          obtain ⟨p1, -, h⟩ := h
          rw [Run.bind_eq_ok] at h
          obtain ⟨⟨h1, t1, k1⟩, hnp, h⟩ := h
          have h1 := (nextPattern_tail_length hnp).1
          have := ih _ _ h
          simp only at this
          omega
        · have := ih _ _ h
          simpa using this
    · simp only [Run.ok.injEq, Flow.next.injEq] at h
      subst h
      exact Nat.le_refl _

theorem matchRecursiveChunks_ne_fuel :
    ∀ (fuel : Nat) (s : MatchState), 1 ≤ fuel →
      (s.kind = patternRecursive → s.patternMatched = true → s.tail.length + 2 ≤ fuel) →
      matchRecursiveChunks fuel s ≠ Run.fuel := by
  intro fuel
  induction fuel with
  | zero => intro s h; omega
  | succ n ih =>
    intro s _ hb
    rw [matchRecursiveChunks]
    split
    · rename_i hc
      have hn := hb hc.1 hc.2.1
      refine Run.bind_ne_fuel ?_ ?_
      · split
        · refine Run.bind_ne_fuel (nextPattern_ne_fuel _) ?_
          rintro ⟨h1, t1, k1⟩ _
          simp only
          split <;> simp
        · simp
      · intro r1 hr1
        have hr : ∀ s2, r1 = .next s2 → s2.tail.length ≤ s.tail.length := by
          intro s2 hs2
          subst hs2
          split at hr1
          · rw [Run.bind_eq_ok] at hr1
            obtain ⟨⟨h1, t1, k1⟩, hnp, hr1⟩ := hr1
            have h1 := (nextPattern_tail_length hnp).1
            simp only at hr1
            split at hr1
            · simp at hr1
            · simp only [Run.ok.injEq, Flow.next.injEq] at hr1
              subst hr1
              exact h1
          · simp only [Run.ok.injEq, Flow.next.injEq] at hr1
            subst hr1
            exact Nat.le_refl _
        cases r1 with
        | ret res => simp
        | next s2 =>
          have hs2 := hr s2 rfl
          simp only
          refine Run.bind_ne_fuel (matchRecursively_ne_fuel _ _ _ _) ?_
          rintro ⟨pm, count⟩ _
          simp only
          split
          · refine Run.bind_ne_fuel (sliceFrom_ne_fuel _ _) ?_
            intro p1 _
            refine Run.bind_ne_fuel (nextPattern_ne_fuel _) ?_
            rintro ⟨h1, t1, k1⟩ hnp
            have hlt := (nextPattern_tail_length hnp).2
            refine ih _ (by omega) ?_
            intro hk _
            simp only at hk ⊢
            have := hlt (by rw [hk]; decide)
            omega
          · rename_i hpm
            refine ih _ (by omega) ?_
            intro _ hx
            exact absurd hx hpm
    · simp

/-- The iteration budget of `Match` is never used up: `Match` returns a
verdict and a count, or panics. -/
theorem Match_ne_fuel (pattern path : List Nat) : Match pattern path ≠ Run.fuel := by
  unfold Match
  refine Run.bind_ne_fuel (matchFirst_ne_fuel _ _) ?_
  intro r0 hr0
  cases r0 with
  | ret res => simp
  | next s0 =>
    have h0 := matchFirst_tail_length hr0
    simp only
    refine Run.bind_ne_fuel (matchDirectoryChunks_ne_fuel _ _ (by omega) (by intro _ _; omega)) ?_
    intro r1 hr1
    cases r1 with
    | ret res => simp
    | next s1 =>
      have h1 := matchDirectoryChunks_tail_length _ _ _ hr1
      simp only
      refine Run.bind_ne_fuel
        (matchRecursiveChunks_ne_fuel _ _ (by omega) (by intro _ _; omega)) ?_
      intro r2 _
      cases r2 with
      | ret res => simp
      | next s2 => simp

/-! ## The claims -/

/-- C1 (fails on the code): `Validate` accepts the pattern `[]*]`, a class whose
first member is a right bracket, with length 4 and no error, and yet `Match`
of that pattern against the path `a` panics: `nextPattern` ends the class at
the leading right bracket, the chunk handed to `matchSimple` is `[]`, and
`getClass` indexes past its end. -/
theorem C1_match_panics_on_validated_pattern :
    Validate (runes "[]*]") = .ok (4, none) ∧
    nextPattern (runes "[]*]") = .ok (runes "[]", runes "*]", patternSimple) ∧
    getClass (runes "[]") = .panic ∧
    Match (runes "[]*]") (runes "a") = .panic := by
  decide

/-- C2 (fails on the code): `Validate` panics on the pattern `[ab-`, which ends
inside an unterminated class right after a range hyphen: `classIsValid` reads
the high bound of the range at index 4 of a pattern of length 4. -/
theorem C2_validate_panics_on_open_range :
    classIsValid (runes "[ab-") = .panic ∧ Validate (runes "[ab-") = .panic := by
  decide

/-- C3: whenever `Validate` returns without an error, the length it returns is
the number of runes of the pattern. -/
theorem C3_validate_length (p : List Nat) (n : Nat)
    (h : Validate p = .ok (n, none)) : n = p.length :=
  Validate_length h

/-- Witness of C3 at the pattern `a*[b-d]?`. -/
theorem C3_validate_length_witness :
    Validate (runes "a*[b-d]?") = .ok (8, none) ∧ 8 = (runes "a*[b-d]?").length :=
  ⟨by decide, C3_validate_length (runes "a*[b-d]?") 8 (by decide)⟩

/-- C4: whenever `Match` returns true, the count it returns is the number of
runes of the path; and the pattern `/Users/**/[bc]a[!a-qsu-z]/?*.txt` matches
the path `/Users/foo/ba世/界.txt` with count 20. -/
theorem C4_match_true_count :
    (∀ (pattern path : List Nat) (n : Int),
      Match pattern path = .ok (true, n) → n = (path.length : Int)) ∧
    Match (runes "/Users/**/[bc]a[!a-qsu-z]/?*.txt") (runes "/Users/foo/ba世/界.txt")
      = .ok (true, 20) :=
  ⟨fun _ _ _ h => Match_true_count h, by decide⟩

/-- Witness of C4 at the pattern `a*` and the path `a世b`. -/
theorem C4_match_true_count_witness :
    Match (runes "a*") (runes "a世b") = .ok (true, 3) ∧
    (3 : Int) = ((runes "a世b").length : Int) :=
  ⟨by decide, C4_match_true_count.1 (runes "a*") (runes "a世b") 3 (by decide)⟩

/-- C5 (fails on the code): the pattern `**a*b**c` is accepted by `Validate`
and `Match` of it against the path `ab` is true with count 2, although the
path does not end with `c`: the last chunk `**c` is never matched. -/
theorem C5_match_skips_last_chunk :
    Validate (runes "**a*b**c") = .ok (8, none) ∧
    Match (runes "**a*b**c") (runes "ab") = .ok (true, 2) ∧
    ¬ (runes "c" <:+ runes "ab") := by
  decide

/-- C6: `Match` of the pattern `*` is true exactly for the paths without a
separator, and then the count is the number of runes of the path. -/
theorem C6_match_star (path : List Nat) :
    (Separator ∉ path → Match (runes "*") path = .ok (true, (path.length : Int))) ∧
    (Separator ∈ path → ∃ n, Match (runes "*") path = .ok (false, n)) :=
  Match_star path

/-- Witness of C6 at the path `abc`. -/
theorem C6_match_star_witness :
    Separator ∉ runes "abc" ∧ Match (runes "*") (runes "abc") = .ok (true, 3) :=
  ⟨by decide, (C6_match_star (runes "abc")).1 (by decide)⟩

/-- C7 (fails on the code): for the path `世/a` one rune precedes the first
separator, and `Match` of the pattern `*` returns false with count 3, the
byte offset of the separator in the UTF-8 string. -/
theorem C7_match_star_counts_bytes :
    List.indexOf Separator (runes "世/a") = 1 ∧
    stringsIndex (runesToString (runes "世/a")) SeparatorString = 3 ∧
    Match (runes "*") (runes "世/a") = .ok (false, 3) := by
  decide

/-- C8: `Match` of the pattern `**` is true for every path, the empty one
included, and the count is the number of runes of the path. -/
theorem C8_match_doublestar (path : List Nat) :
    Match (runes "**") path = .ok (true, (path.length : Int)) :=
  Match_doublestar path

/-- C9: for a non-empty chunk `h` of literal runes (no asterisk, question mark,
left bracket or backslash), `Match` of `*` followed by `h` is true exactly for
the paths `w ++ h` with no separator in `w`, and then the count is the number
of runes of the path. -/
theorem C9_match_star_literal (h path : List Nat) (hne : h ≠ [])
    (hlit : ∀ c ∈ h, c ≠ 42 ∧ c ≠ 63 ∧ c ≠ 91 ∧ c ≠ 92) :
    ((∃ w, path = w ++ h ∧ Separator ∉ w) →
      Match (runes "*" ++ h) path = .ok (true, (path.length : Int))) ∧
    (¬ (∃ w, path = w ++ h ∧ Separator ∉ w) →
      ∃ n, Match (runes "*" ++ h) path = .ok (false, n)) := by
  obtain ⟨n, hM, hcount⟩ := Match_star_literal h path hne hlit
  have hr : runes "*" ++ h = 42 :: h := by
    have : runes "*" = [42] := by decide
    rw [this]; rfl
  rw [hr, ← starSpec_iff h hne path]
  constructor
  · intro hs
    rw [hM, hs, hcount hs]
  · intro hs
    rw [Bool.not_eq_true] at hs
    rw [hM, hs]
    exact ⟨n, rfl⟩

/-- Witness of C9 at the chunk `z/é` and the path `12z/é`. -/
theorem C9_match_star_literal_witness :
    Match (runes "*" ++ runes "z/é") (runes "12z/é") = .ok (true, 5) :=
  (C9_match_star_literal (runes "z/é") (runes "12z/é") (by decide) (by decide)).1
    ⟨runes "12", by decide, by decide⟩

/-- C10 (fails on the code): `matchRecursively` of the pattern `**a` with head
`a` and empty tail against the path `aba` returns true with count 1, not 3,
and `Match` of `**a` against `aba`, a path that ends with `a`, is false. -/
theorem C10_recursive_search_not_repeated :
    nextPattern (runes "**a") = .ok (runes "a", [], patternRecursive) ∧
    matchRecursively (runes "**a") (runes "a") [] (runes "aba") = .ok (true, 1) ∧
    Match (runes "**a") (runes "aba") = .ok (false, 1) ∧
    runes "a" <:+ runes "aba" := by
  decide

/-! ## Auxiliary lemmas: literal patterns, the empty pattern, the question mark -/

theorem nextPattern_literal (p : List Nat) (hlit : ∀ c ∈ p, c ≠ 42 ∧ c ≠ 91 ∧ c ≠ 92) :
    nextPattern p = .ok (p, [], patternSimple) := by
  have hstart : nextPatternStart p = .ok (0, patternSimple) := by
    unfold nextPatternStart
    by_cases hl : p.length > 0
    · rw [if_pos hl, idx_eq hl]
      simp only [Run.ok_bind]
      rw [if_neg (hlit _ (List.getElem_mem hl)).1]
    · rw [if_neg hl]
  have hloop := nextPatternLoop_literal p (p.length + 1) 0 (by omega) (by omega)
    (fun j hj _ => hlit _ (List.getElem_mem hj))
  unfold nextPattern
  rw [hstart]
  simp only [Run.ok_bind]
  rw [hloop]
  simp only [Run.ok_bind]
  have hsl : slice p 0 p.length = .ok p := by
    unfold slice
    rw [if_pos ⟨Nat.zero_le _, Nat.le_refl _⟩]
    simp
  have hsf : sliceFrom p (p.length : Nat) = .ok [] := by
    unfold sliceFrom
    rw [if_pos ⟨Int.natCast_nonneg _, le_refl _⟩, Int.toNat_ofNat, List.drop_length]
  rw [hsl]
  simp only [Run.ok_bind]
  rw [hsf]
  rfl

theorem Match_literal_self (p : List Nat)
    (hlit : ∀ c ∈ p, c ≠ 42 ∧ c ≠ 63 ∧ c ≠ 91 ∧ c ≠ 92) :
    Match p p = .ok (true, (p.length : Int)) := by
  have hnp := nextPattern_literal p (fun c hc => ⟨(hlit c hc).1, (hlit c hc).2.2⟩)
  by_cases hp : p = []
  · subst hp
    decide
  · obtain ⟨b, c, hms, hiff, hcnt⟩ := matchSimple_literal p p hp (fun c hc => (hlit c hc).2)
    have hb : b = true := hiff.mpr (List.prefix_refl p)
    subst hb
    have hc := hcnt rfl
    subst hc
    have hsf : sliceFrom p (p.length : Nat) = .ok [] := by
      unfold sliceFrom
      rw [if_pos ⟨Int.natCast_nonneg _, le_refl _⟩, Int.toNat_ofNat, List.drop_length]
    simp only [Match, matchFirst, hnp, Run.ok_bind, if_true, hms, hsf, List.length_nil,
      decide_True]

theorem Match_empty (path : List Nat) : Match [] path = .ok (decide (path = []), 0) := by
  cases path with
  | nil => decide
  | cons x xs =>
    have hnil : nextPattern [] = .ok ([], [], patternSimple) := by decide
    have hms : matchSimple [] (x :: xs) = .ok (false, 0) := by
      unfold matchSimple
      rw [if_pos ⟨rfl, by simp⟩]
    simp only [Match, matchFirst, hnil, Run.ok_bind, if_true, hms, Bool.false_eq_true, if_false]
    rw [show [].length + 2 = 1 + 1 from rfl, matchDirectoryChunks_skip _ _ (Or.inl (by simp))]
    simp only [Run.ok_bind]
    rw [matchRecursiveChunks_skip _ _ (Or.inl (by simp))]
    simp

theorem Match_question (v : Nat) :
    Match [63] [v] = if v = Separator then .ok (false, 0) else .ok (true, 1) := by
  have hnil : nextPattern [] = .ok ([], [], patternSimple) := by decide
  have hnp : nextPattern [63] = .ok ([63], [], patternSimple) := by decide
  have hms : matchSimple [63] [v] =
      if v = Separator then .ok (false, 0) else .ok (true, 1) := by
    unfold matchSimple
    rw [if_neg (by simp)]
    rw [show [63].length + 1 = 1 + 1 from rfl, matchSimpleLoop]
    rw [if_pos ⟨by simp, by simp, rfl⟩, idx_eq (by simp), idx_eq (by simp)]
    simp only [Run.ok_bind, List.getElem_cons_zero, Bool.false_eq_true, if_false]
    rw [if_neg (by decide), if_neg (by decide)]
    simp only [if_true]
    by_cases hv : v = Separator
    · rw [if_neg (by simp [hv]), if_pos hv]
      rfl
    · rw [if_pos hv, if_neg hv, matchSimpleLoop, if_neg (by simp)]
      rfl
  simp only [Match, matchFirst, hnp, Run.ok_bind, if_true, hms]
  by_cases hv : v = Separator
  · simp only [hv, if_true, Run.ok_bind, Bool.false_eq_true, if_false, hnil]
    rw [show [63].length + 2 = 2 + 1 from rfl, matchDirectoryChunks_skip _ _ (Or.inl (by simp))]
    simp only [Run.ok_bind]
    rw [matchRecursiveChunks_skip _ _ (Or.inl (by simp))]
    simp
  · have hsf : sliceFrom [v] 1 = .ok [] := by
      unfold sliceFrom
      rw [if_pos ⟨by omega, by simp⟩]
      rfl
    simp only [hv, if_false, Run.ok_bind, if_true, hsf, List.length_nil, decide_True]

/-! ## Auxiliary lemmas: classes read by the validator, the extractor and the segmenter -/

theorem classIsValidLoop_stop (pattern : List Nat) (fuel i lo : Nat) (done : Bool)
    (err : Option globError) (r : Nat × Option globError)
    (hstop : done = true ∨ err ≠ none ∨ pattern.length ≤ i)
    (h : classIsValidLoop pattern fuel i lo done err = .ok r) : r = (i, err) := by
  cases fuel with
  | zero => simp [classIsValidLoop] at h
  | succ n =>
    rw [classIsValidLoop, if_neg] at h
    · simp only [Run.ok.injEq] at h
      exact h.symm
    · rintro ⟨h1, h2, h3⟩
      rcases hstop with hd | he | hl
      · rw [hd] at h1
        exact absurd h1 (by decide)
      · exact he h2
      · omega

theorem classIsValidLoop_le (pattern : List Nat) :
    ∀ (fuel i lo : Nat) (done : Bool) (err : Option globError) (r : Nat × Option globError),
      classIsValidLoop pattern fuel i lo done err = .ok r → i ≤ r.1 := by
  intro fuel
  induction fuel with
  | zero => intro i lo done err r h; simp [classIsValidLoop] at h
  | succ n ih =>
    intro i lo done err r h
    rw [classIsValidLoop] at h
    split at h
    · rw [Run.bind_eq_ok] at h
      obtain ⟨token, -, h⟩ := h
      split at h
      · split at h
        · rw [Run.bind_eq_ok] at h
          obtain ⟨lo1, -, h⟩ := h
          split at h
          · split at h
            · have := ih _ _ _ _ _ h; omega
            · have := ih _ _ _ _ _ h; omega
          · have := ih _ _ _ _ _ h; omega
        · have := ih _ _ _ _ _ h; omega
      · split at h
        · split at h
          · have := ih _ _ _ _ _ h; omega
          · rw [Run.bind_eq_ok] at h
            obtain ⟨p1, -, h⟩ := h
            split at h
            · have := ih _ _ _ _ _ h; omega
            · have := ih _ _ _ _ _ h; omega
        · split at h
          · rw [Run.bind_eq_ok] at h
            obtain ⟨literal, -, h⟩ := h
            split at h
            · have := ih _ _ _ _ _ h; omega
            · rw [Run.bind_eq_ok] at h
              obtain ⟨hi1, -, h⟩ := h
              split at h
              · have := ih _ _ _ _ _ h; omega
              · have := ih _ _ _ _ _ h; omega
          · have := ih _ _ _ _ _ h; omega
    · simp only [Run.ok.injEq] at h
      subst h
      exact Nat.le_refl _

/-- A class that `classIsValidLoop` reads to its closing bracket without an
error is one in which `getClassLoop` finds a closing bracket, at the same
place or earlier. -/
theorem getClassLoop_of_classIsValidLoop (cls : List Nat) (neg : Bool) (p1 : Nat)
    (hlen : 3 ≤ cls.length) (hp1 : idx cls 1 = .ok p1) (hneg : neg = decide (p1 = 33)) :
    ∀ (fuel i lo n : Nat), 1 ≤ i → i < cls.length →
      classIsValidLoop cls fuel i lo false none = .ok (n, none) →
      idx cls (n - 1) = .ok 93 →
      ∀ g, cls.length - i < g → ∃ m, getClassLoop cls neg g i = .ok m ∧ m ≤ n := by
  intro fuel
  induction fuel with
  | zero => intro i lo n _ _ h; simp [classIsValidLoop] at h
  | succ k ih =>
    intro i lo n hi1 hi h hlast g hg
    obtain ⟨g1, rfl⟩ : ∃ g1, g = g1 + 1 := ⟨g - 1, by omega⟩
    -- what happens when the validator goes on at an index `j`
    have hnext : ∀ (j lo1 : Nat), i < j → j ≤ cls.length →
        (j = cls.length → idx cls (cls.length - 1) ≠ .ok 93) →
        classIsValidLoop cls k j lo1 false none = .ok (n, none) →
        ∀ g2, cls.length - j < g2 → ∃ m, getClassLoop cls neg g2 j = .ok m ∧ m ≤ n := by
      intro j lo1 hij hjl hjlast hrec g2 hg2
      by_cases hj : j < cls.length
      · exact ih j lo1 n (by omega) hj hrec hlast g2 hg2
      · exfalso
        have hjeq : j = cls.length := by omega
        have := classIsValidLoop_stop cls k j lo1 false none _ (Or.inr (Or.inr (by omega))) hrec
        simp only [Prod.mk.injEq, and_true] at this
        subst this
        rw [hjeq] at hlast
        exact hjlast hjeq hlast
    have hci : idx cls i = .ok cls[i] := idx_eq hi
    rw [classIsValidLoop, if_pos ⟨rfl, rfl, hi⟩, hci] at h
    simp only [Run.ok_bind] at h
    rw [getClassLoop, hci]
    simp only [Run.ok_bind]
    by_cases h92 : cls[i] = escapeCharacter
    · -- an escape
      have h93 : cls[i] ≠ 93 := by rw [h92]; decide
      rw [if_pos h92] at h
      rw [if_neg h93, if_pos h92]
      split at h
      · rename_i hil
        have hi2 : i + 1 < cls.length := by omega
        rw [idx_eq hi2] at h
        simp only [Run.ok_bind] at h
        split at h
        · split at h
          · have := classIsValidLoop_stop cls k _ _ _ _ _ (Or.inr (Or.inl (by simp))) h
            simp at this
          · rename_i hnot
            refine hnext (i + 1 + 1) _ (by omega) (by omega) ?_ h g1 (by omega)
            intro hj hl
            have hidx : i + 1 = cls.length - 1 := by omega
            have h2 : idx cls (cls.length - 1) = .ok cls[i + 1] := by
              rw [← idx_eq hi2]
              congr 1
              exact hidx.symm
            rw [h2] at hl
            simp only [Run.ok.injEq] at hl
            exact hnot ⟨hl, hidx⟩
        · have := classIsValidLoop_stop cls k _ _ _ _ _ (Or.inr (Or.inl (by simp))) h
          simp at this
      · have := classIsValidLoop_stop cls k _ _ _ _ _ (Or.inr (Or.inl (by simp))) h
        simp at this
    · rw [if_neg h92] at h
      by_cases h93 : cls[i] = 93
      · -- a right bracket
        rw [if_pos h93] at h
        rw [if_pos h93]
        by_cases hone : i ≠ 1
        · rw [if_pos hone] at h
          rw [if_pos (Or.inl hone)]
          have := classIsValidLoop_stop cls k _ _ _ _ _ (Or.inl rfl) h
          simp only [Prod.mk.injEq, and_true] at this
          exact ⟨i + 1, rfl, by omega⟩
        · simp only [ne_eq, Decidable.not_not] at hone
          subst hone
          rw [if_neg (by simp), hp1] at h
          simp only [Run.ok_bind] at h
          have hp : p1 = 93 := by
            rw [hci] at hp1
            simp only [Run.ok.injEq] at hp1
            rw [← hp1, h93]
          have hnegf : neg = false := by rw [hneg, hp]; decide
          rw [if_neg (by rw [hp]; decide)] at h
          rw [if_neg (by rw [hnegf]; simp)]
          exact hnext (1 + 1) _ (by omega) (by omega) (by intro hj; omega) h g1 (by omega)
      · rw [if_neg h93] at h
        rw [if_neg h93, if_neg h92]
        have hlastne : i + 1 = cls.length → idx cls (cls.length - 1) ≠ .ok 93 := by
          intro hj hl
          have hidx : i = cls.length - 1 := by omega
          have h2 : idx cls (cls.length - 1) = .ok cls[i] := by
            rw [← hci]
            congr 1
            exact hidx.symm
          rw [h2] at hl
          simp only [Run.ok.injEq] at hl
          exact h93 hl
        by_cases h45 : cls[i] = 45
        · -- a hyphen
          rw [if_pos h45] at h
          rw [Run.bind_eq_ok] at h
          obtain ⟨literal, hlit, h⟩ := h
          cases literal with
          | true =>
            simp only [if_true] at h
            exact hnext (i + 1) _ (by omega) (by omega) hlastne h g1 (by omega)
          | false =>
            simp only [Bool.false_eq_true, if_false] at h
            have hnl : i ≠ cls.length - 2 := by
              split at hlit
              · simp at hlit
              · split at hlit
                · rw [Run.bind_eq_ok] at hlit
                  obtain ⟨q, -, hlit⟩ := hlit
                  split at hlit
                  · simp at hlit
                  · simpa using hlit
                · simpa using hlit
            rw [Run.bind_eq_ok] at h
            obtain ⟨hi1, hhi, h⟩ := h
            have hi2 : i + 1 < cls.length := (idx_ok hhi).1
            have hhi1 : hi1 = cls[i + 1] := by
              rw [idx_eq hi2] at hhi
              simp only [Run.ok.injEq] at hhi
              exact hhi.symm
            split at h
            · have := classIsValidLoop_stop cls k _ _ _ _ _ (Or.inr (Or.inl (by simp))) h
              simp at this
            · rename_i hok
              have hge := classIsValidLoop_le cls _ _ _ _ _ _ h
              simp only at hge
              obtain ⟨g2, rfl⟩ : ∃ g2, g1 = g2 + 1 := ⟨g1 - 1, by omega⟩
              rw [getClassLoop, idx_eq hi2]
              simp only [Run.ok_bind]
              by_cases hh93 : cls[i + 1] = 93
              · rw [if_pos hh93, if_pos (Or.inl (by omega))]
                exact ⟨i + 1 + 1, rfl, hge⟩
              · have hh92 : cls[i + 1] ≠ escapeCharacter := by
                  intro hx
                  exact hok (Or.inr (by rw [hhi1]; exact hx))
                rw [if_neg hh93, if_neg hh92]
                exact hnext (i + 1 + 1) _ (by omega) (by omega) (by intro hj; omega) h g2
                  (by omega)
        · rw [if_neg h45] at h
          exact hnext (i + 1) _ (by omega) (by omega) hlastne h g1 (by omega)

theorem getClassLoop_gt (pattern : List Nat) (neg : Bool) :
    ∀ (g i m : Nat), getClassLoop pattern neg g i = .ok m → i < m ∧ m ≤ pattern.length := by
  intro g
  induction g with
  | zero => intro i m h; simp [getClassLoop] at h
  | succ k ih =>
    intro i m h
    rw [getClassLoop, Run.bind_eq_ok] at h
    obtain ⟨token, htok, h⟩ := h
    have hi := (idx_ok htok).1
    split at h
    · split at h
      · simp only [Run.ok.injEq] at h
        omega
      · have := ih _ _ h; omega
    · split at h
      · have := ih _ _ h; omega
      · have := ih _ _ h; omega

/-- The result of `getClassLoop` depends only on the runes before the place
where it stops. -/
theorem getClassLoop_take (pattern : List Nat) (neg : Bool) (k : Nat) :
    ∀ (g i m : Nat), getClassLoop pattern neg g i = .ok m → m ≤ k →
      getClassLoop (pattern.take k) neg g i = .ok m := by
  intro g
  induction g with
  | zero => intro i m h; simp [getClassLoop] at h
  | succ n ih =>
    intro i m h hmk
    have hgt := (getClassLoop_gt pattern neg _ _ _ h).1
    rw [getClassLoop, Run.bind_eq_ok] at h
    obtain ⟨token, htok, h⟩ := h
    obtain ⟨hi, hget⟩ := idx_ok htok
    have htk : idx (pattern.take k) i = .ok token := by
      unfold idx
      rw [List.getElem?_take_of_lt (by omega), hget]
    rw [getClassLoop, htk]
    simp only [Run.ok_bind]
    split at h
    · rename_i h93
      rw [if_pos h93]
      split at h
      · rename_i hc
        rw [if_pos hc]
        exact h
      · rename_i hc
        rw [if_neg hc]
        exact ih _ _ h hmk
    · rename_i h93
      rw [if_neg h93]
      split at h
      · rename_i h92
        rw [if_pos h92]
        exact ih _ _ h hmk
      · rename_i h92
        rw [if_neg h92]
        exact ih _ _ h hmk

/-- Inside a class `nextPatternLoop` goes at least as far as the closing
bracket that `getClassLoop` finds. -/
theorem getClassLoop_le_nextPatternLoop (pattern : List Nat) (neg : Bool) :
    ∀ (g i m : Nat), 2 ≤ i → getClassLoop pattern neg g i = .ok m →
      ∀ (f r : Nat), nextPatternLoop pattern f i true = .ok r → m ≤ r := by
  intro g
  induction g with
  | zero => intro i m _ h; simp [getClassLoop] at h
  | succ n ih =>
    intro i m hi2 h f r hr
    rw [getClassLoop, Run.bind_eq_ok] at h
    obtain ⟨token, htok, h⟩ := h
    obtain ⟨hi, -⟩ := idx_ok htok
    cases f with
    | zero => simp [nextPatternLoop] at hr
    | succ f1 =>
      rw [nextPatternLoop, if_pos hi, htok] at hr
      simp only [Run.ok_bind] at hr
      by_cases h92 : token = escapeCharacter
      · have h93 : token ≠ 93 := by rw [h92]; decide
        rw [if_neg h93, if_pos h92] at h
        rw [if_pos h92] at hr
        simp only [if_true] at hr
        exact ih _ _ (by omega) h _ _ hr
      · rw [if_neg h92] at hr
        by_cases h93 : token = 93
        · rw [if_pos h93, if_pos (Or.inl (by omega))] at h
          simp only [Run.ok.injEq] at h
          have h91 : token ≠ 91 := by rw [h93]; decide
          rw [if_neg h91, if_pos h93] at hr
          have := nextPatternLoop_le pattern _ _ _ _ hr
          omega
        · rw [if_neg h93, if_neg h92] at h
          rw [if_neg h93] at hr
          split at hr
          · exact ih _ _ (by omega) h _ _ hr
          · split at hr
            · simp only [Bool.true_eq_false, if_false] at hr
              exact ih _ _ (by omega) h _ _ hr
            · exact ih _ _ (by omega) h _ _ hr

/-- The loop of `nextPattern` never panics; it stops at most one place past
the end of the pattern, and only when the last rune is a backslash. -/
theorem nextPatternLoop_ok (pattern : List Nat) :
    ∀ (fuel stop : Nat) (inClass : Bool), pattern.length - stop < fuel →
      (stop ≤ pattern.length ∨ idx pattern (pattern.length - 1) = .ok escapeCharacter) →
      ∃ r, nextPatternLoop pattern fuel stop inClass = .ok r ∧ stop ≤ r ∧
        (r ≤ pattern.length ∨ idx pattern (pattern.length - 1) = .ok escapeCharacter) := by
  intro fuel
  induction fuel with
  | zero => intro s c h; omega
  | succ n ih =>
    intro s c hf hs
    rw [nextPatternLoop]
    by_cases hlt : s < pattern.length
    · rw [if_pos hlt, idx_eq hlt]
      simp only [Run.ok_bind]
      have hstep : ∀ c1, ∃ r, nextPatternLoop pattern n (s + 1) c1 = .ok r ∧ s ≤ r ∧
          (r ≤ pattern.length ∨ idx pattern (pattern.length - 1) = .ok escapeCharacter) := by
        intro c1
        obtain ⟨r, h1, h2, h3⟩ := ih (s + 1) c1 (by omega) (Or.inl (by omega))
        exact ⟨r, h1, by omega, h3⟩
      split
      · rename_i h92
        split
        · have hs2 : s + 1 + 1 ≤ pattern.length ∨
              idx pattern (pattern.length - 1) = .ok escapeCharacter := by
            by_cases hx : s + 1 + 1 ≤ pattern.length
            · exact Or.inl hx
            · right
              have hidx : s = pattern.length - 1 := by omega
              rw [← h92, ← idx_eq hlt]
              congr 1
              exact hidx.symm
          obtain ⟨r, h1, h2, h3⟩ := ih (s + 1 + 1) c (by omega) hs2
          exact ⟨r, h1, by omega, h3⟩
        · exact hstep c
      · split
        · exact hstep true
        · split
          · exact hstep false
          · split
            · split
              · exact ⟨s, rfl, Nat.le_refl _, Or.inl (by omega)⟩
              · exact hstep c
            · exact hstep c
    · rw [if_neg hlt]
      exact ⟨s, rfl, Nat.le_refl _, hs⟩

theorem skipAsterisks_ok (pattern : List Nat) :
    ∀ (fuel start : Nat), pattern.length - start < fuel → start ≤ pattern.length →
      ∃ r, skipAsterisks pattern fuel start = .ok r ∧ start ≤ r ∧ r ≤ pattern.length := by
  intro fuel
  induction fuel with
  | zero => intro s h; omega
  | succ n ih =>
    intro s hf hs
    rw [skipAsterisks]
    by_cases hlt : s < pattern.length
    · rw [if_pos hlt, idx_eq hlt]
      simp only [Run.ok_bind]
      split
      · obtain ⟨r, h1, h2, h3⟩ := ih (s + 1) (by omega) (by omega)
        exact ⟨r, h1, by omega, h3⟩
      · exact ⟨s, rfl, Nat.le_refl _, hs⟩
    · rw [if_neg hlt]
      exact ⟨s, rfl, Nat.le_refl _, hs⟩

theorem nextPatternStart_ok (pattern : List Nat) :
    ∃ start kind, nextPatternStart pattern = .ok (start, kind) ∧ start ≤ pattern.length := by
  unfold nextPatternStart
  by_cases hl : pattern.length > 0
  · rw [if_pos hl, idx_eq hl]
    simp only [Run.ok_bind]
    split
    · by_cases h1 : 1 < pattern.length
      · rw [if_pos h1, idx_eq h1]
        simp only [Run.ok_bind]
        split
        · obtain ⟨r, hr, -, hle⟩ := skipAsterisks_ok pattern (pattern.length + 1) 2
            (by omega) (by omega)
          rw [hr]
          exact ⟨r, _, rfl, hle⟩
        · exact ⟨1, _, rfl, by omega⟩
      · rw [if_neg h1]
        exact ⟨1, _, rfl, by omega⟩
    · exact ⟨0, _, rfl, Nat.zero_le _⟩
  · rw [if_neg hl]
    exact ⟨0, _, rfl, Nat.zero_le _⟩

/-- A pattern whose last rune is not a backslash is segmented without a
panic. -/
theorem nextPattern_ok (pattern : List Nat)
    (hlast : idx pattern (pattern.length - 1) ≠ .ok escapeCharacter) :
    ∃ head tail kind, nextPattern pattern = .ok (head, tail, kind) := by
  obtain ⟨start, kind, hstart, hsl⟩ := nextPatternStart_ok pattern
  obtain ⟨stop, hloop, hge, hle⟩ := nextPatternLoop_ok pattern (pattern.length + 1) start false
    (by omega) (Or.inl hsl)
  have hle1 : stop ≤ pattern.length := by
    rcases hle with h | h
    · exact h
    · exact absurd h hlast
  unfold nextPattern
  rw [hstart]
  simp only [Run.ok_bind]
  rw [hloop]
  simp only [Run.ok_bind]
  have h1 : slice pattern start stop = .ok ((pattern.take stop).drop start) := by
    unfold slice
    rw [if_pos ⟨hge, hle1⟩]
  have h2 : sliceFrom pattern (stop : Nat) = .ok (pattern.drop stop) := by
    unfold sliceFrom
    rw [if_pos ⟨Int.natCast_nonneg _, by omega⟩, Int.toNat_ofNat]
  rw [h1]
  simp only [Run.ok_bind]
  rw [h2]
  exact ⟨_, _, _, rfl⟩

theorem getClassLoop_fuel (pattern : List Nat) (neg : Bool) :
    ∀ (g i m : Nat), getClassLoop pattern neg g i = .ok m →
      ∀ g1, m - i ≤ g1 → getClassLoop pattern neg g1 i = .ok m := by
  intro g
  induction g with
  | zero => intro i m h; simp [getClassLoop] at h
  | succ n ih =>
    intro i m h g1 hg1
    have hgt := (getClassLoop_gt pattern neg _ _ _ h).1
    obtain ⟨g2, rfl⟩ : ∃ g2, g1 = g2 + 1 := ⟨g1 - 1, by omega⟩
    rw [getClassLoop, Run.bind_eq_ok] at h
    obtain ⟨token, htok, h⟩ := h
    rw [getClassLoop, htok]
    simp only [Run.ok_bind]
    split at h
    · rename_i h93
      rw [if_pos h93]
      split at h
      · rename_i hc
        rw [if_pos hc]
        exact h
      · rename_i hc
        rw [if_neg hc]
        have := (getClassLoop_gt pattern neg _ _ _ h).1
        exact ih _ _ h g2 (by omega)
    · rename_i h93
      rw [if_neg h93]
      split at h
      · rename_i h92
        rw [if_pos h92]
        have := (getClassLoop_gt pattern neg _ _ _ h).1
        exact ih _ _ h g2 (by omega)
      · rename_i h92
        rw [if_neg h92]
        have := (getClassLoop_gt pattern neg _ _ _ h).1
        exact ih _ _ h g2 (by omega)

/-- What `classIsValid` has checked when it accepts a whole pattern as a
class. -/
theorem classIsValid_full {cls : List Nat}
    (hv : classIsValid cls = .ok (cls.length, none)) :
    3 ≤ cls.length ∧ idx cls 0 = .ok 91 ∧ idx cls (cls.length - 1) = .ok 93 ∧
    classIsValidLoop cls (cls.length + 1) 1 0 false none = .ok (cls.length, none) := by
  unfold classIsValid at hv
  split at hv
  · simp at hv
  · rw [Run.bind_eq_ok] at hv
    obtain ⟨p0, hp0, hv⟩ := hv
    split at hv
    · simp at hv
    · rename_i hp
      simp only [ne_eq, Decidable.not_not] at hp
      subst hp
      rw [Run.bind_eq_ok] at hv
      obtain ⟨short, hshort, hv⟩ := hv
      split at hv
      · simp at hv
      · rename_i hs
        have hlen : 3 ≤ cls.length := by
          by_contra hlt
          rw [if_pos (by omega)] at hshort
          simp only [Run.ok.injEq] at hshort
          exact hs hshort.symm
        rw [Run.bind_eq_ok] at hv
        obtain ⟨⟨i, err⟩, hloop, hv⟩ := hv
        cases err with
        | some e => simp at hv
        | none =>
          simp only at hv
          rw [Run.bind_eq_ok] at hv
          obtain ⟨last, hlast, hv⟩ := hv
          split at hv
          · simp at hv
          · rename_i hl
            simp only [ne_eq, Decidable.not_not] at hl
            simp only [Run.ok.injEq, Prod.mk.injEq, and_true] at hv
            subst hv
            subst hl
            exact ⟨hlen, hp0, hlast, hloop⟩

theorem Match_negated_class_separator (cls : List Nat)
    (hv : classIsValid cls = .ok (cls.length, none)) (hbang : cls[1]? = some 33) :
    Match cls [Separator] = .ok (false, 0) := by
  obtain ⟨hlen, hp0, hlast, hloop⟩ := classIsValid_full hv
  have h0 : 0 < cls.length := by omega
  have h1 : 1 < cls.length := by omega
  have hp1 : idx cls 1 = .ok 33 := by
    unfold idx
    rw [hbang]
  have hc0 : cls[0] = 91 := by
    rw [idx_eq h0] at hp0
    simpa using hp0
  have hc1 : cls[1] = 33 := by
    rw [idx_eq h1] at hp1
    simpa using hp1
  -- the closing bracket found by `getClass`
  obtain ⟨m, hm, hmle⟩ := getClassLoop_of_classIsValidLoop cls true 33 hlen hp1 (by decide)
    (cls.length + 1) 1 0 cls.length (Nat.le_refl _) h1 hloop hlast (cls.length + 1) (by omega)
  have hm2 : getClassLoop cls true cls.length 2 = .ok m := by
    rw [getClassLoop, hp1] at hm
    simpa [escapeCharacter] using hm
  have hmgt := (getClassLoop_gt cls true _ _ _ hm2).1
  -- the end of the first chunk
  have hlast92 : idx cls (cls.length - 1) ≠ .ok escapeCharacter := by
    rw [hlast]
    simp [escapeCharacter]
  have hstart : nextPatternStart cls = .ok (0, patternSimple) := by
    unfold nextPatternStart
    rw [if_pos h0, hp0]
    simp
  obtain ⟨stop, hstop, -, hstople⟩ := nextPatternLoop_ok cls (cls.length + 1) 0 false
    (by omega) (Or.inl (Nat.zero_le _))
  have hstople1 : stop ≤ cls.length := by
    rcases hstople with h | h
    · exact h
    · exact absurd h hlast92
  have hstop2 : nextPatternLoop cls (cls.length - 1) 2 true = .ok stop := by
    obtain ⟨k, hk⟩ : ∃ k, cls.length = k + 1 + 1 := ⟨cls.length - 2, by omega⟩
    have hk1 : cls.length - 1 = k + 1 := by omega
    have hk2 : cls.length + 1 = k + 1 + 1 + 1 := by omega
    rw [hk2, nextPatternLoop, if_pos h0, hp0] at hstop
    simp only [Run.ok_bind] at hstop
    rw [if_neg (by decide)] at hstop
    simp only [if_true] at hstop
    rw [nextPatternLoop, if_pos h1, hp1] at hstop
    simp only [Run.ok_bind] at hstop
    rw [if_neg (by decide), if_neg (by decide), if_neg (by decide), if_neg (by decide)] at hstop
    rw [hk1]
    exact hstop
  have hmstop : m ≤ stop :=
    getClassLoop_le_nextPatternLoop cls true _ 2 m (Nat.le_refl _) hm2 _ _ hstop2
  have hnp : nextPattern cls = .ok (cls.take stop, cls.drop stop, patternSimple) := by
    unfold nextPattern
    rw [hstart]
    simp only [Run.ok_bind]
    rw [hstop]
    simp only [Run.ok_bind]
    have ha : slice cls 0 stop = .ok (cls.take stop) := by
      unfold slice
      rw [if_pos ⟨Nat.zero_le _, hstople1⟩]
      simp
    have hb : sliceFrom cls (stop : Nat) = .ok (cls.drop stop) := by
      unfold sliceFrom
      rw [if_pos ⟨Int.natCast_nonneg _, by omega⟩, Int.toNat_ofNat]
    rw [ha]
    simp only [Run.ok_bind]
    rw [hb]
    rfl
  -- the first chunk does not match the separator
  have hheadlen : (cls.take stop).length = stop := by
    rw [List.length_take]
    omega
  have hh0 : idx (cls.take stop) 0 = .ok 91 := by
    unfold idx
    rw [List.getElem?_take_of_lt (by omega), List.getElem?_eq_getElem h0, hc0]
  have hh1 : idx (cls.take stop) 1 = .ok 33 := by
    unfold idx
    rw [List.getElem?_take_of_lt (by omega), hbang]
  have hgc : getClass (cls.take stop) = .ok (true, (cls.take stop).take m) := by
    unfold getClass
    rw [hh1]
    simp only [Run.ok_bind, decide_True]
    have hg := getClassLoop_take cls true stop _ _ _ hm hmstop
    have hg2 := getClassLoop_fuel _ true _ _ _ hg ((cls.take stop).length + 1) (by omega)
    rw [hg2]
    simp only [Run.ok_bind]
    unfold sliceTo
    rw [if_pos (by omega)]
    rfl
  have hmc : ∀ p, matchClass p Separator true = .ok false := by
    intro p
    unfold matchClass
    rw [if_neg (by simp), if_pos ⟨rfl, rfl⟩]
  have hms : matchSimple (cls.take stop) [Separator] = .ok (false, 0) := by
    unfold matchSimple
    rw [if_neg (by omega), matchSimpleLoop, if_pos ⟨by omega, by simp, rfl⟩, hh0,
      idx_eq (by simp)]
    simp only [Run.ok_bind, List.getElem_cons_zero, Bool.false_eq_true, if_false]
    rw [if_neg (by decide)]
    simp only [if_true]
    have hsf : sliceFrom (cls.take stop) ((0 : Nat) : Int) = .ok (cls.take stop) := by
      unfold sliceFrom
      rw [if_pos ⟨by omega, by omega⟩]
      rfl
    rw [hsf]
    simp only [Run.ok_bind]
    rw [hgc]
    simp only [Run.ok_bind]
    rw [hmc]
    simp
  -- the rest of the pattern is segmented without a panic
  have htail : idx (cls.drop stop) ((cls.drop stop).length - 1) ≠ .ok escapeCharacter := by
    by_cases hs : stop < cls.length
    · have hidx : idx (cls.drop stop) ((cls.drop stop).length - 1) =
          idx cls (cls.length - 1) := by
        unfold idx
        rw [List.getElem?_drop, List.length_drop]
        congr 2
        omega
      rw [hidx]
      exact hlast92
    · have : cls.drop stop = [] := List.drop_eq_nil_of_le (by omega)
      rw [this]
      decide
  obtain ⟨h2, t2, k2, hnp2⟩ := nextPattern_ok (cls.drop stop) htail
  simp only [Match, matchFirst, hnp, Run.ok_bind, if_true, hms, Bool.false_eq_true, if_false,
    hnp2]
  rw [matchDirectoryChunks_skip _ _ (Or.inr (Or.inl rfl))]
  simp only [Run.ok_bind]
  rw [matchRecursiveChunks_skip _ _ (Or.inr (Or.inl rfl))]
  simp

theorem matchClass_separator_negated (cls : List Nat) :
    matchClass cls Separator true = .ok false := by
  unfold matchClass
  rw [if_neg (by simp), if_pos ⟨rfl, rfl⟩]

/-! ## Auxiliary lemmas: escaped runes -/

theorem matchSimple_escaped (c v : Nat) (rest : List Nat) :
    matchSimple [92, c] (v :: rest) = if c = v then .ok (true, 1) else .ok (false, 0) := by
  unfold matchSimple
  rw [if_neg (by simp)]
  rw [show [92, c].length + 1 = 1 + 1 + 1 from rfl, matchSimpleLoop]
  rw [if_pos ⟨by simp, by simp, rfl⟩, idx_eq (by simp), idx_eq (by simp)]
  simp only [Run.ok_bind, List.getElem_cons_zero, Bool.false_eq_true, if_false]
  rw [if_pos (by decide), matchSimpleLoop]
  rw [if_pos ⟨by simp, by simp, rfl⟩, idx_eq (by simp), idx_eq (by simp)]
  simp only [Run.ok_bind, List.getElem_cons_zero, List.getElem_cons_succ, if_true]
  by_cases hcv : c = v
  · rw [if_pos hcv, if_pos hcv, matchSimpleLoop, if_neg (by simp)]
    rfl
  · rw [if_neg hcv, if_neg hcv]
    rfl

/-- An escaped rune that the segmenter leaves in one chunk matches exactly
the path made of that rune. -/
theorem Match_escaped (c : Nat) (path : List Nat)
    (hnp : nextPattern [92, c] = .ok ([92, c], [], patternSimple)) :
    ∃ n, Match [92, c] path = .ok (decide (path = [c]), n) ∧ (path = [c] → n = 1) := by
  have hnil : nextPattern [] = .ok ([], [], patternSimple) := by decide
  cases path with
  | nil =>
    have hms : matchSimple [92, c] [] = .ok (false, 0) := by
      unfold matchSimple
      rw [if_neg (by simp), matchSimpleLoop, if_neg (by simp)]
      rfl
    refine ⟨0, ?_, by simp⟩
    simp only [Match, matchFirst, hnp, Run.ok_bind, if_true, hms, Bool.false_eq_true, if_false,
      hnil]
    rw [show [92, c].length + 2 = 3 + 1 from rfl,
      matchDirectoryChunks_skip _ _ (Or.inl (by simp))]
    simp only [Run.ok_bind]
    rw [matchRecursiveChunks_skip _ _ (Or.inl (by simp))]
    simp
  | cons v rest =>
    have hms := matchSimple_escaped c v rest
    by_cases hcv : c = v
    · subst hcv
      rw [if_pos rfl] at hms
      have hsf : sliceFrom (c :: rest) 1 = .ok rest := by
        unfold sliceFrom
        rw [if_pos ⟨by omega, by simp⟩]
        rfl
      refine ⟨1, ?_, fun _ => rfl⟩
      simp only [Match, matchFirst, hnp, Run.ok_bind, if_true, hms, hsf, List.length_nil]
      congr 2
      cases rest <;> simp
    · rw [if_neg hcv] at hms
      refine ⟨0, ?_, ?_⟩
      · simp only [Match, matchFirst, hnp, Run.ok_bind, if_true, hms, Bool.false_eq_true,
          if_false, hnil]
        rw [show [92, c].length + 2 = 3 + 1 from rfl,
          matchDirectoryChunks_skip _ _ (Or.inl (by simp))]
        simp only [Run.ok_bind]
        rw [matchRecursiveChunks_skip _ _ (Or.inl (by simp))]
        have : ¬ (v :: rest = [c]) := by
          intro h
          simp only [List.cons.injEq] at h
          exact hcv h.1.symm
        simp [this]
      · intro h
        simp only [List.cons.injEq] at h
        exact absurd h.1.symm hcv

/-- The escaped question mark, left bracket and backslash match exactly the
one-rune path holding that rune, with count 1. -/
theorem Match_escaped_special (c : Nat) (hc : c = 63 ∨ c = 91 ∨ c = 92) (path : List Nat) :
    Validate [92, c] = .ok (2, none) ∧
    ∃ n, Match [92, c] path = .ok (decide (path = [c]), n) ∧ (path = [c] → n = 1) := by
  rcases hc with rfl | rfl | rfl
  · exact ⟨by decide, Match_escaped _ path (by decide)⟩
  · exact ⟨by decide, Match_escaped _ path (by decide)⟩
  · exact ⟨by decide, Match_escaped _ path (by decide)⟩

/-! ## The claims, continued -/

/-- C11 (fails on the code): the pattern made of a backslash and an asterisk
is accepted by `Validate`, and yet `Match` of it against the path `abc` is
true with count 3: `nextPattern` does not treat the backslash as an escape,
cuts the chunk before the asterisk, and the asterisk is then matched as a
wildcard. -/
theorem C11_escaped_asterisk_stays_wildcard :
    Validate [92, 42] = .ok (2, none) ∧
    nextPattern [92, 42] = .ok ([92], [42], patternSimple) ∧
    Match [92, 42] (runes "*") = .ok (true, 1) ∧
    Match [92, 42] (runes "abc") = .ok (true, 3) := by
  decide

/-- C12 (fails as stated): the pattern made of two backslashes is accepted by
`Validate` and has no wildcard, and `Match` of it against itself is false
with count 1: the escape pair stands for one rune of the path. -/
theorem C12_round_trip_fails_with_escape :
    Validate [92, 92] = .ok (2, none) ∧
    (∀ c ∈ [92, 92], c ≠ 42 ∧ c ≠ 63 ∧ c ≠ 91) ∧
    Match [92, 92] [92, 92] = .ok (false, 1) := by
  decide

/-- C12 (amended): a pattern that `Validate` accepts and that has no wildcard
and no escape character (no asterisk, question mark, left bracket or
backslash) matches itself, with the count equal to its number of runes. -/
theorem C12_round_trip (p : List Nat) (n : Nat) (_hv : Validate p = .ok (n, none))
    (hlit : ∀ c ∈ p, c ≠ 42 ∧ c ≠ 63 ∧ c ≠ 91 ∧ c ≠ 92) :
    Match p p = .ok (true, (p.length : Int)) :=
  Match_literal_self p hlit

/-- Witness of C12 (amended) at the pattern `/usr/ba世]`. -/
theorem C12_round_trip_witness :
    Match (runes "/usr/ba世]") (runes "/usr/ba世]") = .ok (true, 9) :=
  C12_round_trip (runes "/usr/ba世]") 9 (by decide) (by decide)

/-- C13 (fails as stated): of the four paths listed as matches of the pattern
`/usr/**/[bc]a[!a-qsu-z]/?*.txt`, `Match` is false for `/usr/foo/bar/baz/file.txt`
(the asterisk before `.txt` does not cross the separator after `baz`, and
`z` is excluded by the class), and also for `/usr/bat/x.txt` and
`/usr/ba世/界.txt`. -/
theorem C13_documented_paths_not_matched :
    Match (runes "/usr/**/[bc]a[!a-qsu-z]/?*.txt") (runes "/usr/foo/bar/baz/file.txt")
      = .ok (false, 5) ∧
    Match (runes "/usr/**/[bc]a[!a-qsu-z]/?*.txt") (runes "/usr/bat/x.txt") = .ok (false, 5) ∧
    Match (runes "/usr/**/[bc]a[!a-qsu-z]/?*.txt") (runes "/usr/ba世/界.txt")
      = .ok (false, 5) := by
  decide

/-- C13 (amended): `Validate` accepts the pattern `/usr/**/[bc]a[!a-qsu-z]/?*.txt`
with length 30; `Match` of it is true, with count 31, for the path
`/usr/one/two/three/car/note.txt`, and false for
`/usr/foo/bar/baz/file.txt`. -/
theorem C13_documented_example :
    Validate (runes "/usr/**/[bc]a[!a-qsu-z]/?*.txt") = .ok (30, none) ∧
    Match (runes "/usr/**/[bc]a[!a-qsu-z]/?*.txt") (runes "/usr/one/two/three/car/note.txt")
      = .ok (true, 31) ∧
    Match (runes "/usr/**/[bc]a[!a-qsu-z]/?*.txt") (runes "/usr/foo/bar/baz/file.txt")
      = .ok (false, 5) := by
  decide

/-- C14: `Match` of the empty pattern is true exactly for the empty path, with
count 0, and `Validate` of the empty pattern returns length 0 and no error. -/
theorem C14_empty_pattern (path : List Nat) :
    Match (runes "") path = .ok (decide (path = []), 0) ∧
    Validate (runes "") = .ok (0, none) := by
  have hr : runes "" = [] := by decide
  rw [hr]
  exact ⟨Match_empty path, by decide⟩

/-- C15: `Match` of the pattern `?` against a path of one rune `v` is true with
count 1 when `v` is not the separator and false with count 0 when it is; and
it is false with count 0 for the empty path. -/
theorem C15_question_mark (v : Nat) :
    (v ≠ Separator → Match (runes "?") [v] = .ok (true, 1)) ∧
    (v = Separator → Match (runes "?") [v] = .ok (false, 0)) ∧
    Match (runes "?") [] = .ok (false, 0) := by
  have hr : runes "?" = [63] := by decide
  rw [hr, Match_question]
  refine ⟨?_, ?_, by decide⟩
  · intro hv
    rw [if_neg hv]
  · intro hv
    rw [if_pos hv]

/-- Witness of C15 at the runes `a` and `/`. -/
theorem C15_question_mark_witness :
    Match (runes "?") [97] = .ok (true, 1) ∧ Match (runes "?") [47] = .ok (false, 0) :=
  ⟨(C15_question_mark 97).1 (by decide), (C15_question_mark 47).2.1 (by decide)⟩

/-- C16: `matchClass` with the negation flag set is false for the separator,
whatever the class pattern; and for every pattern that `classIsValid` accepts
in full as a class and that is negated, `Match` against the path made of the
separator alone is false (with count 0). -/
theorem C16_negated_class_never_matches_separator :
    (∀ cls : List Nat, matchClass cls Separator true = .ok false) ∧
    (∀ cls : List Nat, classIsValid cls = .ok (cls.length, none) → cls[1]? = some 33 →
      Match cls [Separator] = .ok (false, 0)) :=
  ⟨matchClass_separator_negated, Match_negated_class_separator⟩

/-- Witness of C16 at the class `[!a/*]`. -/
theorem C16_negated_class_never_matches_separator_witness :
    classIsValid (runes "[!a/*]") = .ok (6, none) ∧
    Match (runes "[!a/*]") [Separator] = .ok (false, 0) :=
  ⟨by decide,
    C16_negated_class_never_matches_separator.2 (runes "[!a/*]") (by decide) (by decide)⟩

/-- C17 (fails on the code): `classIsValid` accepts the class `[a-.-0]` in
full, the separator is not among its runes, and yet `matchClass` of it is
true for the separator: the matcher reads the ranges `a-.` and `.-0`, while
the validator checks the second hyphen against the stale low bound `a`. -/
theorem C17_unlisted_separator_matches :
    classIsValid (runes "[a-.-0]") = .ok (7, none) ∧
    Separator ∉ runes "[a-.-0]" ∧
    matchClass (runes "[a-.-0]") Separator false = .ok true := by
  decide

/-- C18 (fails on the code): `classIsValid` reads `[]a]` as a class of length 4
with a literal right bracket, but it reads `[!]a]` as a class of length 3,
closed by the right bracket that follows the exclamation mark; `getClass`
does the same. -/
theorem C18_bracket_after_negation_closes :
    classIsValid (runes "[]a]") = .ok (4, none) ∧
    classIsValid (runes "[!]a]") = .ok (3, none) ∧
    getClass (runes "[!]a]") = .ok (true, runes "[!]") := by
  decide

/-- C19 (fails on the code): `Validate` accepts `[a-]` with length 4, but it
rejects `[a-]b` as truncated and `[+-]b` for an invalid range: the hyphen is
taken as literal only when the closing bracket is the last rune of the whole
pattern. -/
theorem C19_hyphen_before_bracket_not_literal :
    Validate (runes "[a-]") = .ok (4, none) ∧
    Validate (runes "[a-]b") = .ok (5, some ErrGlobTruncated) ∧
    Validate (runes "[+-]b") = .ok (4, some ErrGlobInvalidRange) := by
  decide

/-- C20 (fails on the code): NUL is a reserved symbol and `Validate` rejects
the pattern made of NUL alone, but it accepts, with length 3 and no error,
the class whose only member is NUL. -/
theorem C20_reserved_symbol_inside_class :
    isReservedSymbol 0 = true ∧
    Validate [0] = .ok (0, some ErrGlobReservedSymbol) ∧
    Validate [91, 0, 93] = .ok (3, none) ∧
    (0 : Nat) ∈ [91, 0, 93] := by
  decide

/-! ## Auxiliary lemmas: the count of a literal chunk -/

theorem commonPrefixLength_nil_right (p : List Nat) : commonPrefixLength p [] = 0 := by
  cases p <;> rfl

theorem commonPrefixLength_spec (p path : List Nat) :
    p.take (commonPrefixLength p path) = path.take (commonPrefixLength p path) ∧
      commonPrefixLength p path ≤ p.length ∧ commonPrefixLength p path ≤ path.length ∧
      ∀ (h1 : commonPrefixLength p path < p.length) (h2 : commonPrefixLength p path < path.length),
        p[commonPrefixLength p path] ≠ path[commonPrefixLength p path] := by
  induction p generalizing path with
  | nil => simp [commonPrefixLength]
  | cons x xs ih =>
    cases path with
    | nil => simp [commonPrefixLength]
    | cons y ys =>
      by_cases hxy : x = y
      · obtain ⟨h1, h2, h3, h4⟩ := ih ys
        simp only [commonPrefixLength, if_pos hxy, List.take_succ_cons, List.length_cons,
          List.getElem_cons_succ]
        refine ⟨by rw [h1, hxy], by omega, by omega, ?_⟩
        intro a b
        exact h4 (by omega) (by omega)
      · simp [commonPrefixLength, hxy]

theorem matchSimpleLoop_common (h path : List Nat)
    (hlit : ∀ c ∈ h, c ≠ 63 ∧ c ≠ 91 ∧ c ≠ 92) :
    ∀ (fuel k : Nat), h.length - k < fuel → k ≤ h.length → k ≤ path.length →
      ∃ m i, matchSimpleLoop h path fuel k k false true =
          .ok (m, i, k + commonPrefixLength (h.drop k) (path.drop k)) ∧
        ((m = true ∧ i = h.length) ↔
          k + commonPrefixLength (h.drop k) (path.drop k) = h.length) := by
  intro fuel
  induction fuel with
  | zero => intro k hf; omega
  | succ n ih =>
    intro k hf hk hkp
    rw [matchSimpleLoop]
    by_cases hc : k < h.length ∧ k < path.length
    · obtain ⟨hk1, hk2⟩ := hc
      have hm : h[k] ∈ h := List.getElem_mem _
      obtain ⟨h63, h91, h92⟩ := hlit _ hm
      rw [if_pos ⟨hk1, hk2, rfl⟩, idx_eq hk1, idx_eq hk2]
      simp only [Run.ok_bind, Bool.false_eq_true, if_false]
      rw [if_neg (by unfold escapeCharacter; exact h92), if_neg h91, if_neg h63]
      rw [List.drop_eq_getElem_cons hk1, List.drop_eq_getElem_cons hk2, commonPrefixLength]
      by_cases heq : h[k] = path[k]
      · rw [if_pos heq, if_pos heq]
        obtain ⟨m, i, hres, hiff⟩ := ih (k + 1) (by omega) (by omega) (by omega)
        refine ⟨m, i, ?_, ?_⟩
        · rw [hres, show k + 1 + commonPrefixLength (List.drop (k + 1) h) (List.drop (k + 1) path)
            = k + (commonPrefixLength (List.drop (k + 1) h) (List.drop (k + 1) path) + 1) by omega]
        · rw [hiff]; omega
      · rw [if_neg heq, if_neg heq]
        refine ⟨false, k + 1, rfl, ?_⟩
        simp only [Bool.false_eq_true, false_and, false_iff]
        omega
    · rw [if_neg (by intro hx; exact hc ⟨hx.1, hx.2.1⟩)]
      by_cases hkl : k = h.length
      · subst hkl
        refine ⟨true, h.length, ?_, ?_⟩
        · rw [List.drop_length]; rfl
        · rw [List.drop_length]; simp [commonPrefixLength]
      · have hk1 : k < h.length := by omega
        have hk2 : k = path.length := by
          by_contra hne
          exact hc ⟨hk1, by omega⟩
        refine ⟨true, k, ?_, ?_⟩
        · rw [hk2, List.drop_length, commonPrefixLength_nil_right, Nat.add_zero]
        · rw [hk2, List.drop_length, commonPrefixLength_nil_right]
          omega

theorem matchSimple_common (p path : List Nat) (hlit : ∀ c ∈ p, c ≠ 63 ∧ c ≠ 91 ∧ c ≠ 92) :
    matchSimple p path =
      .ok (decide (commonPrefixLength p path = p.length ∧ ¬ (p = [] ∧ path ≠ [])),
        (commonPrefixLength p path : Int)) := by
  unfold matchSimple
  by_cases h0 : p.length = 0 ∧ path.length > 0
  · rw [if_pos h0]
    have hp : p = [] := List.length_eq_zero.mp h0.1
    have hq : path ≠ [] := List.length_pos.mp h0.2
    subst hp
    simp [commonPrefixLength, hq]
  · rw [if_neg h0]
    obtain ⟨m, i, hres, hiff⟩ :=
      matchSimpleLoop_common p path hlit (p.length + 1) 0 (by omega) (by omega) (by omega)
    rw [hres]
    simp only [Run.ok_bind, zero_add, List.drop_zero] at hiff ⊢
    have hno : ¬ (p = [] ∧ path ≠ []) := by
      rintro ⟨h1, h2⟩
      exact h0 ⟨by rw [h1]; rfl, List.length_pos.mpr h2⟩
    congr 2
    rw [Bool.eq_iff_iff, Bool.and_eq_true, decide_eq_true_eq, decide_eq_true_eq, hiff]
    exact ⟨fun hx => ⟨hx, hno⟩, fun hx => hx.1⟩

/-! ## Auxiliary lemmas: a class that is one range -/

theorem classIsValid_range (lo hi : Nat) (h33 : lo ≠ 33) (h45 : lo ≠ 45) (h93 : lo ≠ 93)
    (h92 : lo ≠ 92) :
    classIsValid [91, lo, 45, hi, 93] =
      if (lo < 47 ∧ 47 < hi) ∨ hi = 92 then .ok (4, some ErrGlobInvalidRange)
      else .ok (5, none) := by
  by_cases hr : (lo < 47 ∧ 47 < hi) ∨ hi = 92
  · rw [if_pos hr]
    simp [classIsValid, classIsValidLoop, idx, escapeCharacter, GlobSeparator, h33, h45, h93, h92,
      hr]
  · rw [if_neg hr]
    simp [classIsValid, classIsValidLoop, idx, escapeCharacter, GlobSeparator, h33, h45, h93,
      h92, hr]

theorem Validate_range_straddle (lo hi : Nat) (h33 : lo ≠ 33) (h45 : lo ≠ 45)
    (hlo : lo < 47) (hhi : 47 < hi) :
    Validate [91, lo, 45, hi, 93] = .ok (4, some ErrGlobInvalidRange) := by
  have hc := classIsValid_range lo hi h33 h45 (by omega) (by omega)
  rw [if_pos (Or.inl ⟨hlo, hhi⟩)] at hc
  have hsl : sliceFrom [91, lo, 45, hi, 93] ((0 : Nat) : Int) = .ok [91, lo, 45, hi, 93] := by
    simp [sliceFrom]
  have hloop : nextValidPatternLoop [91, lo, 45, hi, 93] ([91, lo, 45, hi, 93].length + 1) 0 false
      = .ok (4, some ErrGlobInvalidRange) := by
    rw [nextValidPatternLoop, if_pos (by simp), idx_eq (by simp)]
    simp only [Run.ok_bind, List.getElem_cons_zero]
    rw [if_neg (by decide), if_neg (by decide), if_neg (by decide), if_neg (by decide),
      if_pos trivial, hsl]
    simp only [Run.ok_bind]
    rw [hc]
    rfl
  have hnv : nextValidPattern [91, lo, 45, hi, 93] =
      .ok ([91, lo, 45, hi], [93], some ErrGlobInvalidRange) := by
    unfold nextValidPattern
    rw [if_pos (by simp), idx_eq (by simp)]
    simp only [Run.ok_bind, List.getElem_cons_zero]
    rw [if_neg (by decide)]
    simp only [Run.ok_bind]
    rw [hloop]
    simp [sliceTo, sliceFrom]
  unfold Validate
  rw [hnv]
  simp [ValidateLoop]

theorem matchClass_range (lo hi v : Nat) (hle : lo ≤ hi) (hlo : lo ≠ 93 ∧ lo ≠ 92)
    (hhi : hi ≠ 93 ∧ hi ≠ 92) (hv : v ≠ Separator) :
    matchClass [91, lo, 45, hi, 93] v false = .ok (decide (lo ≤ v ∧ v ≤ hi)) ∧
      matchClass [91, 33, lo, 45, hi, 93] v true = .ok (!decide (lo ≤ v ∧ v ≤ hi)) := by
  obtain ⟨l93, l92⟩ := hlo
  obtain ⟨g93, g92⟩ := hhi
  have i1 : idx [91, lo, 45, hi, 93] 1 = .ok lo := rfl
  have i2 : idx [91, lo, 45, hi, 93] 2 = .ok 45 := rfl
  have i3 : idx [91, lo, 45, hi, 93] 3 = .ok hi := rfl
  have i4 : idx [91, lo, 45, hi, 93] 4 = .ok 93 := rfl
  have j2 : idx [91, 33, lo, 45, hi, 93] 2 = .ok lo := rfl
  have j3 : idx [91, 33, lo, 45, hi, 93] 3 = .ok 45 := rfl
  have j4 : idx [91, 33, lo, 45, hi, 93] 4 = .ok hi := rfl
  have j5 : idx [91, 33, lo, 45, hi, 93] 5 = .ok 93 := rfl
  have el : decide (lo = escapeCharacter) = false := decide_eq_false l92
  have eh : decide (hi = escapeCharacter) = false := decide_eq_false g92
  have tail1 : ∀ m : Bool, (m = false → v ≠ hi) →
      matchClassLoop [91, lo, 45, hi, 93] v 5 3 false m = .ok m := by
    intro m hm
    cases m with
    | true => rw [matchClassLoop, if_pos rfl]
    | false =>
      have hvh : decide (v ≥ hi ∧ v ≤ hi) = false := decide_eq_false (by have := hm rfl; omega)
      rw [matchClassLoop]
      simp only [Bool.false_eq_true, if_false, i3, i4, Run.ok_bind, g93, ne_eq, not_false_eq_true,
        true_or, if_true, Bool.not_false, Bool.true_and, eh, Nat.reduceAdd, Nat.reduceEqDiff, hvh]
      rw [matchClassLoop]
      simp only [Bool.false_eq_true, if_false, i4, Run.ok_bind, ne_eq, not_true_eq_false,
        Nat.reduceEqDiff, or_self, if_false]
  have tail2 : ∀ m : Bool, (m = false → v ≠ hi) →
      matchClassLoop [91, 33, lo, 45, hi, 93] v 6 4 false m = .ok m := by
    intro m hm
    cases m with
    | true => rw [matchClassLoop, if_pos rfl]
    | false =>
      have hvh : decide (v ≥ hi ∧ v ≤ hi) = false := decide_eq_false (by have := hm rfl; omega)
      rw [matchClassLoop]
      simp only [Bool.false_eq_true, if_false, j4, j5, Run.ok_bind, g93, ne_eq, not_false_eq_true,
        true_or, if_true, Bool.not_false, Bool.true_and, eh, Nat.reduceAdd, Nat.reduceEqDiff, hvh]
      rw [matchClassLoop]
      simp only [Bool.false_eq_true, if_false, j5, Run.ok_bind, ne_eq, not_true_eq_false,
        Nat.reduceEqDiff, or_self, if_false]
  have hm : decide (v ≥ lo ∧ v ≤ hi) = false → v ≠ hi := by
    intro h1 h2
    rw [decide_eq_false_iff_not] at h1
    omega
  have hd : decide (v ≥ lo ∧ v ≤ hi) = decide (lo ≤ v ∧ v ≤ hi) := rfl
  constructor
  · unfold matchClass
    simp only [hv, false_and, if_false, Bool.false_eq_true, List.length_cons, List.length_nil,
      Nat.reduceAdd]
    rw [matchClassLoop]
    simp only [Bool.false_eq_true, if_false, i1, i2, i3, Run.ok_bind, ne_eq, or_true, true_or,
      if_true, Bool.not_false, Bool.true_and, el, eh, Nat.reduceAdd, g93, not_false_eq_true,
      decide_True]
    rw [tail1 _ hm, hd]
    simp
  · unfold matchClass
    simp only [hv, false_and, if_false, Bool.false_eq_true, List.length_cons, List.length_nil,
      Nat.reduceAdd, if_true]
    rw [matchClassLoop]
    simp only [Bool.false_eq_true, if_false, j2, j3, j4, Run.ok_bind, ne_eq, l93,
      not_false_eq_true, true_or, if_true, Bool.not_false, Bool.true_and, el, eh, Nat.reduceAdd,
      g93, decide_True]
    rw [tail2 _ hm, hd]
    simp

/-! ## Auxiliary lemmas: what the segmenter returns -/

theorem idx_cons_succ (x : Nat) (p : List Nat) (i : Nat) : idx (x :: p) (i + 1) = idx p i := by
  simp [idx]

theorem skipAsterisks_spec (pattern : List Nat) :
    ∀ (fuel start r : Nat), skipAsterisks pattern fuel start = .ok r →
      (∀ j, start ≤ j → j < r → pattern[j]? = some 42) ∧ pattern[r]? ≠ some 42 := by
  intro fuel
  induction fuel with
  | zero => intro start r h; simp [skipAsterisks] at h
  | succ n ih =>
    intro start r h
    rw [skipAsterisks] at h
    by_cases hs : start < pattern.length
    · rw [if_pos hs, idx_eq hs] at h
      simp only [Run.ok_bind] at h
      by_cases ht : pattern[start] = 42
      · rw [if_pos ht] at h
        obtain ⟨h1, h2⟩ := ih _ _ h
        refine ⟨?_, h2⟩
        intro j hj hjr
        by_cases hjs : j = start
        · subst hjs
          rw [List.getElem?_eq_getElem hs, ht]
        · exact h1 j (by omega) hjr
      · rw [if_neg ht] at h
        cases h
        refine ⟨fun j hj hjr => by omega, ?_⟩
        rw [List.getElem?_eq_getElem hs]
        intro hx
        exact ht (Option.some.inj hx)
    · rw [if_neg hs] at h
      cases h
      refine ⟨fun j hj hjr => by omega, ?_⟩
      rw [List.getElem?_eq_none (by omega)]
      simp

theorem takeWhile_asterisks_length (p : List Nat) :
    ∀ r : Nat, (∀ j, j < r → p[j]? = some 42) → p[r]? ≠ some 42 →
      (p.takeWhile (fun x => decide (x = 42))).length = r := by
  induction p with
  | nil =>
    intro r h1 _
    cases r with
    | zero => rfl
    | succ k => have := h1 0 (by omega); simp at this
  | cons x rest ih =>
    intro r h1 h2
    cases r with
    | zero =>
      have hx : x ≠ 42 := by
        intro hx
        apply h2
        simp [hx]
      simp [List.takeWhile, hx]
    | succ k =>
      have hx : x = 42 := by
        have := h1 0 (by omega)
        simpa using this
      have hrec := ih k (fun j hj => by
        have := h1 (j + 1) (by omega)
        simpa using this) (by simpa using h2)
      simp [List.takeWhile, hx, hrec]

theorem takeWhile_asterisks_eq (p : List Nat) :
    p.takeWhile (fun x => decide (x = 42)) =
      List.replicate (p.takeWhile (fun x => decide (x = 42))).length 42 := by
  rw [List.eq_replicate_iff]
  refine ⟨rfl, ?_⟩
  intro b hb
  have := List.mem_takeWhile_imp hb
  simpa using this

theorem nextPatternStart_spec {pattern : List Nat} {start : Nat} {kind : patternType}
    (h : nextPatternStart pattern = .ok (start, kind)) :
    start = (pattern.takeWhile (fun x => decide (x = 42))).length ∧
      kind = (if start = 0 then patternSimple else if start = 1 then patternDirectory
        else patternRecursive) := by
  unfold nextPatternStart at h
  cases pattern with
  | nil =>
    simp at h
    obtain ⟨rfl, rfl⟩ := h
    simp
  | cons x rest =>
    rw [if_pos (by simp), idx_eq (by simp)] at h
    simp only [Run.ok_bind, List.getElem_cons_zero] at h
    by_cases hx : x = 42
    · rw [if_pos hx] at h
      subst hx
      cases rest with
      | nil =>
        rw [if_neg (by simp)] at h
        cases h
        simp [List.takeWhile]
      | cons y r2 =>
        rw [if_pos (by simp), idx_eq (by simp)] at h
        simp only [Run.ok_bind, List.getElem_cons_succ, List.getElem_cons_zero] at h
        by_cases hy : y = 42
        · rw [if_pos hy] at h
          subst hy
          obtain ⟨s, hs, hres⟩ := Run.bind_eq_ok.mp h
          cases hres
          have hle := skipAsterisks_le _ _ _ _ hs
          obtain ⟨h1, h2⟩ := skipAsterisks_spec _ _ _ _ hs
          have hlen := takeWhile_asterisks_length (42 :: 42 :: r2) start (by
            intro j hj
            by_cases hj2 : 2 ≤ j
            · exact h1 j hj2 hj
            · have : j = 0 ∨ j = 1 := by omega
              rcases this with rfl | rfl <;> simp) h2
          refine ⟨hlen.symm, ?_⟩
          rw [if_neg (by omega), if_neg (by omega)]
        · rw [if_neg hy] at h
          cases h
          simp [List.takeWhile, hy]
    · rw [if_neg hx] at h
      cases h
      simp [List.takeWhile, hx]

theorem nextPatternLoop_stop (pattern : List Nat) :
    ∀ (fuel stop : Nat) (inClass : Bool) (r : Nat),
      nextPatternLoop pattern fuel stop inClass = .ok r →
        r < pattern.length → pattern[r]? = some 42 := by
  intro fuel
  induction fuel with
  | zero => intro stop c r h; simp [nextPatternLoop] at h
  | succ n ih =>
    intro stop c r h hr
    rw [nextPatternLoop] at h
    by_cases hs : stop < pattern.length
    · rw [if_pos hs, idx_eq hs] at h
      simp only [Run.ok_bind] at h
      split at h
      · split at h <;> exact ih _ _ _ h hr
      · split at h
        · exact ih _ _ _ h hr
        · split at h
          · exact ih _ _ _ h hr
          · split at h
            · rename_i h42
              split at h
              · cases h
                rw [List.getElem?_eq_getElem hs, h42]
              · exact ih _ _ _ h hr
            · exact ih _ _ _ h hr
    · rw [if_neg hs] at h
      cases h
      omega

theorem nextPattern_parts {pattern head tail : List Nat} {kind : patternType}
    (h : nextPattern pattern = .ok (head, tail, kind)) :
    ∃ start stop, nextPatternStart pattern = .ok (start, kind) ∧ start ≤ stop ∧
      stop ≤ pattern.length ∧ head = (pattern.take stop).drop start ∧ tail = pattern.drop stop ∧
      (stop < pattern.length → pattern[stop]? = some 42) := by
  unfold nextPattern at h
  obtain ⟨⟨start, k⟩, hst, h⟩ := Run.bind_eq_ok.mp h
  obtain ⟨stop, hloop, h⟩ := Run.bind_eq_ok.mp h
  obtain ⟨hd, hsl, h⟩ := Run.bind_eq_ok.mp h
  obtain ⟨tl, hsf, h⟩ := Run.bind_eq_ok.mp h
  cases h
  unfold slice at hsl
  split at hsl
  · rename_i hb
    cases hsl
    obtain ⟨_, _, htl⟩ := sliceFrom_ok hsf
    exact ⟨start, stop, hst, hb.1, hb.2, rfl, by simpa using htl,
      nextPatternLoop_stop _ _ _ _ _ hloop⟩
  · cases hsl

theorem nextPattern_partition {pattern head tail : List Nat} {kind : patternType}
    (h : nextPattern pattern = .ok (head, tail, kind)) :
    pattern = List.replicate (pattern.takeWhile (fun x => decide (x = 42))).length 42
        ++ head ++ tail ∧
      kind = (if (pattern.takeWhile (fun x => decide (x = 42))).length = 0 then patternSimple
        else if (pattern.takeWhile (fun x => decide (x = 42))).length = 1 then patternDirectory
        else patternRecursive) := by
  obtain ⟨start, stop, hst, hle, hlen, rfl, rfl, -⟩ := nextPattern_parts h
  obtain ⟨hk, hkind⟩ := nextPatternStart_spec hst
  rw [← hk]
  refine ⟨?_, hkind⟩
  have htw : List.replicate start 42 = pattern.take start := by
    have h1 := takeWhile_asterisks_eq pattern
    rw [← hk] at h1
    have h3 : pattern.takeWhile (fun x => decide (x = 42)) <+: pattern :=
      List.takeWhile_prefix _
    have h2 := List.prefix_iff_eq_take.mp h3
    rw [← hk] at h2
    rw [← h1, h2]
  have hdrop : (pattern.take stop).drop start ++ pattern.drop stop = pattern.drop start := by
    conv_rhs => rw [← List.take_append_drop stop pattern]
    rw [List.drop_append_of_le_length (by rw [List.length_take]; omega)]
  rw [htw, List.append_assoc, hdrop, List.take_append_drop]

theorem nextPattern_tail_asterisk {pattern head tail : List Nat} {kind : patternType}
    (h : nextPattern pattern = .ok (head, tail, kind)) :
    tail = [] ∨ tail.head? = some 42 := by
  obtain ⟨start, stop, hst, hle, hlen, rfl, rfl, hstop⟩ := nextPattern_parts h
  by_cases hs : stop < pattern.length
  · right
    rw [List.head?_drop]
    exact hstop hs
  · left
    exact List.drop_eq_nil_of_le (by omega)

theorem nextPattern_asterisk_kind {pattern head tail : List Nat} {kind : patternType}
    (hp : pattern.head? = some 42) (h : nextPattern pattern = .ok (head, tail, kind)) :
    kind ≠ patternSimple := by
  obtain ⟨start, stop, hst, -⟩ := nextPattern_parts h
  obtain ⟨hk, hkind⟩ := nextPatternStart_spec hst
  cases pattern with
  | nil => simp at hp
  | cons x rest =>
    have hx : x = 42 := by simpa using hp
    subst hx
    have hpos : start ≠ 0 := by
      rw [hk]
      simp [List.takeWhile]
    rw [hkind, if_neg hpos]
    split <;> decide

/-! ## Auxiliary lemmas: one more asterisk in front of a pattern -/

theorem skipAsterisks_cons (x : Nat) (p : List Nat) :
    ∀ (fuel i : Nat), skipAsterisks (x :: p) fuel (i + 1) =
      (skipAsterisks p fuel i >>= fun r => Run.ok (r + 1)) := by
  intro fuel
  induction fuel with
  | zero => intro i; rfl
  | succ n ih =>
    intro i
    rw [skipAsterisks, skipAsterisks, idx_cons_succ]
    by_cases hi : i < p.length
    · rw [if_pos (by simpa using hi), if_pos hi, idx_eq hi]
      simp only [Run.ok_bind]
      by_cases ht : p[i] = 42
      · rw [if_pos ht, if_pos ht]
        exact ih (i + 1)
      · rw [if_neg ht, if_neg ht]
        rfl
    · rw [if_neg (by simpa using hi), if_neg hi]
      rfl

theorem nextPatternLoop_cons (x : Nat) (p : List Nat) :
    ∀ (fuel i : Nat) (inClass : Bool), nextPatternLoop (x :: p) fuel (i + 1) inClass =
      (nextPatternLoop p fuel i inClass >>= fun r => Run.ok (r + 1)) := by
  intro fuel
  induction fuel with
  | zero => intro i c; rfl
  | succ n ih =>
    intro i c
    rw [nextPatternLoop, nextPatternLoop, idx_cons_succ]
    by_cases hi : i < p.length
    · rw [if_pos (by simpa using hi), if_pos hi, idx_eq hi]
      simp only [Run.ok_bind]
      split
      · split
        · exact ih (i + 1 + 1) c
        · exact ih (i + 1) c
      · split
        · exact ih (i + 1) true
        · split
          · exact ih (i + 1) false
          · split
            · split
              · rfl
              · exact ih (i + 1) c
            · exact ih (i + 1) c
    · rw [if_neg (by simpa using hi), if_neg hi]
      rfl

theorem nextPatternLoop_fuel_succ (p : List Nat) :
    ∀ (fuel stop : Nat) (inClass : Bool), p.length - stop < fuel →
      nextPatternLoop p (fuel + 1) stop inClass = nextPatternLoop p fuel stop inClass := by
  intro fuel
  induction fuel with
  | zero => intro stop c h; omega
  | succ n ih =>
    intro stop c hf
    rw [nextPatternLoop]
    conv_rhs => rw [nextPatternLoop]
    by_cases hs : stop < p.length
    · rw [if_pos hs, if_pos hs, idx_eq hs]
      simp only [Run.ok_bind]
      rw [ih (stop + 1 + 1) c (by omega), ih (stop + 1) c (by omega),
        ih (stop + 1) true (by omega), ih (stop + 1) false (by omega)]
    · rw [if_neg hs, if_neg hs]

theorem nextPattern_asterisk_cons (q : List Nat) :
    nextPattern (42 :: 42 :: 42 :: q) = nextPattern (42 :: 42 :: q) := by
  obtain ⟨s, hs, hs2, hsl⟩ := skipAsterisks_ok (42 :: 42 :: q) ((42 :: 42 :: q).length + 1) 2
    (by omega) (by simp)
  have hst : nextPatternStart (42 :: 42 :: q) = .ok (s, patternRecursive) := by
    unfold nextPatternStart
    rw [if_pos (by simp), idx_eq (by simp)]
    simp only [Run.ok_bind, List.getElem_cons_zero, if_true]
    rw [if_pos (by simp), idx_eq (by simp)]
    simp only [Run.ok_bind, List.getElem_cons_succ, List.getElem_cons_zero, if_true]
    rw [hs]
    rfl
  have hst1 : nextPatternStart (42 :: 42 :: 42 :: q) = .ok (s + 1, patternRecursive) := by
    unfold nextPatternStart
    rw [if_pos (by simp), idx_eq (by simp)]
    simp only [Run.ok_bind, List.getElem_cons_zero, if_true]
    rw [if_pos (by simp), idx_eq (by simp)]
    simp only [Run.ok_bind, List.getElem_cons_succ, List.getElem_cons_zero, if_true]
    rw [skipAsterisks, if_pos (by simp), idx_eq (by simp)]
    simp only [Run.ok_bind, List.getElem_cons_succ, List.getElem_cons_zero, if_true]
    rw [skipAsterisks_cons, show (42 :: 42 :: 42 :: q).length = (42 :: 42 :: q).length + 1 from rfl,
      hs]
    rfl
  unfold nextPattern
  rw [hst, hst1]
  simp only [Run.ok_bind]
  rw [nextPatternLoop_cons, show (42 :: 42 :: 42 :: q).length = (42 :: 42 :: q).length + 1 from rfl,
    nextPatternLoop_fuel_succ _ _ _ _ (by omega)]
  cases hloop : nextPatternLoop (42 :: 42 :: q) ((42 :: 42 :: q).length + 1) s false with
  | ok r =>
    simp only [Run.ok_bind]
    have h1 : slice (42 :: 42 :: 42 :: q) (s + 1) (r + 1) = slice (42 :: 42 :: q) s r := by
      unfold slice
      simp only [List.length_cons, List.take_succ_cons, List.drop_succ_cons,
        Nat.add_le_add_iff_right]
    have h2 : sliceFrom (42 :: 42 :: 42 :: q) ((r + 1 : Nat) : Int) =
        sliceFrom (42 :: 42 :: q) (r : Int) := by
      unfold sliceFrom
      simp only [List.length_cons, Int.toNat_ofNat, List.drop_succ_cons]
      have e : (0 ≤ ((r + 1 : Nat) : Int) ∧
          ((r + 1 : Nat) : Int) ≤ ((q.length + 1 + 1 + 1 : Nat) : Int)) ↔
          (0 ≤ (r : Int) ∧ (r : Int) ≤ ((q.length + 1 + 1 : Nat) : Int)) := by omega
      simp only [e]
    rw [h1, h2]
  | panic => rfl
  | fuel => rfl

theorem nextPattern_asterisks (n : Nat) (s : List Nat) :
    nextPattern (List.replicate (n + 2) 42 ++ s) = nextPattern (42 :: 42 :: s) := by
  induction n with
  | zero =>
    have e : List.replicate (0 + 2) 42 ++ s = 42 :: 42 :: s := rfl
    rw [e]
  | succ k ih =>
    have e : List.replicate (k + 1 + 2) 42 ++ s = 42 :: 42 :: 42 :: (List.replicate k 42 ++ s) :=
      rfl
    have e2 : List.replicate (k + 2) 42 ++ s = 42 :: 42 :: (List.replicate k 42 ++ s) := rfl
    rw [← ih, e, e2]
    exact nextPattern_asterisk_cons (List.replicate k 42 ++ s)

/-! ## Auxiliary lemmas: a chain of single-level wildcards -/

theorem chain_succ (k : Nat) :
    (List.replicate (k + 1) [97, 42]).flatten = 97 :: 42 :: (List.replicate k [97, 42]).flatten := by
  rw [List.replicate_succ, List.flatten_cons]
  rfl

theorem nextPattern_chain_first (rest : List Nat) :
    nextPattern (97 :: 42 :: rest) = .ok ([97], 42 :: rest, patternSimple) := by
  simp [nextPattern, nextPatternStart, nextPatternLoop, idx, escapeCharacter, slice, sliceFrom]
  rw [if_pos (by omega)]
  rfl

theorem nextPattern_chain_next (rest : List Nat) :
    nextPattern (42 :: 97 :: 42 :: rest) = .ok ([97], 42 :: rest, patternDirectory) := by
  simp [nextPattern, nextPatternStart, nextPatternLoop, idx, escapeCharacter, slice, sliceFrom]
  rw [if_pos (by omega)]
  rfl

theorem nextPattern_chain (j : Nat) :
    (j = 0 ∧ nextPattern (42 :: (List.replicate j [97, 42]).flatten) =
        .ok ([], [], patternDirectory)) ∨
      (∃ i, j = i + 1 ∧ nextPattern (42 :: (List.replicate j [97, 42]).flatten) =
        .ok ([97], 42 :: (List.replicate i [97, 42]).flatten, patternDirectory)) := by
  cases j with
  | zero => exact Or.inl ⟨rfl, by decide⟩
  | succ i =>
    refine Or.inr ⟨i, rfl, ?_⟩
    rw [chain_succ]
    exact nextPattern_chain_next _

theorem matchSimple_a_cons (rest : List Nat) : matchSimple [97] (97 :: rest) = .ok (true, 1) := by
  rw [matchSimple_common [97] (97 :: rest) (by decide)]
  simp [commonPrefixLength]

theorem matchDirectory_a_cons (tail rest : List Nat) (ht : tail ≠ []) :
    matchDirectory [97] tail (97 :: rest) = .ok (true, 1) := by
  have htl : tail.length ≠ 0 := fun h => ht (List.length_eq_zero.mp h)
  unfold matchDirectory
  rw [matchDirectoryLoop, if_neg (by simp), matchDirectoryRetry, matchSimple_a_cons]
  simp only [Run.ok_bind, Bool.true_eq_false, if_false, if_true]
  rw [if_neg (by intro h; exact htl h.1)]
  rfl

theorem matchDirectory_a_nil (tail : List Nat) :
    matchDirectory [97] tail [] = .ok (false, 0) := by
  unfold matchDirectory
  rw [matchDirectoryLoop, if_neg (by simp), matchDirectoryRetry]
  have : matchSimple [97] [] = .ok (false, 0) := by decide
  rw [this]
  simp

theorem matchDirectoryChunks_chain :
    ∀ (j m fuel : Nat) (c : Int) (pat hd tl : List Nat),
      nextPattern (42 :: (List.replicate j [97, 42]).flatten) = .ok (hd, tl, patternDirectory) →
      j + 1 < fuel →
      ∃ flow, matchDirectoryChunks fuel
          { pattern := pat, head := hd, tail := tl, kind := patternDirectory,
            path := List.replicate m 97, matchCount := c, patternMatched := true } = .ok flow ∧
        ((j ≤ m ∧ (flow = .ret (true, c + (m : Int)) ∨
            ∃ s, flow = .next s ∧ s.kind = patternDirectory ∧ s.patternMatched = true ∧
              s.path = [] ∧ s.matchCount = c + (m : Int))) ∨
          (m < j ∧ ∃ s, flow = .next s ∧ s.patternMatched = false)) := by
  intro j
  induction j with
  | zero =>
    intro m fuel c pat hd tl hnp hf
    obtain ⟨n, rfl⟩ : ∃ n, fuel = n + 1 := ⟨fuel - 1, by omega⟩
    have h0 : nextPattern (42 :: (List.replicate 0 [97, 42]).flatten) =
        .ok ([], [], patternDirectory) := by decide
    rw [h0] at hnp
    cases hnp
    cases m with
    | zero =>
      rw [matchDirectoryChunks_skip _ _ (Or.inr (Or.inr ⟨rfl, rfl, rfl⟩))]
      exact ⟨_, rfl, Or.inl ⟨Nat.le_refl _, Or.inr ⟨_, rfl, rfl, rfl, rfl, by simp⟩⟩⟩
    | succ m1 =>
      rw [matchDirectoryChunks, if_pos ⟨rfl, rfl, Or.inr (Or.inr (by simp))⟩]
      simp only [List.length_nil, if_true]
      have hns : stringsContains (runesToString (List.replicate (m1 + 1) 97)) SeparatorString
          = false := by
        rw [← Bool.not_eq_true, stringsContains_separator]
        intro hmem
        have := List.eq_of_mem_replicate hmem
        exact absurd this (by decide)
      rw [hns]
      simp only [Bool.not_false, if_true, List.length_replicate]
      exact ⟨_, rfl, Or.inl ⟨Nat.zero_le _, Or.inl rfl⟩⟩
  | succ i ih =>
    intro m fuel c pat hd tl hnp hf
    obtain ⟨n, rfl⟩ : ∃ n, fuel = n + 1 := ⟨fuel - 1, by omega⟩
    rw [chain_succ, nextPattern_chain_next] at hnp
    cases hnp
    rw [matchDirectoryChunks, if_pos ⟨rfl, rfl, Or.inl (by simp)⟩, if_neg (by simp)]
    cases m with
    | zero =>
      have e : List.replicate 0 97 = ([] : List Nat) := rfl
      simp only [e, matchDirectory_a_nil, Run.ok_bind, Bool.false_eq_true, if_false]
      obtain ⟨n1, rfl⟩ : ∃ n1, n = n1 + 1 := ⟨n - 1, by omega⟩
      rw [matchDirectoryChunks_skip _ _ (Or.inr (Or.inl rfl))]
      exact ⟨_, rfl, Or.inr ⟨by omega, _, rfl, rfl⟩⟩
    | succ m1 =>
      have e : List.replicate (m1 + 1) 97 = 97 :: List.replicate m1 97 := rfl
      have hsl : sliceFrom (97 :: List.replicate m1 97) 1 = .ok (List.replicate m1 97) := by
        unfold sliceFrom
        rw [if_pos ⟨by omega, by simp⟩]
        rfl
      simp only [e, matchDirectory_a_cons _ _ (List.cons_ne_nil _ _), Run.ok_bind, if_true, hsl]
      rcases nextPattern_chain i with ⟨hi, hnp⟩ | ⟨i1, hi, hnp⟩
      · rw [hnp]
        simp only [Run.ok_bind]
        obtain ⟨flow, hflow, hcase⟩ := ih m1 n (c + 1) (42 :: (List.replicate i [97, 42]).flatten)
          _ _ hnp (by omega)
        refine ⟨flow, hflow, ?_⟩
        rcases hcase with ⟨h1, h2⟩ | ⟨h1, h2⟩
        · left
          refine ⟨by omega, ?_⟩
          rcases h2 with h2 | ⟨s, hs1, hs2, hs3, hs4, hs5⟩
          · left; rw [h2]; push_cast; congr 2; omega
          · right; exact ⟨s, hs1, hs2, hs3, hs4, by rw [hs5]; push_cast; omega⟩
        · right
          exact ⟨by omega, h2⟩
      · rw [hnp]
        simp only [Run.ok_bind]
        obtain ⟨flow, hflow, hcase⟩ := ih m1 n (c + 1) (42 :: (List.replicate i [97, 42]).flatten)
          _ _ hnp (by omega)
        refine ⟨flow, hflow, ?_⟩
        rcases hcase with ⟨h1, h2⟩ | ⟨h1, h2⟩
        · left
          refine ⟨by omega, ?_⟩
          rcases h2 with h2 | ⟨s, hs1, hs2, hs3, hs4, hs5⟩
          · left; rw [h2]; push_cast; congr 2; omega
          · right; exact ⟨s, hs1, hs2, hs3, hs4, by rw [hs5]; push_cast; omega⟩
        · right
          exact ⟨by omega, h2⟩

theorem chain_length (k : Nat) : ((List.replicate k [97, 42]).flatten).length = 2 * k := by
  induction k with
  | zero => rfl
  | succ i ih => rw [chain_succ, List.length_cons, List.length_cons, ih]; omega

theorem Match_chain (k n : Nat) :
    (k + 1 ≤ n → Match (List.replicate (k + 1) [97, 42]).flatten (List.replicate n 97) =
        .ok (true, (n : Int))) ∧
      (n < k + 1 → ∃ c, Match (List.replicate (k + 1) [97, 42]).flatten (List.replicate n 97) =
        .ok (false, c)) := by
  have hlen := chain_length k
  obtain ⟨hd, tl, hnp⟩ : ∃ hd tl, nextPattern (42 :: (List.replicate k [97, 42]).flatten) =
      .ok (hd, tl, patternDirectory) := by
    rcases nextPattern_chain k with ⟨_, h⟩ | ⟨i, _, h⟩
    · exact ⟨_, _, h⟩
    · exact ⟨_, _, h⟩
  rw [chain_succ]
  simp only [Match, matchFirst, nextPattern_chain_first, Run.ok_bind, if_true]
  cases n with
  | zero =>
    have e : List.replicate 0 97 = ([] : List Nat) := rfl
    have hms : matchSimple [97] [] = .ok (false, 0) := by decide
    simp only [e, hms, Run.ok_bind, Bool.false_eq_true, if_false, hnp]
    rw [matchDirectoryChunks_skip _ _ (Or.inr (Or.inl rfl))]
    simp only [Run.ok_bind]
    rw [matchRecursiveChunks_skip _ _ (Or.inr (Or.inl rfl))]
    simp only [Run.ok_bind, Bool.false_and]
    exact ⟨fun h => by omega, fun _ => ⟨_, rfl⟩⟩
  | succ n1 =>
    have e : List.replicate (n1 + 1) 97 = 97 :: List.replicate n1 97 := rfl
    have hsl : sliceFrom (97 :: List.replicate n1 97) 1 = .ok (List.replicate n1 97) := by
      unfold sliceFrom
      rw [if_pos ⟨by omega, by simp⟩]
      rfl
    simp only [e, matchSimple_a_cons, Run.ok_bind, if_true, hsl]
    rw [if_neg (by simp)]
    simp only [hnp, Run.ok_bind]
    obtain ⟨flow, hflow, hcase⟩ := matchDirectoryChunks_chain k n1
      ((97 :: 42 :: (List.replicate k [97, 42]).flatten).length + 2) 1
      (42 :: (List.replicate k [97, 42]).flatten) hd tl hnp
      (by rw [List.length_cons, List.length_cons, hlen]; omega)
    rw [hflow]
    simp only [Run.ok_bind]
    rcases hcase with ⟨h1, h2⟩ | ⟨h1, s, rfl, hs⟩
    · rcases h2 with rfl | ⟨s, rfl, hs2, hs3, hs4, hs5⟩
      · simp only []
        refine ⟨fun _ => ?_, fun h => by omega⟩
        congr 2
        push_cast
        omega
      · simp only []
        rw [matchRecursiveChunks_skip _ _ (Or.inl (by rw [hs2]; decide))]
        simp only [Run.ok_bind, hs3, hs4, hs5, List.length_nil, decide_True, Bool.and_self]
        refine ⟨fun _ => ?_, fun h => by omega⟩
        congr 2
        push_cast
        omega
    · simp only []
      rw [matchRecursiveChunks_skip _ _ (Or.inr (Or.inl hs))]
      simp only [Run.ok_bind, hs, Bool.false_and]
      exact ⟨fun h => by omega, fun _ => ⟨_, rfl⟩⟩

/-! ## Auxiliary lemmas: a multi-level wildcard before a literal rune and a follower -/

theorem matchSimple_single (a x : Nat) (rest : List Nat) (ha : a ≠ 63 ∧ a ≠ 91 ∧ a ≠ 92) :
    matchSimple [a] (x :: rest) = .ok (decide (a = x), if a = x then 1 else 0) := by
  rw [matchSimple_common [a] (x :: rest) (by
    intro c hc
    rw [List.mem_singleton] at hc
    rw [hc]
    exact ha)]
  by_cases hax : a = x
  · simp [commonPrefixLength, hax]
  · simp [commonPrefixLength, hax]

theorem sliceFrom_one (x : Nat) (rest : List Nat) : sliceFrom (x :: rest) 1 = .ok rest := by
  unfold sliceFrom
  rw [if_pos ⟨by omega, by simp⟩]
  rfl

theorem matchRecursiveHead_found (a : Nat) (ha : a ≠ 63 ∧ a ≠ 91 ∧ a ≠ 92) (rest : List Nat) :
    ∀ (pre : List Nat) (fuel : Nat) (total : Int), a ∉ pre →
      pre.length + 1 < fuel →
      matchRecursiveHead [a] fuel false 1 total (pre ++ a :: rest) =
        .ok (true, 1, total + (pre.length : Int) + 1, a :: rest) := by
  intro pre
  induction pre with
  | nil =>
    intro fuel total _ hf
    obtain ⟨n, rfl⟩ : ∃ n, fuel = n + 1 + 1 := ⟨fuel - 2, by simp at hf; omega⟩
    rw [List.nil_append, matchRecursiveHead, if_pos ⟨rfl, by simp, by omega⟩,
      matchSimple_single a a rest ha]
    simp only [Run.ok_bind, decide_True, Bool.true_eq_false, if_false, if_true]
    rw [matchRecursiveHead, if_neg (by simp)]
    simp
  | cons x pre1 ih =>
    intro fuel total hmem hf
    obtain ⟨n, rfl⟩ : ∃ n, fuel = n + 1 := ⟨fuel - 1, by omega⟩
    have hxa : a ≠ x := fun h => hmem (by rw [h]; exact List.mem_cons_self _ _)
    have hpre : a ∉ pre1 := fun h => hmem (List.mem_cons_of_mem _ h)
    rw [List.cons_append, matchRecursiveHead, if_pos ⟨rfl, by simp, by omega⟩,
      matchSimple_single a x _ ha]
    simp only [Run.ok_bind, decide_eq_false hxa, if_true]
    rw [if_pos (by simp), sliceFrom_one]
    simp only [Run.ok_bind]
    rw [ih n (total + 1) hpre (by simpa using hf), List.length_cons]
    congr 4
    push_cast
    omega

theorem matchRecursiveHead_absent (a : Nat) (ha : a ≠ 63 ∧ a ≠ 91 ∧ a ≠ 92) :
    ∀ (cur : List Nat) (fuel : Nat) (total : Int), a ∉ cur → cur.length + 1 < fuel →
      ∃ s t c1, matchRecursiveHead [a] fuel false 1 total cur = .ok (false, s, t, c1) := by
  intro cur
  induction cur with
  | nil =>
    intro fuel total _ hf
    obtain ⟨n, rfl⟩ : ∃ n, fuel = n + 1 := ⟨fuel - 1, by omega⟩
    rw [matchRecursiveHead, if_neg (by simp)]
    exact ⟨_, _, _, rfl⟩
  | cons x xs ih =>
    intro fuel total hmem hf
    obtain ⟨n, rfl⟩ : ∃ n, fuel = n + 1 + 1 := ⟨fuel - 2, by simp at hf; omega⟩
    have hxa : a ≠ x := fun h => hmem (by rw [h]; exact List.mem_cons_self _ _)
    have hxs : a ∉ xs := fun h => hmem (List.mem_cons_of_mem _ h)
    rw [matchRecursiveHead, if_pos ⟨rfl, by simp, by omega⟩, matchSimple_single a x _ ha]
    simp only [Run.ok_bind, decide_eq_false hxa, if_true]
    by_cases hl : (x :: xs).length > 1
    · rw [if_pos hl, sliceFrom_one]
      simp only [Run.ok_bind]
      exact ih (n + 1) (total + 1) hxs (by simp at hf ⊢; omega)
    · rw [if_neg hl, matchRecursiveHead, if_neg (by simp)]
      exact ⟨_, _, _, rfl⟩

theorem matchRecursiveLoop_absent (path s : List Nat) (fuel : Nat) (total : Int)
    (hmem : 99 ∉ s) (hf : 0 < fuel) :
    ∃ n, matchRecursiveLoop [42, 42, 99, 42, 116] path fuel [99] [42, 116] false total s s =
      .ok (false, n) := by
  obtain ⟨k, rfl⟩ : ∃ k, fuel = k + 1 := ⟨fuel - 1, by omega⟩
  have hnp1 : nextPattern [42, 116] = .ok ([116], [], patternDirectory) := by decide
  obtain ⟨st, t, c1, hhead⟩ := matchRecursiveHead_absent 99 (by decide) s (s.length + 2) total hmem
    (by omega)
  rw [matchRecursiveLoop, hhead]
  simp only [Run.ok_bind, hnp1]
  rw [matchRecursiveTail, if_neg (by simp)]
  simp only [Run.ok_bind, Bool.false_eq_true, if_false]
  exact ⟨_, rfl⟩

theorem matchRecursiveLoop_found (path : List Nat) :
    ∀ (s : List Nat) (fuel : Nat), s.length < fuel →
      ∃ b n, matchRecursiveLoop [42, 42, 99, 42, 116] path fuel [99] [42, 116] false
          ((path.length : Int) - (s.length : Int)) s s = .ok (b, n) ∧
        (b = true ↔ ∃ u w, s = u ++ 99 :: (w ++ [116]) ∧ Separator ∉ w) ∧
        (b = true → n = (path.length : Int)) := by
  have hnp1 : nextPattern [42, 116] = .ok ([116], [], patternDirectory) := by decide
  have hnpP : nextPattern [42, 42, 99, 42, 116] = .ok ([99], [42, 116], patternRecursive) := by
    decide
  have hnil : nextPattern [] = .ok ([], [], patternSimple) := by decide
  have habs : ∀ (s : List Nat) (fuel : Nat), 99 ∉ s → 0 < fuel →
      ∃ b n, matchRecursiveLoop [42, 42, 99, 42, 116] path fuel [99] [42, 116] false
          ((path.length : Int) - (s.length : Int)) s s = .ok (b, n) ∧
        (b = true ↔ ∃ u w, s = u ++ 99 :: (w ++ [116]) ∧ Separator ∉ w) ∧
        (b = true → n = (path.length : Int)) := by
    intro s fuel hmem hf
    obtain ⟨n, hn⟩ := matchRecursiveLoop_absent path s fuel _ hmem hf
    refine ⟨false, n, hn, ?_, by intro h; exact absurd h (by decide)⟩
    constructor
    · intro h; exact absurd h (by decide)
    · rintro ⟨u, w, hs, -⟩
      exact absurd (by rw [hs]; simp) hmem
  intro s
  induction s with
  | nil => intro fuel hf; exact habs [] fuel (by simp) (by omega)
  | cons x xs ih =>
    intro fuel hf
    by_cases hmem : 99 ∈ x :: xs
    · obtain ⟨k, rfl⟩ : ∃ k, fuel = k + 1 := ⟨fuel - 1, by omega⟩
      obtain ⟨pre, rest, hs, hpre⟩ := List.eq_append_cons_of_mem hmem
      have hlen : (x :: xs).length = pre.length + rest.length + 1 := by
        rw [hs, List.length_append, List.length_cons]; omega
      have hhead := matchRecursiveHead_found 99 (by decide) rest pre ((x :: xs).length + 2)
        ((path.length : Int) - ((x :: xs).length : Int)) hpre (by omega)
      rw [← hs] at hhead
      obtain ⟨n, hmd, hcount⟩ := matchDirectoryLoop_literal [116] (by simp) (by decide)
        (rest.length + 1) rest 0 (by omega)
      rw [matchRecursiveLoop, hhead]
      simp only [Run.ok_bind, hnp1]
      rw [matchRecursiveTail, if_pos ⟨rfl, rfl, Or.inl (by simp)⟩]
      simp only [sliceFrom_one, Run.ok_bind]
      unfold matchDirectory
      rw [hmd]
      simp only [Run.ok_bind]
      cases hb : starSpec [116] rest with
      | true =>
        have hn := hcount hb
        rw [zero_add] at hn
        subst hn
        have hsl : sliceFrom rest (rest.length : Int) = .ok [] := by
          unfold sliceFrom
          rw [if_pos ⟨Int.natCast_nonneg _, le_refl _⟩, Int.toNat_ofNat, List.drop_length]
        simp only [Bool.true_eq_false, if_false, hsl, hnil, Run.ok_bind]
        rw [matchRecursiveTail, if_neg (by simp)]
        simp only [Run.ok_bind, Bool.false_eq_true, if_false]
        refine ⟨_, _, rfl, ?_, ?_⟩
        · simp only [true_iff]
          obtain ⟨w, hw, hsep⟩ := (starSpec_iff [116] (by simp) rest).mp hb
          exact ⟨pre, w, by rw [hs, hw], hsep⟩
        · intro _
          rw [hlen]
          push_cast
          omega
      | false =>
        simp only [if_true, hnpP, Run.ok_bind, sliceFrom_one]
        rw [matchRecursiveTail, if_neg (by simp)]
        simp only [Run.ok_bind, if_true]
        obtain ⟨b, n1, hres, hiff, hcnt⟩ := ih k (by simpa using hf)
        refine ⟨b, n1, hres, ?_, hcnt⟩
        rw [hiff]
        constructor
        · rintro ⟨u, w, hu, hsep⟩
          exact ⟨x :: u, w, by rw [hu]; rfl, hsep⟩
        · rintro ⟨u, w, hu, hsep⟩
          cases u with
          | nil =>
            exfalso
            rw [List.nil_append, List.cons.injEq] at hu
            obtain ⟨hx, hxs⟩ := hu
            cases pre with
            | nil =>
              rw [List.nil_append, List.cons.injEq] at hs
              have : starSpec [116] rest = true :=
                (starSpec_iff [116] (by simp) rest).mpr ⟨w, by rw [← hs.2, hxs], hsep⟩
              rw [hb] at this
              exact absurd this (by decide)
            | cons y pre1 =>
              rw [List.cons_append, List.cons.injEq] at hs
              exact hpre (by rw [← hs.1, hx]; exact List.mem_cons_self _ _)
          | cons y u1 =>
            rw [List.cons_append, List.cons.injEq] at hu
            exact ⟨u1, w, hu.2, hsep⟩
    · exact habs (x :: xs) fuel hmem (by omega)

theorem Match_doublestar_c_star_t (path : List Nat) :
    ((∃ u w, path = u ++ 99 :: (w ++ [116]) ∧ Separator ∉ w) →
        Match [42, 42, 99, 42, 116] path = .ok (true, (path.length : Int))) ∧
      (¬ (∃ u w, path = u ++ 99 :: (w ++ [116]) ∧ Separator ∉ w) →
        Match [42, 42, 99, 42, 116] path = .ok (false, 0)) := by
  have hnp1 : nextPattern [42, 116] = .ok ([116], [], patternDirectory) := by decide
  have hnpP : nextPattern [42, 42, 99, 42, 116] = .ok ([99], [42, 116], patternRecursive) := by
    decide
  obtain ⟨b, n, hres, hiff, hcnt⟩ := matchRecursiveLoop_found path path (path.length + 2)
    (by omega)
  rw [sub_self] at hres
  have hrec : matchRecursively [42, 42, 99, 42, 116] [99] [42, 116] path =
      .ok (b, if b then n else 0) := by
    unfold matchRecursively matchRecursivePattern
    rw [if_neg (by simp), hres]
    cases b <;> simp
  have hmatch : Match [42, 42, 99, 42, 116] path = .ok (b, if b then (path.length : Int) else 0) := by
    simp only [Match, matchFirst, hnpP, Run.ok_bind]
    rw [if_neg (by decide)]
    simp only [Run.ok_bind]
    rw [matchDirectoryChunks_skip _ _ (Or.inl (by simp))]
    simp only [Run.ok_bind]
    rw [matchRecursiveChunks, if_pos ⟨rfl, rfl, Or.inl (by simp)⟩]
    simp only [List.length_cons, List.length_nil]
    rw [if_neg (by omega)]
    simp only [Run.ok_bind, hrec]
    cases b with
    | true =>
      have hn := hcnt rfl
      subst hn
      have hsl : sliceFrom path (path.length : Int) = .ok [] := by
        unfold sliceFrom
        rw [if_pos ⟨Int.natCast_nonneg _, le_refl _⟩, Int.toNat_ofNat, List.drop_length]
      simp only [if_true, hsl, hnp1, Run.ok_bind]
      rw [matchRecursiveChunks_skip _ _ (Or.inl (by simp))]
      simp
    | false =>
      simp only [Bool.false_eq_true, if_false]
      rw [matchRecursiveChunks_skip _ _ (Or.inr (Or.inl rfl))]
      simp
  constructor
  · intro h
    rw [hmatch, hiff.mpr h]
    rfl
  · intro h
    have hb : b = false := by
      cases b with
      | false => rfl
      | true => exact absurd (hiff.mp rfl) h
    rw [hmatch, hb]
    rfl

/-! ## The claims, third part -/

/-- C21 (fails on the code): for an invalid escape inside a class the offset
that `Validate` returns is one past the escaped rune.  On the pattern made of
a left bracket, the escape character, `x` and a right bracket the result is 3
with `ErrGlobInvalidEscape`: the rune before offset 3 is `x`, not the escape
character, and the rune at offset 3 is the right bracket.  Outside a class,
on the escape character followed by `b`, the offset is that of `b`. -/
theorem C21_invalid_escape_offset_in_class :
    Validate [91, 92, 120, 93] = .ok (3, some ErrGlobInvalidEscape) ∧
    idx [91, 92, 120, 93] (3 - 1) = .ok 120 ∧
    idx [91, 92, 120, 93] 3 = .ok 93 ∧
    classIsValid [91, 92, 120, 93] = .ok (3, some ErrGlobInvalidEscape) ∧
    Validate [92, 98] = .ok (1, some ErrGlobInvalidEscape) := by
  decide

/-- C22: for runes `lo` and `hi` with `lo` below the forward slash and `hi`
above it, `lo` not being an exclamation mark, a hyphen, a right bracket or
the escape character, both `classIsValid` and `Validate` reject the class
`[lo-hi]` with `ErrGlobInvalidRange` (at offset 4). -/
theorem C22_range_across_separator (lo hi : Nat)
    (hlo : lo ≠ 33 ∧ lo ≠ 45 ∧ lo ≠ 93 ∧ lo ≠ escapeCharacter)
    (h1 : lo < 47) (h2 : 47 < hi) :
    classIsValid (runes "[" ++ [lo] ++ runes "-" ++ [hi] ++ runes "]") =
        .ok (4, some ErrGlobInvalidRange) ∧
      Validate (runes "[" ++ [lo] ++ runes "-" ++ [hi] ++ runes "]") =
        .ok (4, some ErrGlobInvalidRange) := by
  have e : runes "[" ++ [lo] ++ runes "-" ++ [hi] ++ runes "]" = [91, lo, 45, hi, 93] := rfl
  rw [e]
  refine ⟨?_, Validate_range_straddle lo hi hlo.1 hlo.2.1 h1 h2⟩
  rw [classIsValid_range lo hi hlo.1 hlo.2.1 hlo.2.2.1 hlo.2.2.2, if_pos (Or.inl ⟨h1, h2⟩)]

/-- Witness of C22 at the class `[.-0]`. -/
theorem C22_range_across_separator_witness :
    classIsValid (runes "[.-0]") = .ok (4, some ErrGlobInvalidRange) ∧
      Validate (runes "[.-0]") = .ok (4, some ErrGlobInvalidRange) :=
  C22_range_across_separator 46 48 (by decide) (by decide) (by decide)

/-- C23: for runes `lo ≤ hi`, neither of them an exclamation mark, a hyphen,
a right bracket or the escape character, such that `classIsValid` accepts
`[lo-hi]`, and for every rune `v` other than the separator, `matchClass` of
`[lo-hi]` without negation is the test `lo ≤ v ≤ hi` and `matchClass` of
`[!lo-hi]` with negation is its complement; and `[0-9]` matches the ten
digits and no other rune. -/
theorem C23_single_range (lo hi v : Nat) (hle : lo ≤ hi)
    (hlo : lo ≠ 33 ∧ lo ≠ 45 ∧ lo ≠ 93 ∧ lo ≠ escapeCharacter)
    (hhi : hi ≠ 33 ∧ hi ≠ 45 ∧ hi ≠ 93 ∧ hi ≠ escapeCharacter)
    (_hvalid : classIsValid (runes "[" ++ [lo] ++ runes "-" ++ [hi] ++ runes "]") = .ok (5, none))
    (hv : v ≠ Separator) :
    matchClass (runes "[" ++ [lo] ++ runes "-" ++ [hi] ++ runes "]") v false =
        .ok (decide (lo ≤ v ∧ v ≤ hi)) ∧
      matchClass (runes "[!" ++ [lo] ++ runes "-" ++ [hi] ++ runes "]") v true =
        .ok (!decide (lo ≤ v ∧ v ≤ hi)) ∧
      (∀ d : Nat, matchClass (runes "[0-9]") d false = .ok (decide (48 ≤ d ∧ d ≤ 57))) := by
  have e : runes "[" ++ [lo] ++ runes "-" ++ [hi] ++ runes "]" = [91, lo, 45, hi, 93] := rfl
  have e2 : runes "[!" ++ [lo] ++ runes "-" ++ [hi] ++ runes "]" = [91, 33, lo, 45, hi, 93] := rfl
  have e3 : runes "[0-9]" = [91, 48, 45, 57, 93] := by decide
  obtain ⟨r1, r2⟩ := matchClass_range lo hi v hle ⟨hlo.2.2.1, hlo.2.2.2⟩ ⟨hhi.2.2.1, hhi.2.2.2⟩ hv
  rw [e, e2, e3]
  refine ⟨r1, r2, ?_⟩
  intro d
  by_cases hd : d = Separator
  · subst hd
    decide
  · exact (matchClass_range 48 57 d (by decide) (by decide) (by decide) hd).1

/-- Witness of C23 at the class `[0-9]` and the rune `5`. -/
theorem C23_single_range_witness :
    matchClass (runes "[0-9]") 53 false = .ok true ∧
      matchClass (runes "[!0-9]") 53 true = .ok false :=
  ⟨(C23_single_range 48 57 53 (by decide) (by decide) (by decide) (by decide) (by decide)).1,
    (C23_single_range 48 57 53 (by decide) (by decide) (by decide) (by decide) (by decide)).2.1⟩

/-- C24: `Match` of `**c*t` is true, with the length of the path as count,
exactly for the paths `u ++ "c" ++ w ++ "t"` with no separator in `w` (`u` is
arbitrary); for every other path it is false with count 0. -/
theorem C24_doublestar_then_star (path : List Nat) :
    (Match (runes "**c*t") path = .ok (true, (path.length : Int)) ↔
        ∃ u w, path = u ++ runes "c" ++ w ++ runes "t" ∧ Separator ∉ w) ∧
      (Match (runes "**c*t") path = .ok (true, (path.length : Int)) ∨
        Match (runes "**c*t") path = .ok (false, 0)) := by
  have e : runes "**c*t" = [42, 42, 99, 42, 116] := by decide
  have e2 : ∀ u w : List Nat, u ++ runes "c" ++ w ++ runes "t" = u ++ 99 :: (w ++ [116]) := by
    intro u w
    have h1 : runes "c" = [99] := by decide
    have h2 : runes "t" = [116] := by decide
    rw [h1, h2]
    simp
  obtain ⟨ht, hf⟩ := Match_doublestar_c_star_t path
  simp only [e, e2]
  by_cases h : ∃ u w, path = u ++ 99 :: (w ++ [116]) ∧ Separator ∉ w
  · exact ⟨⟨fun _ => h, fun _ => ht h⟩, Or.inl (ht h)⟩
  · refine ⟨⟨fun hm => ?_, fun hx => absurd hx h⟩, Or.inr (hf h)⟩
    rw [hf h] at hm
    exact absurd hm (by simp)

/-- C25: for `k ≥ 1`, `Match` of `k` copies of `a*` against `n` copies of `a`
is true with count `n` when `n ≥ k`, and false when `n < k`. -/
theorem C25_chained_wildcards (k n : Nat) (hk : 1 ≤ k) :
    (k ≤ n → Match (List.replicate k (runes "a*")).flatten (List.replicate n 97) =
        .ok (true, (n : Int))) ∧
      (n < k → ∃ c, Match (List.replicate k (runes "a*")).flatten (List.replicate n 97) =
        .ok (false, c)) := by
  obtain ⟨j, rfl⟩ : ∃ j, k = j + 1 := ⟨k - 1, by omega⟩
  have e : runes "a*" = [97, 42] := by decide
  rw [e]
  exact Match_chain j n

/-- Witness of C25 at the pattern `a*a*` and the path of ten `a`. -/
theorem C25_chained_wildcards_witness :
    Match (List.replicate 2 (runes "a*")).flatten (List.replicate 10 97) =
      .ok (true, ((10 : Nat) : Int)) :=
  (C25_chained_wildcards 2 10 (by decide)).1 (by decide)

/-- C26: `nextPattern` returns for every pattern whose last rune is not the
escape character, and whenever it returns head, tail and kind, the pattern
is its leading run of `k` asterisks followed by head and tail, where the
kind is simple for `k = 0`, directory for `k = 1` and recursive for
`k ≥ 2`. -/
theorem C26_segmentation_is_lossless (p : List Nat) :
    (idx p (p.length - 1) ≠ .ok escapeCharacter →
        ∃ head tail kind, nextPattern p = .ok (head, tail, kind)) ∧
      (∀ head tail kind, nextPattern p = .ok (head, tail, kind) →
        p = List.replicate (p.takeWhile (fun x => decide (x = 42))).length 42 ++ head ++ tail ∧
        kind = (if (p.takeWhile (fun x => decide (x = 42))).length = 0 then patternSimple
          else if (p.takeWhile (fun x => decide (x = 42))).length = 1 then patternDirectory
          else patternRecursive)) :=
  ⟨nextPattern_ok p, fun _ _ _ h => nextPattern_partition h⟩

/-- Witness of C26 at the pattern `***a[*]*b`. -/
theorem C26_segmentation_is_lossless_witness :
    nextPattern (runes "***a[*]*b") = .ok (runes "a[*]", runes "*b", patternRecursive) ∧
      runes "***a[*]*b" = List.replicate 3 42 ++ runes "a[*]" ++ runes "*b" :=
  ⟨by decide,
    ((C26_segmentation_is_lossless (runes "***a[*]*b")).2 (runes "a[*]") (runes "*b")
      patternRecursive (by decide)).1⟩

/-- C27 (fails on the code): `classIsValid` accepts the class `[]*]` in full,
4 runes with the asterisk as a member, while the head that `nextPattern`
returns for it is `[]`, 2 runes: the segmenter takes the right bracket that
follows the left bracket for the end of the class and stops at the
asterisk. -/
theorem C27_class_asterisk_ends_chunk :
    classIsValid (runes "[]*]") = .ok (4, none) ∧
    nextPattern (runes "[]*]") = .ok (runes "[]", runes "*]", patternSimple) ∧
    (runes "[]").length < 4 := by
  decide

/-- C28: for `n ≥ 2`, `nextPattern` of `n` asterisks followed by `s` is
`nextPattern` of `**` followed by `s`; whenever that returns, the kind is
recursive; and it returns whenever the last rune is not the escape
character. -/
theorem C28_asterisk_runs_collapse (n : Nat) (s : List Nat) (hn : 2 ≤ n) :
    nextPattern (List.replicate n 42 ++ s) = nextPattern (runes "**" ++ s) ∧
      (∀ head tail kind, nextPattern (runes "**" ++ s) = .ok (head, tail, kind) →
        kind = patternRecursive) ∧
      (idx (runes "**" ++ s) ((runes "**" ++ s).length - 1) ≠ .ok escapeCharacter →
        ∃ head tail kind, nextPattern (runes "**" ++ s) = .ok (head, tail, kind)) := by
  obtain ⟨m, rfl⟩ : ∃ m, n = m + 2 := ⟨n - 2, by omega⟩
  have e : runes "**" ++ s = 42 :: 42 :: s := rfl
  rw [e]
  refine ⟨nextPattern_asterisks m s, ?_, nextPattern_ok _⟩
  intro head tail kind h
  have hp := (nextPattern_partition h).2
  have hlen : 2 ≤ ((42 :: 42 :: s).takeWhile (fun x => decide (x = 42))).length := by
    simp [List.takeWhile]
  rw [if_neg (by omega), if_neg (by omega)] at hp
  exact hp

/-- Witness of C28 at four asterisks followed by `a*b`. -/
theorem C28_asterisk_runs_collapse_witness :
    nextPattern (List.replicate 4 42 ++ runes "a*b") = nextPattern (runes "**" ++ runes "a*b") :=
  (C28_asterisk_runs_collapse 4 (runes "a*b") (by decide)).1

/-- C29: the tail that `nextPattern` returns is empty or begins with an
asterisk, and `nextPattern` of a non-empty such tail does not return the
kind simple. -/
theorem C29_only_first_chunk_simple (p head tail : List Nat) (kind : patternType)
    (h : nextPattern p = .ok (head, tail, kind)) :
    (tail = [] ∨ tail.head? = some 42) ∧
      (tail ≠ [] → ∀ head2 tail2 kind2, nextPattern tail = .ok (head2, tail2, kind2) →
        kind2 ≠ patternSimple) := by
  have ht := nextPattern_tail_asterisk h
  refine ⟨ht, ?_⟩
  intro hne head2 tail2 kind2 h2
  rcases ht with ht | ht
  · exact absurd ht hne
  · exact nextPattern_asterisk_kind ht h2

/-- Witness of C29 at the pattern `a*b**c`. -/
theorem C29_only_first_chunk_simple_witness :
    (runes "*b**c" = [] ∨ (runes "*b**c").head? = some 42) ∧
      (runes "*b**c" ≠ [] → ∀ head2 tail2 kind2,
        nextPattern (runes "*b**c") = .ok (head2, tail2, kind2) → kind2 ≠ patternSimple) :=
  C29_only_first_chunk_simple (runes "a*b**c") (runes "a") (runes "*b**c") patternSimple
    (by decide)

/-- C30: for a chunk `p` without escape character, left bracket and question
mark, `matchSimple` returns as count the length of the longest common prefix
of `p` and the path (the two agree on that many runes and differ at the next
one if both have one), and it returns true exactly when that count is the
length of `p` and it is not the case that `p` is empty and the path is
not. -/
theorem C30_literal_chunk_count (p path : List Nat)
    (hlit : ∀ x ∈ p, x ≠ escapeCharacter ∧ x ≠ 91 ∧ x ≠ 63) :
    matchSimple p path =
        .ok (decide (commonPrefixLength p path = p.length ∧ ¬ (p = [] ∧ path ≠ [])),
          (commonPrefixLength p path : Int)) ∧
      p.take (commonPrefixLength p path) = path.take (commonPrefixLength p path) ∧
      ∀ (h1 : commonPrefixLength p path < p.length)
        (h2 : commonPrefixLength p path < path.length),
        p[commonPrefixLength p path] ≠ path[commonPrefixLength p path] := by
  have hs := commonPrefixLength_spec p path
  exact ⟨matchSimple_common p path (fun c hc => ⟨(hlit c hc).2.2, (hlit c hc).2.1, (hlit c hc).1⟩),
    hs.1, hs.2.2.2⟩

/-- Witness of C30 at the chunk `ab*d` and the path `ab*e`. -/
theorem C30_literal_chunk_count_witness :
    matchSimple (runes "ab*d") (runes "ab*e") = .ok (false, 3) :=
  (C30_literal_chunk_count (runes "ab*d") (runes "ab*e") (by decide)).1

/-! ## Auxiliary lemmas: the errors and the offset of the validator -/

theorem classIsValidLoop_error (pattern : List Nat) (P : globError → Prop)
    (hT : P ErrGlobTruncated) (hE : P ErrGlobInvalidEscape) (hR : P ErrGlobInvalidRange) :
    ∀ (fuel i lo : Nat) (done : Bool) (err : Option globError) (r : Nat × Option globError),
      (∀ e, err = some e → P e) →
      classIsValidLoop pattern fuel i lo done err = .ok r → ∀ e, r.2 = some e → P e := by
  have sT : ∀ e, some ErrGlobTruncated = some e → P e := by
    intro e he; cases he; exact hT
  have sE : ∀ e, some ErrGlobInvalidEscape = some e → P e := by
    intro e he; cases he; exact hE
  have sR : ∀ e, some ErrGlobInvalidRange = some e → P e := by
    intro e he; cases he; exact hR
  intro fuel
  induction fuel with
  | zero => intro i lo done err r _ h; simp [classIsValidLoop] at h
  | succ n ih =>
    intro i lo done err r herr h
    rw [classIsValidLoop] at h
    split at h
    · rw [Run.bind_eq_ok] at h
      obtain ⟨token, -, h⟩ := h
      split at h
      · split at h
        · rw [Run.bind_eq_ok] at h
          obtain ⟨lo1, -, h⟩ := h
          split at h
          · split at h
            · exact ih _ _ _ _ _ sT h
            · exact ih _ _ _ _ _ herr h
          · exact ih _ _ _ _ _ sE h
        · exact ih _ _ _ _ _ sT h
      · split at h
        · split at h
          · exact ih _ _ _ _ _ herr h
          · rw [Run.bind_eq_ok] at h
            obtain ⟨p1, -, h⟩ := h
            split at h
            · exact ih _ _ _ _ _ herr h
            · exact ih _ _ _ _ _ herr h
        · split at h
          · rw [Run.bind_eq_ok] at h
            obtain ⟨literal, -, h⟩ := h
            split at h
            · exact ih _ _ _ _ _ herr h
            · rw [Run.bind_eq_ok] at h
              obtain ⟨hi1, -, h⟩ := h
              split at h
              · exact ih _ _ _ _ _ sR h
              · exact ih _ _ _ _ _ herr h
          · exact ih _ _ _ _ _ herr h
    · simp only [Run.ok.injEq] at h
      subst h
      exact herr

theorem classIsValid_error {pattern : List Nat} {n : Nat} {e : globError}
    (h0 : idx pattern 0 = .ok 91) (h : classIsValid pattern = .ok (n, some e)) :
    e = ErrGlobTruncated ∨ e = ErrGlobInvalidEscape ∨ e = ErrGlobInvalidRange := by
  unfold classIsValid at h
  split at h
  · rename_i hlen
    rw [idx, List.getElem?_eq_none (by omega)] at h0
    cases h0
  · rw [h0] at h
    simp only [Run.ok_bind, ne_eq, not_true_eq_false, if_false] at h
    rw [Run.bind_eq_ok] at h
    obtain ⟨short, -, h⟩ := h
    split at h
    · cases h
      exact Or.inl rfl
    · rw [Run.bind_eq_ok] at h
      obtain ⟨⟨i, err⟩, hloop, h⟩ := h
      simp only at h
      have hP := classIsValidLoop_error pattern
        (fun e => e = ErrGlobTruncated ∨ e = ErrGlobInvalidEscape ∨ e = ErrGlobInvalidRange)
        (Or.inl rfl) (Or.inr (Or.inl rfl)) (Or.inr (Or.inr rfl)) _ _ _ _ _ _
        (by intro e he; cases he) hloop
      cases err with
      | some e1 =>
        simp only [Run.ok.injEq, Prod.mk.injEq, Option.some.injEq] at h
        rw [← h.2]
        exact hP e1 rfl
      | none =>
        simp only at h
        rw [Run.bind_eq_ok] at h
        obtain ⟨last, -, h⟩ := h
        split at h
        · cases h
          exact Or.inl rfl
        · cases h

theorem nextValidPatternLoop_error (pattern : List Nat) :
    ∀ (fuel stop : Nat) (isEscaped : Bool) (n : Nat) (e : globError),
      nextValidPatternLoop pattern fuel stop isEscaped = .ok (n, some e) →
      e = ErrGlobTruncated ∨ e = ErrGlobInvalidEscape ∨ e = ErrGlobInvalidRange ∨
        e = ErrGlobReservedSymbol := by
  intro fuel
  induction fuel with
  | zero => intro stop esc n e h; simp [nextValidPatternLoop] at h
  | succ k ih =>
    intro stop esc n e h
    rw [nextValidPatternLoop] at h
    split at h
    · rename_i hs
      rw [idx_eq hs] at h
      simp only [Run.ok_bind] at h
      split at h
      · cases h
        exact Or.inr (Or.inr (Or.inr rfl))
      · split at h
        · split at h
          · cases h
            exact Or.inr (Or.inl rfl)
          · exact ih _ _ _ _ h
        · split at h
          · exact ih _ _ _ _ h
          · split at h
            · exact ih _ _ _ _ h
            · split at h
              · rename_i h91
                rw [Run.bind_eq_ok] at h
                obtain ⟨sub, hsub, h⟩ := h
                rw [Run.bind_eq_ok] at h
                obtain ⟨⟨count, err⟩, hcls, h⟩ := h
                simp only at h
                cases err with
                | some e1 =>
                  simp only [Run.ok.injEq, Prod.mk.injEq, Option.some.injEq] at h
                  obtain ⟨-, -, hsubeq⟩ := sliceFrom_ok hsub
                  have h0 : idx sub 0 = .ok 91 := by
                    rw [hsubeq, Int.toNat_ofNat, idx, List.getElem?_drop, Nat.add_zero,
                      List.getElem?_eq_getElem hs, h91]
                  have := classIsValid_error h0 hcls
                  rw [← h.2]
                  rcases this with h1 | h1 | h1
                  · exact Or.inl h1
                  · exact Or.inr (Or.inl h1)
                  · exact Or.inr (Or.inr (Or.inl h1))
                | none => exact ih _ _ _ _ h
              · split at h
                · cases h
                · exact ih _ _ _ _ h
    · cases h

theorem nextValidPattern_error {pattern head tail : List Nat} {e : globError}
    (h : nextValidPattern pattern = .ok (head, tail, some e)) :
    e = ErrGlobTruncated ∨ e = ErrGlobInvalidEscape ∨ e = ErrGlobInvalidRange ∨
      e = ErrGlobReservedSymbol := by
  unfold nextValidPattern at h
  rw [Run.bind_eq_ok] at h
  obtain ⟨start, -, h⟩ := h
  rw [Run.bind_eq_ok] at h
  obtain ⟨⟨stop, err⟩, hloop, h⟩ := h
  simp only at h
  rw [Run.bind_eq_ok] at h
  obtain ⟨hd, -, h⟩ := h
  rw [Run.bind_eq_ok] at h
  obtain ⟨tl, -, h⟩ := h
  simp only [Run.ok.injEq, Prod.mk.injEq] at h
  obtain ⟨-, -, rfl⟩ := h
  exact nextValidPatternLoop_error _ _ _ _ _ _ hloop

theorem ValidateLoop_error :
    ∀ (fuel : Nat) (head tail : List Nat) (err : Option globError) (index n : Nat)
      (r : Option globError),
      (∀ e, err = some e → e = ErrGlobTruncated ∨ e = ErrGlobInvalidEscape ∨
        e = ErrGlobInvalidRange ∨ e = ErrGlobReservedSymbol) →
      ValidateLoop fuel head tail err index = .ok (n, r) →
      n ≤ index + tail.length ∧
        ∀ e, r = some e → e = ErrGlobTruncated ∨ e = ErrGlobInvalidEscape ∨
          e = ErrGlobInvalidRange ∨ e = ErrGlobReservedSymbol := by
  intro fuel
  induction fuel with
  | zero => intro head tail err index n r _ h; simp [ValidateLoop] at h
  | succ k ih =>
    intro head tail err index n r herr h
    rw [ValidateLoop] at h
    split at h
    · rw [Run.bind_eq_ok] at h
      obtain ⟨⟨h1, t1, e1⟩, hnv, h⟩ := h
      simp only at h
      have happ := nextValidPattern_append hnv
      obtain ⟨hn, he⟩ := ih h1 t1 e1 _ n r (by
        intro e hee
        subst hee
        exact nextValidPattern_error hnv) h
      refine ⟨?_, he⟩
      rw [← happ, List.length_append]
      omega
    · simp only [Run.ok.injEq, Prod.mk.injEq] at h
      obtain ⟨rfl, rfl⟩ := h
      exact ⟨by omega, herr⟩

theorem Validate_error {pattern : List Nat} {n : Nat} {r : Option globError}
    (h : Validate pattern = .ok (n, r)) :
    n ≤ pattern.length ∧
      ∀ e, r = some e → e = ErrGlobTruncated ∨ e = ErrGlobInvalidEscape ∨
        e = ErrGlobInvalidRange ∨ e = ErrGlobReservedSymbol := by
  unfold Validate at h
  rw [Run.bind_eq_ok] at h
  obtain ⟨⟨head, tail, err⟩, hnv, h⟩ := h
  simp only at h
  have happ := nextValidPattern_append hnv
  obtain ⟨hn, he⟩ := ValidateLoop_error _ head tail err _ n r (by
    intro e hee
    subst hee
    exact nextValidPattern_error hnv) h
  refine ⟨?_, he⟩
  rw [← happ, List.length_append]
  exact hn

/-! ## Auxiliary lemmas: the matcher of a class and of its negation -/

theorem idx_negated (r : List Nat) (j : Nat) (hj : 1 ≤ j) :
    idx (91 :: 33 :: r) (j + 1) = idx (91 :: r) j := by
  obtain ⟨k, rfl⟩ : ∃ k, j = k + 1 := ⟨j - 1, by omega⟩
  simp [idx]

theorem matchClassLoop_negated (r : List Nat) (v : Nat) :
    ∀ (fuel i : Nat) (e m : Bool), 1 ≤ i → (i = 1 → idx (91 :: r) 1 ≠ .ok 93) →
      matchClassLoop (91 :: 33 :: r) v fuel (i + 1) e m = matchClassLoop (91 :: r) v fuel i e m := by
  intro fuel
  induction fuel with
  | zero => intro i e m _ _; rfl
  | succ n ih =>
    intro i e m hi h1
    rw [matchClassLoop]
    conv_rhs => rw [matchClassLoop]
    cases m with
    | true => rw [if_pos rfl, if_pos rfl]
    | false =>
      simp only [Bool.false_eq_true, if_false]
      rw [idx_negated r i (by omega)]
      cases hpi : idx (91 :: r) i <;> simp only [Run.ok_bind, Run.panic_bind, Run.fuel_bind]
      rename_i pi
      have hc : ((pi ≠ 93 ∨ i + 1 = 1) ∨ e = true) ↔ ((pi ≠ 93 ∨ i = 1) ∨ e = true) := by
        by_cases hi1 : i = 1
        · have hne : pi ≠ 93 := by
            intro h93
            subst hi1
            rw [h93] at hpi
            exact h1 rfl hpi
          simp [hne]
        · simp [show i + 1 ≠ 1 by omega, hi1]
      by_cases hcond : (pi ≠ 93 ∨ i = 1) ∨ e = true
      · rw [if_pos (hc.mpr hcond), if_pos hcond]
        cases hesc : (!e && decide (pi = escapeCharacter))
        · simp only [Bool.false_eq_true, if_false, Run.ok_bind]
          rw [idx_negated r (i + 1) (by omega)]
          cases ht : idx (91 :: r) (i + 1) <;> simp only [Run.ok_bind, Run.panic_bind, Run.fuel_bind]
          rename_i token
          by_cases h45 : token = 45
          · subst h45
            rw [if_pos rfl, if_pos rfl, idx_negated r (i + 1 + 1) (by omega)]
            cases hn : idx (91 :: r) (i + 1 + 1) <;>
              simp only [Run.ok_bind, Run.panic_bind, Run.fuel_bind]
            rename_i nxt
            cases hr : decide (nxt ≠ 93)
            · simp only [Bool.false_eq_true, if_false]
              exact ih _ _ _ (by omega) (by intro h; omega)
            · simp only [if_true]
              cases he2 : decide (nxt = escapeCharacter)
              · simp only [Bool.false_eq_true, if_false, Run.ok_bind]
                exact ih _ _ _ (by omega) (by intro h; omega)
              · simp only [if_true]
                rw [idx_negated r (i + 1 + 1 + 1) (by omega)]
                cases ht2 : idx (91 :: r) (i + 1 + 1 + 1) <;>
                  simp only [Run.ok_bind, Run.panic_bind, Run.fuel_bind]
                exact ih _ _ _ (by omega) (by intro h; omega)
          · rw [if_neg h45, if_neg h45]
            simp only [Run.ok_bind, Bool.false_eq_true, if_false]
            exact ih _ _ _ (by omega) (by intro h; omega)
        · simp only [if_true]
          rw [idx_negated r (i + 1) (by omega)]
          cases hlo : idx (91 :: r) (i + 1) <;> simp only [Run.ok_bind, Run.panic_bind, Run.fuel_bind]
          rename_i lo
          rw [idx_negated r (i + 1 + 1) (by omega)]
          cases ht : idx (91 :: r) (i + 1 + 1) <;> simp only [Run.ok_bind, Run.panic_bind, Run.fuel_bind]
          rename_i token
          by_cases h45 : token = 45
          · subst h45
            rw [if_pos rfl, if_pos rfl, idx_negated r ((i + 1) + 1 + 1) (by omega)]
            cases hn : idx (91 :: r) ((i + 1) + 1 + 1) <;>
              simp only [Run.ok_bind, Run.panic_bind, Run.fuel_bind]
            rename_i nxt
            cases hr : decide (nxt ≠ 93)
            · simp only [Bool.false_eq_true, if_false]
              exact ih _ _ _ (by omega) (by intro h; omega)
            · simp only [if_true]
              cases he2 : decide (nxt = escapeCharacter)
              · simp only [Bool.false_eq_true, if_false, Run.ok_bind]
                exact ih _ _ _ (by omega) (by intro h; omega)
              · simp only [if_true]
                rw [idx_negated r ((i + 1) + 1 + 1 + 1) (by omega)]
                cases ht2 : idx (91 :: r) ((i + 1) + 1 + 1 + 1) <;>
                  simp only [Run.ok_bind, Run.panic_bind, Run.fuel_bind]
                exact ih _ _ _ (by omega) (by intro h; omega)
          · rw [if_neg h45, if_neg h45]
            simp only [Run.ok_bind, Bool.false_eq_true, if_false]
            exact ih _ _ _ (by omega) (by intro h; omega)
      · rw [if_neg (fun h => hcond (hc.mp h)), if_neg hcond]

theorem matchClassLoop_fuel_succ (p : List Nat) (v : Nat) :
    ∀ (fuel i : Nat) (e m : Bool), p.length - i < fuel →
      matchClassLoop p v (fuel + 1) i e m = matchClassLoop p v fuel i e m := by
  intro fuel
  induction fuel with
  | zero => intro i e m h; omega
  | succ n ih =>
    intro i e m hf
    rw [matchClassLoop]
    conv_rhs => rw [matchClassLoop]
    cases m with
    | true => rw [if_pos rfl, if_pos rfl]
    | false =>
      simp only [Bool.false_eq_true, if_false]
      cases hpi : idx p i <;> simp only [Run.ok_bind, Run.panic_bind, Run.fuel_bind]
      rename_i pi
      have hil := (idx_ok hpi).1
      by_cases hcond : (pi ≠ 93 ∨ i = 1) ∨ e = true
      · rw [if_pos hcond, if_pos hcond]
        cases hesc : (!e && decide (pi = escapeCharacter))
        · simp only [Bool.false_eq_true, if_false, Run.ok_bind]
          cases ht : idx p (i + 1) <;> simp only [Run.ok_bind, Run.panic_bind, Run.fuel_bind]
          rename_i token
          have hk := (idx_ok ht).1
          by_cases h45 : token = 45
          · subst h45
            rw [if_pos rfl]
            cases hn : idx p (i + 1 + 1) <;>
              simp only [Run.ok_bind, Run.panic_bind, Run.fuel_bind]
            rename_i nxt
            have hk2 := (idx_ok hn).1
            cases hr : decide (nxt ≠ 93)
            · simp only [Bool.false_eq_true, if_false]
              apply ih
              omega
            · simp only [if_true]
              cases he2 : decide (nxt = escapeCharacter)
              · simp only [Bool.false_eq_true, if_false, Run.ok_bind]
                apply ih
                omega
              · simp only [if_true]
                cases ht2 : idx p (i + 1 + 1 + 1) <;>
                  simp only [Run.ok_bind, Run.panic_bind, Run.fuel_bind]
                have hk3 := (idx_ok ht2).1
                apply ih
                omega
          · rw [if_neg h45]
            simp only [Run.ok_bind, Bool.false_eq_true, if_false]
            apply ih
            omega
        · simp only [if_true]
          cases hlo : idx p (i + 1) <;> simp only [Run.ok_bind, Run.panic_bind, Run.fuel_bind]
          rename_i lo
          cases ht : idx p (i + 1 + 1) <;> simp only [Run.ok_bind, Run.panic_bind, Run.fuel_bind]
          rename_i token
          have hk := (idx_ok ht).1
          by_cases h45 : token = 45
          · subst h45
            rw [if_pos rfl]
            cases hn : idx p ((i + 1) + 1 + 1) <;>
              simp only [Run.ok_bind, Run.panic_bind, Run.fuel_bind]
            rename_i nxt
            have hk2 := (idx_ok hn).1
            cases hr : decide (nxt ≠ 93)
            · simp only [Bool.false_eq_true, if_false]
              apply ih
              omega
            · simp only [if_true]
              cases he2 : decide (nxt = escapeCharacter)
              · simp only [Bool.false_eq_true, if_false, Run.ok_bind]
                apply ih
                omega
              · simp only [if_true]
                cases ht2 : idx p ((i + 1) + 1 + 1 + 1) <;>
                  simp only [Run.ok_bind, Run.panic_bind, Run.fuel_bind]
                have hk3 := (idx_ok ht2).1
                apply ih
                omega
          · rw [if_neg h45]
            simp only [Run.ok_bind, Bool.false_eq_true, if_false]
            apply ih
            omega
      · rw [if_neg hcond, if_neg hcond]

theorem matchClass_negated (b : List Nat) (v : Nat) (hb : b.head? ≠ none ∧ b.head? ≠ some 93)
    (hv : v ≠ Separator) :
    matchClass (91 :: 33 :: (b ++ [93])) v true =
      (matchClass (91 :: (b ++ [93])) v false >>= fun m => Run.ok (!m)) := by
  have h1 : idx (91 :: (b ++ [93])) 1 ≠ .ok 93 := by
    cases b with
    | nil => exact absurd rfl hb.1
    | cons x xs =>
      intro h
      have hx : x = 93 := by simpa [idx] using h
      exact hb.2 (by rw [hx]; rfl)
  have hs : matchClassLoop (91 :: 33 :: (b ++ [93])) v ((91 :: 33 :: (b ++ [93])).length + 1) 2
      false false =
      matchClassLoop (91 :: (b ++ [93])) v ((91 :: (b ++ [93])).length + 1) 1 false false := by
    have e : (91 :: 33 :: (b ++ [93])).length + 1 = (91 :: (b ++ [93])).length + 1 + 1 := by
      simp
    rw [e]
    exact (matchClassLoop_negated (b ++ [93]) v _ 1 false false (Nat.le_refl _)
      (fun _ => h1)).trans (matchClassLoop_fuel_succ _ _ _ _ _ _ (by omega))
  unfold matchClass
  simp only [hv, false_and, if_false, if_true, Bool.false_eq_true]
  rw [hs]
  cases matchClassLoop (91 :: (b ++ [93])) v ((91 :: (b ++ [93])).length + 1) 1 false false with
  | ok m => cases m <;> simp
  | panic => simp
  | fuel => simp

/-! ## Auxiliary lemmas: the right bracket that ends a class -/

theorem classIsValidLoop_eq_scan (pattern : List Nat) :
    ∀ (fuel i lo : Nat) (done : Bool) (err : Option globError),
      classIsValidLoop pattern fuel i lo done err =
        (classIsValidScan pattern fuel i lo done err >>= fun r => Run.ok (r.1, r.2.2)) := by
  intro fuel
  induction fuel with
  | zero => intro i lo done err; rfl
  | succ n ih =>
    intro i lo done err
    rw [classIsValidLoop, classIsValidScan]
    by_cases hc : done = false ∧ err = none ∧ i < pattern.length
    · rw [if_pos hc, if_pos hc]
      cases hpi : idx pattern i <;> simp only [Run.ok_bind, Run.panic_bind, Run.fuel_bind]
      rename_i token
      by_cases h92 : token = escapeCharacter
      · rw [if_pos h92, if_pos h92]
        by_cases hlt : i < pattern.length - 1
        · rw [if_pos hlt, if_pos hlt]
          cases hlo : idx pattern (i + 1) <;>
            simp only [Run.ok_bind, Run.panic_bind, Run.fuel_bind]
          rename_i lo1
          by_cases hs : lo1 = 33 ∨ lo1 = 45 ∨ lo1 = 93 ∨ lo1 = escapeCharacter
          · rw [if_pos hs, if_pos hs]
            by_cases hl : lo1 = 93 ∧ i + 1 = pattern.length - 1
            · rw [if_pos hl, if_pos hl]; exact ih _ _ _ _
            · rw [if_neg hl, if_neg hl]; exact ih _ _ _ _
          · rw [if_neg hs, if_neg hs]; exact ih _ _ _ _
        · rw [if_neg hlt, if_neg hlt]; exact ih _ _ _ _
      · rw [if_neg h92, if_neg h92]
        by_cases h93 : token = 93
        · rw [if_pos h93, if_pos h93]
          by_cases hi1 : i ≠ 1
          · rw [if_pos hi1, if_pos hi1]; exact ih _ _ _ _
          · rw [if_neg hi1, if_neg hi1]
            cases hp1 : idx pattern 1 <;> simp only [Run.ok_bind, Run.panic_bind, Run.fuel_bind]
            rename_i p1
            by_cases hn : i ≠ 2 ∧ p1 = 33
            · rw [if_pos hn, if_pos hn]; exact ih _ _ _ _
            · rw [if_neg hn, if_neg hn]; exact ih _ _ _ _
        · rw [if_neg h93, if_neg h93]
          by_cases h45 : token = 45
          · rw [if_pos h45, if_pos h45]
            cases hlit : (if i = 1 then (Run.ok true : Run Bool)
                else if i = 2 then do
                  let p1 ← idx pattern 1
                  if p1 = 33 then Run.ok true else Run.ok (decide (i = pattern.length - 2))
                else Run.ok (decide (i = pattern.length - 2))) <;>
              simp only [Run.ok_bind, Run.panic_bind, Run.fuel_bind]
            rename_i literal
            cases literal
            · simp only [Bool.false_eq_true, if_false]
              cases hhi : idx pattern (i + 1) <;>
                simp only [Run.ok_bind, Run.panic_bind, Run.fuel_bind]
              rename_i hi1
              by_cases hr : (GlobSeparator > lo ∧ GlobSeparator < hi1) ∨ hi1 = escapeCharacter
              · rw [if_pos hr, if_pos hr]; exact ih _ _ _ _
              · rw [if_neg hr, if_neg hr]; exact ih _ _ _ _
            · simp only [if_true]; exact ih _ _ _ _
          · rw [if_neg h45, if_neg h45]; exact ih _ _ _ _
    · rw [if_neg hc, if_neg hc]
      rfl

theorem classIsValidScan_done (pattern : List Nat) (hlen : 3 ≤ pattern.length) :
    ∀ (fuel i lo : Nat) (done : Bool) (err : Option globError) (n : Nat) (d : Bool)
      (e : Option globError), 1 ≤ i →
      (done = false → err = none → pattern.length ≤ i → idx pattern (i - 1) ≠ .ok 93) →
      (done = true → 3 ≤ i ∧ idx pattern (i - 1) = .ok 93) →
      classIsValidScan pattern fuel i lo done err = .ok (n, d, e) →
      (d = false → e = none → idx pattern (n - 1) ≠ .ok 93) ∧
        (d = true → 3 ≤ n ∧ idx pattern (n - 1) = .ok 93) := by
  intro fuel
  induction fuel with
  | zero => intro i lo done err n d e _ _ _ h; simp [classIsValidScan] at h
  | succ k ih =>
    intro i lo done err n d e hi hJ hT h
    rw [classIsValidScan] at h
    by_cases hc : done = false ∧ err = none ∧ i < pattern.length
    · obtain ⟨hd, he, hil⟩ := hc
      subst hd he
      rw [if_pos ⟨rfl, rfl, hil⟩, Run.bind_eq_ok] at h
      obtain ⟨token, hpi, h⟩ := h
      have noT : false = true → 3 ≤ i + 1 ∧ idx pattern (i + 1 - 1) = .ok 93 :=
        fun hx => absurd hx (by decide)
      have noT2 : false = true → 3 ≤ i + 1 + 1 ∧ idx pattern (i + 1 + 1 - 1) = .ok 93 :=
        fun hx => absurd hx (by decide)
      by_cases h92 : token = escapeCharacter
      · rw [if_pos h92] at h
        by_cases hlt : i < pattern.length - 1
        · rw [if_pos hlt, Run.bind_eq_ok] at h
          obtain ⟨lo1, hlo, h⟩ := h
          by_cases hs : lo1 = 33 ∨ lo1 = 45 ∨ lo1 = 93 ∨ lo1 = escapeCharacter
          · rw [if_pos hs] at h
            by_cases hl : lo1 = 93 ∧ i + 1 = pattern.length - 1
            · rw [if_pos hl] at h
              exact ih _ _ _ _ _ _ _ (by omega) (fun _ hx => by cases hx) noT2 h
            · rw [if_neg hl] at h
              refine ih _ _ _ _ _ _ _ (by omega) ?_ noT2 h
              intro _ _ hge
              rw [Nat.add_sub_cancel, hlo]
              intro hx
              cases hx
              exact hl ⟨rfl, by omega⟩
          · rw [if_neg hs] at h
            exact ih _ _ _ _ _ _ _ (by omega) (fun _ hx => by cases hx) noT2 h
        · rw [if_neg hlt] at h
          exact ih _ _ _ _ _ _ _ (by omega) (fun _ hx => by cases hx) noT h
      · rw [if_neg h92] at h
        by_cases h93 : token = 93
        · rw [if_pos h93] at h
          subst h93
          by_cases hi1 : i ≠ 1
          · rw [if_pos hi1] at h
            refine ih _ _ _ _ _ _ _ (by omega) (fun hx => absurd hx (by decide)) ?_ h
            intro _
            rw [Nat.add_sub_cancel]
            exact ⟨by omega, hpi⟩
          · rw [if_neg hi1, Run.bind_eq_ok] at h
            obtain ⟨p1, hp1, h⟩ := h
            have hi1e : i = 1 := by omega
            subst hi1e
            rw [hpi] at hp1
            cases hp1
            rw [if_neg (by decide)] at h
            exact ih _ _ _ _ _ _ _ (by omega) (fun _ _ hge => by omega) noT h
        · rw [if_neg h93] at h
          by_cases h45 : token = 45
          · rw [if_pos h45, Run.bind_eq_ok] at h
            subst h45
            obtain ⟨literal, hlit, h⟩ := h
            cases literal with
            | true =>
              rw [if_pos rfl] at h
              refine ih _ _ _ _ _ _ _ (by omega) ?_ noT h
              intro _ _ _
              rw [Nat.add_sub_cancel, hpi]
              decide
            | false =>
              rw [if_neg (by decide), Run.bind_eq_ok] at h
              obtain ⟨hi2, hhi, h⟩ := h
              have hne : i ≠ pattern.length - 2 := by
                intro heq
                by_cases a1 : i = 1
                · rw [if_pos a1] at hlit
                  cases hlit
                · rw [if_neg a1] at hlit
                  by_cases a2 : i = 2
                  · rw [if_pos a2, Run.bind_eq_ok] at hlit
                    obtain ⟨p1, -, hlit⟩ := hlit
                    split at hlit
                    · cases hlit
                    · simp only [Run.ok.injEq, decide_eq_false_iff_not] at hlit
                      exact hlit heq
                  · rw [if_neg a2] at hlit
                    simp only [Run.ok.injEq, decide_eq_false_iff_not] at hlit
                    exact hlit heq
              have hlt2 := (idx_ok hhi).1
              by_cases hr : (GlobSeparator > lo ∧ GlobSeparator < hi2) ∨ hi2 = escapeCharacter
              · rw [if_pos hr] at h
                exact ih _ _ _ _ _ _ _ (by omega) (fun _ hx => by cases hx) noT2 h
              · rw [if_neg hr] at h
                exact ih _ _ _ _ _ _ _ (by omega) (fun _ _ hge => by omega) noT2 h
          · rw [if_neg h45] at h
            refine ih _ _ _ _ _ _ _ (by omega) ?_ noT h
            intro _ _ _
            rw [Nat.add_sub_cancel, hpi]
            intro hx
            cases hx
            exact h93 rfl
    · rw [if_neg hc] at h
      cases h
      refine ⟨fun hd he => hJ hd he ?_, hT⟩
      by_contra hlt
      exact hc ⟨hd, he, by omega⟩

theorem classIsValid_closed {p : List Nat} {n : Nat} (hv : classIsValid p = .ok (n, none)) :
    3 ≤ n ∧ n ≤ p.length ∧ idx p 0 = .ok 91 ∧ idx p (n - 1) = .ok 93 ∧
      classIsValidScan p (p.length + 1) 1 0 false none = .ok (n, true, none) := by
  unfold classIsValid at hv
  split at hv
  · simp at hv
  · rw [Run.bind_eq_ok] at hv
    obtain ⟨p0, hp0, hv⟩ := hv
    split at hv
    · simp at hv
    · rename_i hp
      simp only [ne_eq, Decidable.not_not] at hp
      subst hp
      rw [Run.bind_eq_ok] at hv
      obtain ⟨short, hshort, hv⟩ := hv
      split at hv
      · simp at hv
      · rename_i hs
        have hlen : 3 ≤ p.length := by
          by_contra hlt
          rw [if_pos (by omega)] at hshort
          simp only [Run.ok.injEq] at hshort
          exact hs hshort.symm
        rw [Run.bind_eq_ok] at hv
        obtain ⟨⟨i, err⟩, hloop, hv⟩ := hv
        cases err with
        | some e => simp at hv
        | none =>
          simp only at hv
          rw [Run.bind_eq_ok] at hv
          obtain ⟨last, hlast, hv⟩ := hv
          split at hv
          · simp at hv
          · rename_i hl
            simp only [ne_eq, Decidable.not_not] at hl
            simp only [Run.ok.injEq, Prod.mk.injEq, and_true] at hv
            subst hv
            subst hl
            rw [classIsValidLoop_eq_scan, Run.bind_eq_ok] at hloop
            obtain ⟨⟨n1, d, e⟩, hscan, hproj⟩ := hloop
            simp only [Run.ok.injEq, Prod.mk.injEq] at hproj
            obtain ⟨rfl, rfl⟩ := hproj
            obtain ⟨hF, hT⟩ := classIsValidScan_done p hlen _ _ _ _ _ _ _ _ (Nat.le_refl 1)
              (fun _ _ hge => by omega) (fun hx => absurd hx (by decide)) hscan
            cases d with
            | false => exact absurd hlast (hF rfl rfl)
            | true =>
              have h3 := (hT rfl).1
              have hlt := (idx_ok hlast).1
              exact ⟨h3, by omega, hp0, hlast, hscan⟩

/-! ## Auxiliary lemmas: the counts of the matchers stay within the path -/

theorem matchSimpleLoop_count (pattern path : List Nat) :
    ∀ (fuel index matchedCount : Nat) (isEscaped matched : Bool) (r : Bool × Nat × Nat),
      matchedCount ≤ path.length →
      matchSimpleLoop pattern path fuel index matchedCount isEscaped matched = .ok r →
      r.2.2 ≤ path.length := by
  intro fuel
  induction fuel with
  | zero => intro i c e m r _ h; simp [matchSimpleLoop] at h
  | succ n ih =>
    intro i c e m r hc h
    rw [matchSimpleLoop] at h
    split at h
    · rename_i hcond
      obtain ⟨-, hlt, -⟩ := hcond
      rw [Run.bind_eq_ok] at h
      obtain ⟨token, -, h⟩ := h
      rw [Run.bind_eq_ok] at h
      obtain ⟨value, -, h⟩ := h
      split at h
      · split at h
        · exact ih _ _ _ _ _ (by omega) h
        · cases h; exact hc
      · split at h
        · exact ih _ _ _ _ _ (by omega) h
        · split at h
          · rw [Run.bind_eq_ok] at h
            obtain ⟨sub, -, h⟩ := h
            rw [Run.bind_eq_ok] at h
            obtain ⟨⟨negated, classPattern⟩, -, h⟩ := h
            simp only at h
            rw [Run.bind_eq_ok] at h
            obtain ⟨m1, -, h⟩ := h
            split at h
            · exact ih _ _ _ _ _ (by omega) h
            · cases h; exact hc
          · split at h
            · split at h
              · exact ih _ _ _ _ _ (by omega) h
              · cases h; exact hc
            · split at h
              · exact ih _ _ _ _ _ (by omega) h
              · cases h; exact hc
    · cases h; exact hc

theorem matchSimple_count {pattern path : List Nat} {b : Bool} {c : Int}
    (h : matchSimple pattern path = .ok (b, c)) : 0 ≤ c ∧ c ≤ (path.length : Int) := by
  unfold matchSimple at h
  split at h
  · cases h
    exact ⟨le_refl _, Int.natCast_nonneg _⟩
  · rw [Run.bind_eq_ok] at h
    obtain ⟨⟨m, i, mc⟩, hloop, h⟩ := h
    simp only [Run.ok.injEq, Prod.mk.injEq] at h
    have := matchSimpleLoop_count _ _ _ _ _ _ _ _ (Nat.zero_le _) hloop
    simp only at this
    rw [← h.2]
    omega

theorem matchDirectoryRetry_count (head : List Nat) :
    ∀ (fuel : Nat) (path : List Nat) (subtotal : Int) (sm : Bool) (sc : Int) (p1 : List Nat)
      (st : Int),
      matchDirectoryRetry head fuel path subtotal = .ok (sm, sc, p1, st) →
      p1.length ≤ path.length ∧
        (sm = true → 0 ≤ sc ∧ sc ≤ (p1.length : Int) ∧
          st = subtotal + ((path.length : Int) - (p1.length : Int)) + sc) := by
  intro fuel
  induction fuel with
  | zero => intro p s sm sc p1 st h; simp [matchDirectoryRetry] at h
  | succ n ih =>
    intro p s sm sc p1 st h
    rw [matchDirectoryRetry] at h
    rw [Run.bind_eq_ok] at h
    obtain ⟨⟨m, c⟩, hms, h⟩ := h
    simp only at h
    split at h
    · rename_i hm
      split at h
      · rw [Run.bind_eq_ok] at h
        obtain ⟨p0, -, h⟩ := h
        split at h
        · rw [Run.bind_eq_ok] at h
          obtain ⟨q, hq, h⟩ := h
          have hl := sliceFrom_length hq
          split at h
          · obtain ⟨h1, h2⟩ := ih _ _ _ _ _ _ h
            refine ⟨by omega, fun hsm => ?_⟩
            obtain ⟨a, b, c1⟩ := h2 hsm
            exact ⟨a, b, by rw [c1]; omega⟩
          · simp only [Run.ok.injEq, Prod.mk.injEq] at h
            obtain ⟨rfl, rfl, rfl, rfl⟩ := h
            exact ⟨by omega, fun hsm => by rw [hm] at hsm; exact absurd hsm (by decide)⟩
        · simp only [Run.ok.injEq, Prod.mk.injEq] at h
          obtain ⟨rfl, rfl, rfl, rfl⟩ := h
          exact ⟨Nat.le_refl _, fun hsm => by rw [hm] at hsm; exact absurd hsm (by decide)⟩
      · simp only [Run.ok.injEq, Prod.mk.injEq] at h
        obtain ⟨rfl, rfl, rfl, rfl⟩ := h
        exact ⟨Nat.le_refl _, fun hsm => by rw [hm] at hsm; exact absurd hsm (by decide)⟩
    · simp only [Run.ok.injEq, Prod.mk.injEq] at h
      obtain ⟨rfl, rfl, rfl, rfl⟩ := h
      have := matchSimple_count hms
      exact ⟨Nat.le_refl _, fun _ => ⟨this.1, this.2, by omega⟩⟩

theorem separatorScan_le (path : List Nat) : separatorScan path ≤ path.length := by
  induction path with
  | nil => simp [separatorScan]
  | cons x rest ih =>
    rw [separatorScan]
    split
    · simp only [List.length_cons]; omega
    · omega

theorem matchDirectoryLoop_count (head tail : List Nat) (hne : head.length ≠ 0) :
    ∀ (fuel : Nat) (path : List Nat) (total : Int) (m : Bool) (c : Int),
      matchDirectoryLoop head tail fuel path total = .ok (m, c) →
      total ≤ c ∧ c ≤ total + (path.length : Int) ∧
        (tail = [] → m = true → c = total + (path.length : Int)) := by
  intro fuel
  induction fuel with
  | zero => intro p t m c h; simp [matchDirectoryLoop] at h
  | succ n ih =>
    intro p t m c h
    rw [matchDirectoryLoop, if_neg hne] at h
    rw [Run.bind_eq_ok] at h
    obtain ⟨⟨sm, sc, p1, st⟩, hretry, h⟩ := h
    simp only at h
    obtain ⟨hp1, hsm⟩ := matchDirectoryRetry_count head _ _ _ _ _ _ _ hretry
    split at h
    · rename_i hs
      obtain ⟨h0, h1, h2⟩ := hsm hs
      split at h
      · rename_i hc
        split at h
        · rw [Run.bind_eq_ok] at h
          obtain ⟨p0, -, h⟩ := h
          split at h
          · rw [Run.bind_eq_ok] at h
            obtain ⟨q, hq, h⟩ := h
            have hl := sliceFrom_length hq
            obtain ⟨a, b, c1⟩ := ih _ _ _ _ h
            refine ⟨by omega, by omega, fun ht hm => ?_⟩
            rw [c1 ht hm]
            omega
          · simp only [Run.ok.injEq, Prod.mk.injEq] at h
            obtain ⟨rfl, rfl⟩ := h
            exact ⟨by omega, by omega, fun _ hx => absurd hx (by decide)⟩
        · simp only [Run.ok.injEq, Prod.mk.injEq] at h
          obtain ⟨rfl, rfl⟩ := h
          exact ⟨by omega, by omega, fun _ hx => absurd hx (by decide)⟩
      · rename_i hc
        simp only [Run.ok.injEq, Prod.mk.injEq] at h
        obtain ⟨rfl, rfl⟩ := h
        refine ⟨by omega, by omega, fun ht _ => ?_⟩
        have hle : ¬ ((p1.length : Int) > sc) := fun hx => hc ⟨by rw [ht]; rfl, hx⟩
        omega
    · simp only [Run.ok.injEq, Prod.mk.injEq] at h
      obtain ⟨rfl, rfl⟩ := h
      rename_i hs
      exact ⟨le_refl _, by omega, fun _ hx => absurd hx hs⟩

theorem matchDirectory_count {head tail path : List Nat} {m : Bool} {c : Int}
    (h : matchDirectory head tail path = .ok (m, c)) :
    0 ≤ c ∧ c ≤ (path.length : Int) ∧ (tail = [] → m = true → c = (path.length : Int)) := by
  unfold matchDirectory at h
  by_cases hne : head.length = 0
  · rw [matchDirectoryLoop, if_pos hne] at h
    have hle := separatorScan_le path
    simp only at h
    split at h
    · rename_i heq
      simp only [Run.ok.injEq, Prod.mk.injEq] at h
      obtain ⟨-, rfl⟩ := h
      exact ⟨Int.natCast_nonneg _, by omega, fun _ _ => by rw [heq]⟩
    · simp only [Run.ok.injEq, Prod.mk.injEq] at h
      obtain ⟨rfl, rfl⟩ := h
      exact ⟨le_refl _, by omega, fun _ hx => absurd hx (by decide)⟩
  · obtain ⟨a, b, c1⟩ := matchDirectoryLoop_count head tail hne _ _ _ _ _ h
    exact ⟨a, by omega, fun ht hm => by rw [c1 ht hm]; omega⟩

theorem matchRecursiveHead_count (head : List Nat) :
    ∀ (fuel : Nat) (total : Int) (current : List Nat) (m : Bool) (s t : Int) (c : List Nat),
      matchRecursiveHead head fuel false 1 total current = .ok (m, s, t, c) →
      c.length ≤ current.length ∧
        (m = true → 0 ≤ s ∧ s ≤ (c.length : Int) ∧
          t = total + ((current.length : Int) - (c.length : Int)) + s) := by
  intro fuel
  induction fuel with
  | zero => intro total cur m s t c h; simp [matchRecursiveHead] at h
  | succ n ih =>
    intro total cur m s t c h
    rw [matchRecursiveHead] at h
    split at h
    · rw [Run.bind_eq_ok] at h
      obtain ⟨⟨m1, s1⟩, hms, h⟩ := h
      simp only at h
      have hcnt := matchSimple_count hms
      split at h
      · rename_i hm1
        subst hm1
        split at h
        · rw [Run.bind_eq_ok] at h
          obtain ⟨q, hq, h⟩ := h
          have hl := sliceFrom_length hq
          obtain ⟨h1, h2⟩ := ih _ _ _ _ _ _ h
          refine ⟨by omega, fun hm => ?_⟩
          obtain ⟨a, b, c1⟩ := h2 hm
          exact ⟨a, b, by rw [c1]; omega⟩
        · cases n with
          | zero => simp [matchRecursiveHead] at h
          | succ k =>
            rw [matchRecursiveHead, if_neg (by simp)] at h
            simp only [Run.ok.injEq, Prod.mk.injEq] at h
            obtain ⟨rfl, rfl, rfl, rfl⟩ := h
            exact ⟨Nat.le_refl _, fun hx => absurd hx (by decide)⟩
      · rename_i hm1
        cases n with
        | zero => simp [matchRecursiveHead] at h
        | succ k =>
          rw [matchRecursiveHead, if_neg (by
            intro hx
            exact hm1 hx.1)] at h
          simp only [Run.ok.injEq, Prod.mk.injEq] at h
          obtain ⟨rfl, rfl, rfl, rfl⟩ := h
          exact ⟨Nat.le_refl _, fun _ => ⟨hcnt.1, hcnt.2, by omega⟩⟩
    · rename_i hc
      simp only [Run.ok.injEq, Prod.mk.injEq] at h
      obtain ⟨rfl, rfl, rfl, rfl⟩ := h
      exact ⟨Nat.le_refl _, fun hx => absurd hx (by decide)⟩

theorem matchRecursiveTail_within (pattern path : List Nat) :
    ∀ (fuel : Nat) (s r : RecursiveState), s.within path.length →
      matchRecursiveTail pattern path fuel s = .ok r → r.within path.length := by
  intro fuel
  induction fuel with
  | zero => intro s r _ h; simp [matchRecursiveTail] at h
  | succ n ih =>
    intro s r hs h
    rw [matchRecursiveTail] at h
    split at h
    · rename_i hcond
      obtain ⟨hsh, hcur, hm, -⟩ := hs
      obtain ⟨hmore, h0, h1, h2⟩ := hm hcond.2.1
      rw [Run.bind_eq_ok] at h
      obtain ⟨c1, hc1, h⟩ := h
      have hl1 := sliceFrom_length hc1
      rw [Run.bind_eq_ok] at h
      obtain ⟨⟨m, st⟩, -, h⟩ := h
      simp only at h
      split at h
      · rename_i hmf
        rw [Run.bind_eq_ok] at h
        obtain ⟨⟨h1a, t1, k1⟩, -, h⟩ := h
        simp only at h
        rw [Run.bind_eq_ok] at h
        obtain ⟨sh, hsh1, h⟩ := h
        have hl := sliceFrom_length hsh1
        refine ih _ _ ?_ h
        refine ⟨by simp only; omega, by simp only; omega, ?_, ?_⟩
        · intro hx
          simp only at hx
          rw [hmf] at hx
          exact absurd hx (by decide)
        · intro _
          refine ⟨hmf, ?_⟩
          simp only
          omega
      · rw [Run.bind_eq_ok] at h
        obtain ⟨c2, hc2, h⟩ := h
        have hl2 := sliceFrom_length hc2
        have hb1 := (sliceFrom_ok hc1).1
        have hb2 := (sliceFrom_ok hc2).1
        rw [Run.bind_eq_ok] at h
        obtain ⟨⟨h1a, t1, k1⟩, -, h⟩ := h
        simp only at h
        refine ih _ _ ?_ h
        refine ⟨hsh, by simp only; omega, ?_, ?_⟩
        · intro _
          simp only
          exact ⟨hmore, le_refl _, Int.natCast_nonneg _, by omega⟩
        · intro hx
          simp only at hx
          rw [hmore] at hx
          exact absurd hx (by decide)
    · simp only [Run.ok.injEq] at h
      subst h
      exact hs

theorem matchRecursiveLoop_count (pattern path : List Nat) :
    ∀ (fuel : Nat) (head tail : List Nat) (total : Int) (current shifted : List Nat) (n : Int),
      0 ≤ total → total + (current.length : Int) = (path.length : Int) →
      shifted.length ≤ path.length →
      matchRecursiveLoop pattern path fuel head tail false total current shifted = .ok (true, n) →
      0 ≤ n ∧ n ≤ (path.length : Int) := by
  intro fuel
  induction fuel with
  | zero => intro hd tl total cur sh n _ _ _ h; simp [matchRecursiveLoop] at h
  | succ k ih =>
    intro hd tl total cur sh n hpos htot hsh h
    rw [matchRecursiveLoop] at h
    rw [Run.bind_eq_ok] at h
    obtain ⟨⟨m, s, t, c⟩, hhead, h⟩ := h
    simp only at h
    obtain ⟨hcl, hm⟩ := matchRecursiveHead_count hd _ _ _ _ _ _ _ hhead
    rw [Run.bind_eq_ok] at h
    obtain ⟨⟨h1, t1, k1⟩, -, h⟩ := h
    simp only at h
    rw [Run.bind_eq_ok] at h
    obtain ⟨r, htail, h⟩ := h
    have hr := matchRecursiveTail_within pattern path _ _ r (by
      refine ⟨hsh, by simp only; omega, ?_, ?_⟩
      · intro hx
        simp only at hx
        obtain ⟨a, b, c1⟩ := hm hx
        simp only
        exact ⟨trivial, a, b, by omega⟩
      · intro hx
        simp only at hx
        exact absurd hx (by decide)) htail
    obtain ⟨rsh, rcur, rm, rmore⟩ := hr
    split at h
    · rename_i hmore
      obtain ⟨hmf, htot2⟩ := rmore hmore
      rw [hmf] at h
      exact ih _ _ _ _ _ _ (by omega) htot2 rsh h
    · simp only [Run.ok.injEq, Prod.mk.injEq] at h
      obtain ⟨hmt, rfl⟩ := h
      obtain ⟨-, a, b, c1⟩ := rm hmt
      omega

theorem matchRecursively_count {pattern head tail path : List Nat} {m : Bool} {c : Int}
    (h : matchRecursively pattern head tail path = .ok (m, c)) :
    0 ≤ c ∧ c ≤ (path.length : Int) := by
  unfold matchRecursively at h
  rw [Run.bind_eq_ok] at h
  obtain ⟨⟨m1, s1⟩, hrp, h⟩ := h
  simp only at h
  split at h
  · rename_i hm1
    simp only [Run.ok.injEq, Prod.mk.injEq] at h
    obtain ⟨-, rfl⟩ := h
    subst hm1
    unfold matchRecursivePattern at hrp
    split at hrp
    · simp only [Run.ok.injEq, Prod.mk.injEq, true_and] at hrp
      subst hrp
      omega
    · have := matchRecursiveLoop_count pattern path _ _ _ _ _ _ _ (le_refl _) (by omega)
        (Nat.le_refl _) hrp
      omega
  · simp only [Run.ok.injEq, Prod.mk.injEq] at h
    obtain ⟨-, rfl⟩ := h
    exact ⟨le_refl _, Int.natCast_nonneg _⟩

/-! ## Auxiliary lemmas: chunks without separator, class and escape -/

theorem matchSimpleLoop_separator (h path : List Nat)
    (hlit : ∀ x ∈ h, x ≠ 47 ∧ x ≠ 91 ∧ x ≠ 92) :
    ∀ (fuel index mc : Nat) (r : Bool × Nat × Nat),
      matchSimpleLoop h path fuel index mc false true = .ok r →
      mc ≤ r.2.2 ∧ ∀ j, mc ≤ j → j < r.2.2 → path[j]? ≠ some 47 := by
  intro fuel
  induction fuel with
  | zero => intro i c r hr; simp [matchSimpleLoop] at hr
  | succ n ih =>
    intro i c r hr
    rw [matchSimpleLoop] at hr
    split at hr
    · rw [Run.bind_eq_ok] at hr
      obtain ⟨token, htok, hr⟩ := hr
      rw [Run.bind_eq_ok] at hr
      obtain ⟨value, hval, hr⟩ := hr
      have hmem : token ∈ h := List.getElem?_mem (idx_ok htok).2
      obtain ⟨t47, t91, t92⟩ := hlit token hmem
      have hpv := (idx_ok hval).2
      have step : ∀ r1 : Bool × Nat × Nat, value ≠ 47 →
          (c + 1 ≤ r1.2.2 ∧ ∀ j, c + 1 ≤ j → j < r1.2.2 → path[j]? ≠ some 47) →
          c ≤ r1.2.2 ∧ ∀ j, c ≤ j → j < r1.2.2 → path[j]? ≠ some 47 := by
        intro r1 hv ⟨h1, h2⟩
        refine ⟨by omega, fun j hj hjr => ?_⟩
        by_cases hjc : j = c
        · subst hjc
          rw [hpv]
          intro hx
          exact hv (Option.some.inj hx)
        · exact h2 j (by omega) hjr
      rw [if_neg (by decide), if_neg (by unfold escapeCharacter; exact t92), if_neg t91] at hr
      split at hr
      · split at hr
        · rename_i hv
          exact step r (by unfold Separator at hv; exact hv) (ih _ _ _ hr)
        · cases hr
          exact ⟨Nat.le_refl _, fun j hj hjr => by simp only at hjr; omega⟩
      · split at hr
        · rename_i htv
          exact step r (by rw [← htv]; exact t47) (ih _ _ _ hr)
        · cases hr
          exact ⟨Nat.le_refl _, fun j hj hjr => by simp only at hjr; omega⟩
    · cases hr
      exact ⟨Nat.le_refl _, fun j hj hjr => by simp only at hjr; omega⟩

theorem not_mem_take_of_getElem? (path : List Nat) (k : Nat)
    (hk : ∀ j, j < k → path[j]? ≠ some 47) : (47 : Nat) ∉ path.take k := by
  intro hmem
  obtain ⟨j, hj, hget⟩ := List.getElem_of_mem hmem
  rw [List.length_take] at hj
  rw [List.getElem_take] at hget
  have := hk j (by omega)
  rw [List.getElem?_eq_getElem (by omega), hget] at this
  exact this rfl

theorem matchSimple_separator {h path : List Nat} {b : Bool} {c : Int}
    (hlit : ∀ x ∈ h, x ≠ 47 ∧ x ≠ 91 ∧ x ≠ 92)
    (hr : matchSimple h path = .ok (b, c)) :
    ∃ k : Nat, c = (k : Int) ∧ k ≤ path.length ∧ (47 : Nat) ∉ path.take k := by
  have hcount := matchSimple_count hr
  unfold matchSimple at hr
  split at hr
  · cases hr
    exact ⟨0, rfl, Nat.zero_le _, by simp⟩
  · rw [Run.bind_eq_ok] at hr
    obtain ⟨⟨m, i, mc⟩, hloop, hr⟩ := hr
    simp only [Run.ok.injEq, Prod.mk.injEq] at hr
    obtain ⟨-, rfl⟩ := hr
    have := matchSimpleLoop_separator h path hlit _ _ _ _ hloop
    simp only at this
    exact ⟨mc, rfl, by omega,
      not_mem_take_of_getElem? path mc (fun j hj => this.2 j (Nat.zero_le _) hj)⟩

theorem matchDirectoryRetry_separator (head : List Nat)
    (hlit : ∀ x ∈ head, x ≠ 47 ∧ x ≠ 91 ∧ x ≠ 92) :
    ∀ (fuel : Nat) (path : List Nat) (subtotal : Int) (sc : Int) (p1 : List Nat) (st : Int),
      matchDirectoryRetry head fuel path subtotal = .ok (true, sc, p1, st) →
      ∃ (pre : List Nat) (k : Nat), path = pre ++ p1 ∧ (47 : Nat) ∉ pre ∧ sc = (k : Int) ∧
        k ≤ p1.length ∧ (47 : Nat) ∉ p1.take k ∧
        st = subtotal + (pre.length : Int) + (k : Int) := by
  intro fuel
  induction fuel with
  | zero => intro p s sc p1 st h; simp [matchDirectoryRetry] at h
  | succ n ih =>
    intro p s sc p1 st h
    rw [matchDirectoryRetry] at h
    rw [Run.bind_eq_ok] at h
    obtain ⟨⟨m, c⟩, hms, h⟩ := h
    simp only at h
    split at h
    · rename_i hm
      subst hm
      split at h
      · rw [Run.bind_eq_ok] at h
        obtain ⟨p0, hp0, h⟩ := h
        split at h
        · rename_i hsep
          rw [Run.bind_eq_ok] at h
          obtain ⟨q, hq, h⟩ := h
          cases p with
          | nil => simp [idx] at hp0
          | cons x rest =>
            have hx : x = p0 := by simpa [idx] using hp0
            subst hx
            obtain ⟨-, -, hqe⟩ := sliceFrom_ok hq
            have hqr : q = rest := by simpa using hqe
            subst hqr
            split at h
            · obtain ⟨pre, k, h1, h2, h3, h4, h5, h6⟩ := ih _ _ _ _ _ h
              refine ⟨x :: pre, k, by rw [h1]; rfl, ?_, h3, h4, h5, ?_⟩
              · intro hmem
                rcases List.mem_cons.mp hmem with hh | hh
                · exact hsep hh.symm
                · exact h2 hh
              · rw [h6, List.length_cons]; push_cast; omega
            · simp only [Run.ok.injEq, Prod.mk.injEq] at h
              exact absurd h.1 (by decide)
        · simp only [Run.ok.injEq, Prod.mk.injEq] at h
          exact absurd h.1 (by decide)
      · simp only [Run.ok.injEq, Prod.mk.injEq] at h
        exact absurd h.1 (by decide)
    · simp only [Run.ok.injEq, Prod.mk.injEq] at h
      obtain ⟨-, rfl, rfl, rfl⟩ := h
      obtain ⟨k, hk1, hk2, hk3⟩ := matchSimple_separator hlit hms
      exact ⟨[], k, rfl, by simp, hk1, hk2, hk3, by simp [hk1]⟩

theorem matchDirectoryLoop_separator (head tail : List Nat) (hne : head.length ≠ 0)
    (hlit : ∀ x ∈ head, x ≠ 47 ∧ x ≠ 91 ∧ x ≠ 92) :
    ∀ (fuel : Nat) (path : List Nat) (total : Int) (c : Int),
      matchDirectoryLoop head tail fuel path total = .ok (true, c) →
      ∃ k : Nat, c = total + (k : Int) ∧ k ≤ path.length ∧ (47 : Nat) ∉ path.take k := by
  intro fuel
  induction fuel with
  | zero => intro p t c h; simp [matchDirectoryLoop] at h
  | succ n ih =>
    intro p t c h
    rw [matchDirectoryLoop, if_neg hne] at h
    rw [Run.bind_eq_ok] at h
    obtain ⟨⟨sm, sc, p1, st⟩, hretry, h⟩ := h
    simp only at h
    split at h
    · rename_i hs
      subst hs
      obtain ⟨pre, k, h1, h2, h3, h4, h5, h6⟩ :=
        matchDirectoryRetry_separator head hlit _ _ _ _ _ _ hretry
      split at h
      · split at h
        · rw [Run.bind_eq_ok] at h
          obtain ⟨p0, hp0, h⟩ := h
          split at h
          · rename_i hsep
            rw [Run.bind_eq_ok] at h
            obtain ⟨q, hq, h⟩ := h
            cases p1 with
            | nil => simp [idx] at hp0
            | cons x rest =>
              have hx : x = p0 := by simpa [idx] using hp0
              subst hx
              obtain ⟨-, -, hqe⟩ := sliceFrom_ok hq
              have hqr : q = rest := by simpa using hqe
              subst hqr
              obtain ⟨k1, e1, e2, e3⟩ := ih _ _ _ h
              refine ⟨pre.length + 1 + k1, ?_, ?_, ?_⟩
              · rw [e1, h6]; push_cast; omega
              · rw [h1, List.length_append, List.length_cons]; omega
              · rw [h1, List.take_append_eq_append_take, List.take_of_length_le (by omega)]
                have : pre.length + 1 + k1 - pre.length = k1 + 1 := by omega
                rw [this, List.take_succ_cons]
                intro hmem
                rcases List.mem_append.mp hmem with hh | hh
                · exact h2 hh
                · rcases List.mem_cons.mp hh with hh | hh
                  · exact hsep hh.symm
                  · exact e3 hh
          · simp only [Run.ok.injEq, Prod.mk.injEq] at h
            exact absurd h.1 (by decide)
        · simp only [Run.ok.injEq, Prod.mk.injEq] at h
          exact absurd h.1 (by decide)
      · simp only [Run.ok.injEq, Prod.mk.injEq, true_and] at h
        subst h
        refine ⟨pre.length + k, by rw [h6]; push_cast; omega, ?_, ?_⟩
        · rw [h1, List.length_append]; omega
        · rw [h1, List.take_append_eq_append_take, List.take_of_length_le (by omega)]
          have : pre.length + k - pre.length = k := by omega
          rw [this]
          intro hmem
          rcases List.mem_append.mp hmem with hh | hh
          · exact h2 hh
          · exact h5 hh
    · simp only [Run.ok.injEq, Prod.mk.injEq] at h
      rename_i hs
      exact absurd h.1 hs

theorem nextPattern_single {q head tail : List Nat} {kind : patternType}
    (hlit : ∀ x ∈ q, x ≠ 47 ∧ x ≠ 91 ∧ x ≠ 92)
    (hstar : ∀ i, q[i]? = some 42 → q[i + 1]? ≠ some 42)
    (h : nextPattern q = .ok (head, tail, kind)) :
    (∀ x ∈ head, x ≠ 47 ∧ x ≠ 91 ∧ x ≠ 92) ∧ (∀ x ∈ tail, x ≠ 47 ∧ x ≠ 91 ∧ x ≠ 92) ∧
      (∀ i, tail[i]? = some 42 → tail[i + 1]? ≠ some 42) ∧ kind ≠ patternRecursive := by
  obtain ⟨start, stop, hst, hle, hlen, rfl, rfl, -⟩ := nextPattern_parts h
  obtain ⟨hk, hkind⟩ := nextPatternStart_spec hst
  refine ⟨fun x hx => hlit x (List.mem_of_mem_take (List.mem_of_mem_drop hx)),
    fun x hx => hlit x (List.mem_of_mem_drop hx), ?_, ?_⟩
  · intro i hi
    rw [List.getElem?_drop] at hi ⊢
    exact hstar _ hi
  · have hs1 : start ≤ 1 := by
      by_contra hgt
      obtain ⟨m, hm⟩ : ∃ m, start = m + 2 := ⟨start - 2, by omega⟩
      have h3 : q.takeWhile (fun x => decide (x = 42)) <+: q := List.takeWhile_prefix _
      obtain ⟨rest, hq⟩ := h3
      have h1 := takeWhile_asterisks_eq q
      rw [← hk, hm] at h1
      rw [h1] at hq
      have e : List.replicate (m + 2) 42 ++ rest = 42 :: 42 :: (List.replicate m 42 ++ rest) := rfl
      rw [e] at hq
      have h0 : q[0]? = some 42 := by rw [← hq]; rfl
      have h1q : q[0 + 1]? = some 42 := by rw [← hq]; simp
      exact hstar 0 h0 h1q
    rw [hkind]
    split
    · decide
    · rw [if_pos (by omega)]
      decide

theorem matchDirectoryChunks_separator (orig : List Nat) :
    ∀ (fuel : Nat) (s : MatchState) (flow : Flow),
      (∀ x ∈ s.head, x ≠ 47 ∧ x ≠ 91 ∧ x ≠ 92) → (∀ x ∈ s.tail, x ≠ 47 ∧ x ≠ 91 ∧ x ≠ 92) →
      (∀ i, s.tail[i]? = some 42 → s.tail[i + 1]? ≠ some 42) → s.kind ≠ patternRecursive →
      (s.patternMatched = true → ∃ pre, orig = pre ++ s.path ∧ (47 : Nat) ∉ pre) →
      matchDirectoryChunks fuel s = .ok flow →
      (∀ c, flow = .ret (true, c) → (47 : Nat) ∉ orig) ∧
        (∀ s1, flow = .next s1 → s1.kind ≠ patternRecursive ∧
          (s1.patternMatched = true → ∃ pre, orig = pre ++ s1.path ∧ (47 : Nat) ∉ pre)) := by
  intro fuel
  induction fuel with
  | zero => intro s flow _ _ _ _ _ h; simp [matchDirectoryChunks] at h
  | succ n ih =>
    intro s flow hhead htail hstar hkind hinv h
    rw [matchDirectoryChunks] at h
    split at h
    · rename_i hcond
      obtain ⟨pre, horig, hpre⟩ := hinv hcond.2.1
      split at h
      · simp only at h
        split at h
        · rename_i hm
          cases h
          refine ⟨fun c _ => ?_, fun s1 hx => by cases hx⟩
          have hns : ¬ (Separator ∈ s.path) := by
            rw [← stringsContains_separator]
            simpa using hm
          rw [horig]
          intro hmem
          rcases List.mem_append.mp hmem with hh | hh
          · exact hpre hh
          · exact hns hh
        · rename_i hm
          cases h
          refine ⟨fun c hx => ?_, fun s1 hx => by cases hx⟩
          simp only [Flow.ret.injEq, Prod.mk.injEq] at hx
          exact absurd hx.1 hm
      · rename_i hne
        rw [Run.bind_eq_ok] at h
        obtain ⟨⟨pm, count⟩, hmd, h⟩ := h
        simp only at h
        split at h
        · rename_i hpm
          subst hpm
          rw [Run.bind_eq_ok] at h
          obtain ⟨path1, hp1, h⟩ := h
          rw [Run.bind_eq_ok] at h
          obtain ⟨⟨h1, t1, k1⟩, hnp, h⟩ := h
          simp only at h
          obtain ⟨a1, a2, a3, a4⟩ := nextPattern_single htail hstar hnp
          unfold matchDirectory at hmd
          obtain ⟨k, e1, e2, e3⟩ := matchDirectoryLoop_separator s.head s.tail hne hhead _ _ _ _ hmd
          obtain ⟨-, -, hpe⟩ := sliceFrom_ok hp1
          rw [e1, zero_add, Int.toNat_ofNat] at hpe
          refine ih _ _ a1 a2 a3 a4 ?_ h
          intro _
          refine ⟨pre ++ s.path.take k, ?_, ?_⟩
          · simp only
            rw [hpe, List.append_assoc, List.take_append_drop, horig]
          · intro hmem
            rcases List.mem_append.mp hmem with hh | hh
            · exact hpre hh
            · exact e3 hh
        · rename_i hpm
          exact ih { s with patternMatched := pm } flow hhead htail hstar hkind
            (fun hx => absurd hx hpm) h
    · cases h
      exact ⟨fun c hx => (by cases hx), fun s1 hx => (by cases hx; exact ⟨hkind, hinv⟩)⟩

theorem Match_single_level {p path : List Nat} {c : Int}
    (hlit : ∀ x ∈ p, x ≠ 47 ∧ x ≠ 91 ∧ x ≠ 92)
    (hstar : ∀ i, p[i]? = some 42 → p[i + 1]? ≠ some 42)
    (h : Match p path = .ok (true, c)) : (47 : Nat) ∉ path := by
  unfold Match at h
  rw [Run.bind_eq_ok] at h
  obtain ⟨r, hfirst, h⟩ := h
  -- the state after the first chunk
  have hstate : (∀ c1, r = .ret (true, c1) → (47 : Nat) ∉ path) ∧
      (∀ s, r = .next s → (∀ x ∈ s.head, x ≠ 47 ∧ x ≠ 91 ∧ x ≠ 92) ∧
        (∀ x ∈ s.tail, x ≠ 47 ∧ x ≠ 91 ∧ x ≠ 92) ∧
        (∀ i, s.tail[i]? = some 42 → s.tail[i + 1]? ≠ some 42) ∧ s.kind ≠ patternRecursive ∧
        (s.patternMatched = true → ∃ pre, path = pre ++ s.path ∧ (47 : Nat) ∉ pre)) := by
    unfold matchFirst at hfirst
    rw [Run.bind_eq_ok] at hfirst
    obtain ⟨⟨hd, tl, kd⟩, hnp, hfirst⟩ := hfirst
    simp only at hfirst
    obtain ⟨a1, a2, a3, a4⟩ := nextPattern_single hlit hstar hnp
    split at hfirst
    · rw [Run.bind_eq_ok] at hfirst
      obtain ⟨⟨pm, mc⟩, hms, hfirst⟩ := hfirst
      simp only at hfirst
      obtain ⟨k, e1, e2, e3⟩ := matchSimple_separator a1 hms
      split at hfirst
      · rw [Run.bind_eq_ok] at hfirst
        obtain ⟨path1, hp1, hfirst⟩ := hfirst
        obtain ⟨-, -, hpe⟩ := sliceFrom_ok hp1
        rw [e1, Int.toNat_ofNat] at hpe
        split at hfirst
        · cases hfirst
          refine ⟨fun c1 hx => ?_, fun s hx => by cases hx⟩
          simp only [Flow.ret.injEq, Prod.mk.injEq, decide_eq_true_eq] at hx
          have hnil : path.drop k = [] := by
            rw [← hpe]
            exact List.length_eq_zero.mp hx.1
          have : path = path.take k := by
            conv_lhs => rw [← List.take_append_drop k path, hnil, List.append_nil]
          rw [this]
          exact e3
        · rw [Run.bind_eq_ok] at hfirst
          obtain ⟨⟨h1, t1, k1⟩, hnp1, hfirst⟩ := hfirst
          cases hfirst
          obtain ⟨b1, b2, b3, b4⟩ := nextPattern_single a2 a3 hnp1
          refine ⟨fun c1 hx => (by cases hx), fun s hx => ?_⟩
          cases hx
          exact ⟨b1, b2, b3, b4, fun _ => ⟨path.take k, by
            simp only
            rw [hpe, List.take_append_drop], e3⟩⟩
      · rename_i hpm
        rw [Run.bind_eq_ok] at hfirst
        obtain ⟨⟨h1, t1, k1⟩, hnp1, hfirst⟩ := hfirst
        cases hfirst
        obtain ⟨b1, b2, b3, b4⟩ := nextPattern_single a2 a3 hnp1
        refine ⟨fun c1 hx => (by cases hx), fun s hx => ?_⟩
        cases hx
        exact ⟨b1, b2, b3, b4, fun hx => absurd hx hpm⟩
    · cases hfirst
      refine ⟨fun c1 hx => (by cases hx), fun s hx => ?_⟩
      cases hx
      exact ⟨a1, a2, a3, a4, fun _ => ⟨[], rfl, by simp⟩⟩
  cases r with
  | ret res =>
    simp only [Run.ok.injEq] at h
    exact hstate.1 c (by rw [h])
  | next s =>
    simp only at h
    obtain ⟨g1, g2, g3, g4, g5⟩ := hstate.2 s rfl
    rw [Run.bind_eq_ok] at h
    obtain ⟨r2, hchunks, h⟩ := h
    obtain ⟨hret, hnext⟩ := matchDirectoryChunks_separator path _ s r2 g1 g2 g3 g4 g5 hchunks
    cases r2 with
    | ret res =>
      simp only [Run.ok.injEq] at h
      exact hret c (by rw [h])
    | next s2 =>
      simp only at h
      obtain ⟨hk2, hinv2⟩ := hnext s2 rfl
      rw [show p.length + 2 = (p.length + 1) + 1 from rfl,
        matchRecursiveChunks_skip _ _ (Or.inl hk2)] at h
      simp only [Run.ok_bind, Run.ok.injEq, Prod.mk.injEq, Bool.and_eq_true,
        decide_eq_true_eq] at h
      obtain ⟨pre, horig, hpre⟩ := hinv2 h.1.1
      have hnil : s2.path = [] := List.length_eq_zero.mp h.1.2
      rw [horig, hnil, List.append_nil]
      exact hpre

/-! ## Auxiliary lemmas: one re-anchoring per round -/

theorem matchRecursiveTail_reanchor (pattern path : List Nat) :
    ∀ (fuel : Nat) (s r : RecursiveState), matchRecursiveTail pattern path fuel s = .ok r →
      (r.shifted = s.shifted ∧ r.more = s.more) ∨
        (sliceFrom s.shifted 1 = .ok r.shifted ∧ r.more = true ∧ r.mtch = false) := by
  intro fuel
  induction fuel with
  | zero => intro s r h; simp [matchRecursiveTail] at h
  | succ n ih =>
    intro s r h
    rw [matchRecursiveTail] at h
    split at h
    · rw [Run.bind_eq_ok] at h
      obtain ⟨c1, -, h⟩ := h
      rw [Run.bind_eq_ok] at h
      obtain ⟨⟨m, st⟩, -, h⟩ := h
      simp only at h
      split at h
      · rename_i hm
        rw [Run.bind_eq_ok] at h
        obtain ⟨⟨h1, t1, k1⟩, -, h⟩ := h
        simp only at h
        rw [Run.bind_eq_ok] at h
        obtain ⟨sh, hsh, h⟩ := h
        cases n with
        | zero => simp [matchRecursiveTail] at h
        | succ k =>
          rw [matchRecursiveTail, if_neg (by
            intro hx
            rw [hm] at hx
            exact absurd hx.2.1 (by simp))] at h
          cases h
          exact Or.inr ⟨hsh, rfl, hm⟩
      · rw [Run.bind_eq_ok] at h
        obtain ⟨c2, -, h⟩ := h
        rw [Run.bind_eq_ok] at h
        obtain ⟨⟨h1, t1, k1⟩, -, h⟩ := h
        simp only at h
        have hx := ih _ _ h
        exact hx
    · cases h
      exact Or.inl ⟨rfl, rfl⟩

/-! ## The claims, fourth part -/

/-- C31: none of `matchSimple`, `matchDirectory` and `matchRecursively` uses up
its iteration budget, and whenever one of them returns a count, the count is
between 0 and the length of the path; when `matchDirectory` with an empty
tail returns true, the count is the length of the path. -/
theorem C31_counts_within_path (chunk pattern head tail path : List Nat) :
    (matchSimple chunk path ≠ .fuel ∧ matchDirectory head tail path ≠ .fuel ∧
        matchRecursively pattern head tail path ≠ .fuel) ∧
      (∀ m c, matchSimple chunk path = .ok (m, c) → 0 ≤ c ∧ c ≤ (path.length : Int)) ∧
      (∀ m c, matchDirectory head tail path = .ok (m, c) → 0 ≤ c ∧ c ≤ (path.length : Int)) ∧
      (∀ m c, matchRecursively pattern head tail path = .ok (m, c) →
        0 ≤ c ∧ c ≤ (path.length : Int)) ∧
      (∀ c, matchDirectory head [] path = .ok (true, c) → c = (path.length : Int)) :=
  ⟨⟨matchSimple_ne_fuel _ _, matchDirectory_ne_fuel _ _ _, matchRecursively_ne_fuel _ _ _ _⟩,
    fun _ _ h => matchSimple_count h,
    fun _ _ h => ⟨(matchDirectory_count h).1, (matchDirectory_count h).2.1⟩,
    fun _ _ h => matchRecursively_count h,
    fun _ h => (matchDirectory_count h).2.2 rfl rfl⟩

/-- Witness of C31 at the chunk `a?`, the pattern `**a*b` and the path
`xa/ab`. -/
theorem C31_counts_within_path_witness :
    matchSimple (runes "a?") (runes "xa/ab") = .ok (false, 0) ∧
      matchDirectory (runes "b") [] (runes "ab") = .ok (true, 2) ∧
      (2 : Int) = ((runes "ab").length : Int) :=
  ⟨by decide, by decide,
    (C31_counts_within_path (runes "a?") (runes "**a*b") (runes "b") [] (runes "ab")).2.2.2.2 2
      (by decide)⟩

/-- C32: for a class body `b` that is not empty and does not begin with an
exclamation mark or a right bracket, such that `classIsValid` accepts
`[b]`, and for every rune `v` other than the separator, `matchClass` of
`[!b]` with negation is the complement of `matchClass` of `[b]` without
negation: the one returns the negated result of the other, and neither uses
up its iteration budget. -/
theorem C32_negation_flips (b : List Nat) (v : Nat) (hne : b ≠ [])
    (_h33 : b.head? ≠ some 33) (h93 : b.head? ≠ some 93)
    (_hvalid : classIsValid (runes "[" ++ b ++ runes "]") = .ok (b.length + 2, none))
    (hv : v ≠ Separator) :
    matchClass (runes "[!" ++ b ++ runes "]") v true =
        (matchClass (runes "[" ++ b ++ runes "]") v false >>= fun m => Run.ok (!m)) ∧
      matchClass (runes "[" ++ b ++ runes "]") v false ≠ .fuel := by
  have e1 : runes "[!" ++ b ++ runes "]" = 91 :: 33 :: (b ++ [93]) := rfl
  have e2 : runes "[" ++ b ++ runes "]" = 91 :: (b ++ [93]) := rfl
  rw [e1, e2]
  refine ⟨matchClass_negated b v ⟨?_, h93⟩ hv, matchClass_ne_fuel _ _ _⟩
  cases b with
  | nil => exact absurd rfl hne
  | cons x xs => simp

/-- Witness of C32 at the class body `a-c\]` and the rune `b`. -/
theorem C32_negation_flips_witness :
    matchClass (runes "[!" ++ [97, 45, 99, 92, 93] ++ runes "]") 98 true =
      (matchClass (runes "[" ++ [97, 45, 99, 92, 93] ++ runes "]") 98 false >>=
        fun m => Run.ok (!m)) :=
  (C32_negation_flips [97, 45, 99, 92, 93] 98 (by decide) (by decide) (by decide) (by decide)
    (by decide)).1

/-- C33: when `classIsValid` accepts `n` runes of `p`, then `3 ≤ n ≤ len p`,
the first rune is a left bracket, the rune at `n - 1` is a right bracket,
and the loop of `classIsValid` has ended at `n` with its flag `done` set,
which happens only where a right bracket is read as the end of the class
(not as an escaped rune and not as the high bound of a range). -/
theorem C33_valid_class_is_closed (p : List Nat) (n : Nat)
    (h : classIsValid p = .ok (n, none)) :
    3 ≤ n ∧ n ≤ p.length ∧ p[0]? = some 91 ∧ p[n - 1]? = some 93 ∧
      classIsValidScan p (p.length + 1) 1 0 false none = .ok (n, true, none) := by
  obtain ⟨h1, h2, h3, h4, h5⟩ := classIsValid_closed h
  exact ⟨h1, h2, (idx_ok h3).2, (idx_ok h4).2, h5⟩

/-- Witness of C33 at the class made of a left bracket, `a`, an escaped right
bracket and the closing right bracket. -/
theorem C33_valid_class_is_closed_witness :
    3 ≤ 5 ∧ 5 ≤ [91, 97, 92, 93, 93].length ∧ [91, 97, 92, 93, 93][0]? = some 91 ∧
      [91, 97, 92, 93, 93][5 - 1]? = some 93 ∧
      classIsValidScan [91, 97, 92, 93, 93] ([91, 97, 92, 93, 93].length + 1) 1 0 false none =
        .ok (5, true, none) :=
  C33_valid_class_is_closed [91, 97, 92, 93, 93] 5 (by decide)

/-- C34: `matchDirectory` and `matchRecursively` never use up their iteration
budgets, for any arguments; the outer loop of `matchRecursivePattern` needs
at most `len path + 1` rounds; each round of it re-anchors at most once, and
a re-anchoring cuts exactly one rune off the window `shifted`; and the retry
loop of `matchDirectory`, which drops one rune per shift, needs at most
`len path + 1` rounds. -/
theorem C34_matchers_terminate (pattern head tail path : List Nat) :
    matchDirectory head tail path ≠ .fuel ∧
      matchRecursively pattern head tail path ≠ .fuel ∧
      matchRecursiveLoop pattern path (path.length + 1) head tail false 0 path path ≠ .fuel ∧
      (∀ fuel s r, matchRecursiveTail pattern path fuel s = .ok r →
        (r.shifted = s.shifted ∧ r.more = s.more) ∨
          (sliceFrom s.shifted 1 = .ok r.shifted ∧ r.more = true ∧ r.mtch = false)) ∧
      (∀ subtotal, matchDirectoryRetry head (path.length + 1) path subtotal ≠ .fuel) ∧
      (∀ fuel subtotal r, matchDirectoryRetry head fuel path subtotal = .ok r →
        r.2.2.1.length ≤ path.length) :=
  ⟨matchDirectory_ne_fuel _ _ _, matchRecursively_ne_fuel _ _ _ _,
    matchRecursiveLoop_ne_fuel _ _ _ _ _ _ _ _ _ (Nat.lt_succ_self _),
    matchRecursiveTail_reanchor _ _,
    fun _ => matchDirectoryRetry_ne_fuel _ _ _ _ (Nat.lt_succ_self _),
    fun _ _ _ h => matchDirectoryRetry_length _ _ _ _ _ h⟩

/-- C35 (fails on the code): `Validate` accepts the pattern `[]*]`, for which
`nextValidPattern` returns the whole pattern as head and an empty tail, while
`nextPattern` returns the head `[]` and the tail `*]`. -/
theorem C35_validator_and_segmenter_differ :
    Validate (runes "[]*]") = .ok (4, none) ∧
    nextValidPattern (runes "[]*]") = .ok (runes "[]*]", [], none) ∧
    nextPattern (runes "[]*]") = .ok (runes "[]", runes "*]", patternSimple) ∧
    ([] : List Nat) ≠ runes "*]" := by
  decide

/-- C36 (fails on the code): `classIsValid` accepts all 5 runes of `[a-]]`,
reading the hyphen and the right bracket after it as a range, while
`getClass` returns the 4 runes `[a-]`. -/
theorem C36_validator_and_extractor_differ :
    classIsValid (runes "[a-]]") = .ok (5, none) ∧
    getClass (runes "[a-]]") = .ok (false, runes "[a-]") ∧
    (runes "[a-]").length ≠ 5 := by
  decide

/-- C37 (fails on the code): `Match` of `*a` against the path `aba` is true,
and `Match` of `**a` against the same path is false. -/
theorem C37_recursive_misses_single_level_match :
    Match (runes "*" ++ runes "a") (runes "aba") = .ok (true, 3) ∧
    Match (runes "**" ++ runes "a") (runes "aba") = .ok (false, 1) := by
  decide

/-- C38: when `Validate` returns an error, the error is `ErrGlobTruncated`,
`ErrGlobInvalidEscape`, `ErrGlobInvalidRange` or `ErrGlobReservedSymbol`, it
is neither `ErrGlobZeroLength` nor `ErrGlobNoLeftBracket`, and the length
returned with it is at most the number of runes of the pattern. -/
theorem C38_validate_errors (p : List Nat) (n : Nat) (e : globError)
    (h : Validate p = .ok (n, some e)) :
    (e = ErrGlobTruncated ∨ e = ErrGlobInvalidEscape ∨ e = ErrGlobInvalidRange ∨
        e = ErrGlobReservedSymbol) ∧
      e ≠ ErrGlobZeroLength ∧ e ≠ ErrGlobNoLeftBracket ∧ n ≤ p.length := by
  obtain ⟨hn, he⟩ := Validate_error h
  have hk := he e rfl
  refine ⟨hk, ?_, ?_, hn⟩
  · rintro rfl
    rcases hk with hx | hx | hx | hx <;> cases hx
  · rintro rfl
    rcases hk with hx | hx | hx | hx <;> cases hx

/-- Witness of C38 at the pattern `ab[c`. -/
theorem C38_validate_errors_witness :
    Validate (runes "ab[c") = .ok (3, some ErrGlobTruncated) ∧ 3 ≤ (runes "ab[c").length :=
  ⟨by decide, (C38_validate_errors (runes "ab[c") 3 ErrGlobTruncated (by decide)).2.2.2⟩

/-- C39: for a pattern without separator, left bracket and escape character
and without two asterisks in a row, a path that `Match` accepts contains no
separator. -/
theorem C39_single_level_never_crosses (p path : List Nat) (c : Int)
    (hlit : ∀ x ∈ p, x ≠ Separator ∧ x ≠ 91 ∧ x ≠ escapeCharacter)
    (hstar : ∀ i < p.length, p[i]? = some 42 → p[i + 1]? ≠ some 42)
    (h : Match p path = .ok (true, c)) : Separator ∉ path := by
  refine Match_single_level hlit ?_ h
  intro i hi
  by_cases hlt : i < p.length
  · exact hstar i hlt hi
  · rw [List.getElem?_eq_none (by omega)] at hi
    cases hi

/-- Witness of C39 at the pattern `a*b?` and the path `axxbc`. -/
theorem C39_single_level_never_crosses_witness :
    Match (runes "a*b?") (runes "axxbc") = .ok (true, 5) ∧ Separator ∉ runes "axxbc" :=
  ⟨by decide,
    C39_single_level_never_crosses (runes "a*b?") (runes "axxbc") 5 (by decide) (by decide)
      (by decide)⟩

end Glob
